import Mathlib

set_option maxHeartbeats 1000000

/-!
Verification of the mako `mpi.c` multi-precision integer library.

This file gives a shallow embedding of the arithmetic kernels of
`src/mpi.c` and proves (or refutes) the frozen specification claims
about them.  Machine limbs are embedded as natural numbers together
with an explicit base `B` (the code's `B = 2^MP_LIMB_BITS`); every
truncating machine operation is rendered as an explicit `% B` (or
`% B^k` for a `k`-limb buffer).  Stateful loops over limb arrays
become explicit state-passing recursions; loops whose trip count is
data-dependent take an explicit fuel argument (with fuel adequacy
established in the proofs) so that every definition is executable.

Layout: all definitions come first, then all lemmas and theorems.
-/

/-! ### Generic word helpers -/

/-- Fuel-driven bit length: `mp_bitlenF f n` is the number of binary
digits of `n`, provided `n ≤ f`.  Mirrors `mp_bitlen` in mpi.c
(`MP_LIMB_BITS - mp_clz(x)`). -/
def mp_bitlenF : ℕ → ℕ → ℕ
  | 0, _ => 0
  | f + 1, n => if n = 0 then 0 else mp_bitlenF f (n / 2) + 1

/-- Bit length of a natural number (`mp_bitlen` in mpi.c). -/
def mp_bitlen (n : ℕ) : ℕ := mp_bitlenF n n

/-- Fuel-driven count of trailing zero bits; `mp_ctzF f n` is the
2-adic valuation of `n` for `1 ≤ n ≤ f` (`mp_ctz` in mpi.c; the code
defines `ctz 0 = MP_LIMB_BITS`, a case none of the modeled callers
reach). -/
def mp_ctzF : ℕ → ℕ → ℕ
  | 0, _ => 0
  | f + 1, n => if n % 2 = 1 ∨ n = 0 then 0 else mp_ctzF f (n / 2) + 1

/-- Count of trailing zero bits (`mp_ctz` in mpi.c, and the combined
limb-plus-bit stripping of the `MPN_SHIFT_ZEROES` macro at value
level). -/
def mp_ctz (n : ℕ) : ℕ := mp_ctzF n n

/-! ### 2-by-1 division primitive (`mp_inv_2by1` / `mp_div_2by1`) -/

/-- Reciprocal of a normalized limb `d`, [DIV] page 2: the code
computes `mp_div(&q, &r, ~d, MP_LIMB_MAX, d)`, i.e. the quotient of
the two-limb value `(B - 1 - d) * B + (B - 1) = B^2 - 1 - d*B`
by `d`. -/
def mp_inv_2by1 (B d : ℕ) : ℕ := (B * B - 1 - d * B) / d

/-- Möller–Granlund Algorithm 4 (`mp_div_2by1` in mpi.c), dividing the
two-limb value `(u1, u0)` by the normalized limb `d` with precomputed
reciprocal `v`.  Every limb-sized intermediate is reduced `% B` exactly
where the machine arithmetic wraps:
`q1 -= 1` is `(q1 + B - 1) % B`, and `r0 = u0 - q1 * d` is the wrapped
difference of `u0` and the low limb of `q1 * d`. -/
def mp_div_2by1 (B d v u1 u0 : ℕ) : ℕ × ℕ :=
  let q1 := v * u1 / B
  let q0 := v * u1 % B
  let q0' := (q0 + u0) % B
  let q1' := (q1 + u1 + (if q0' < u0 then 1 else 0)) % B
  let q1'' := (q1' + 1) % B
  let r0 := (u0 + B - q1'' * d % B) % B
  let p1 : ℕ × ℕ :=
    if q0' < r0 then ((q1'' + B - 1) % B, (r0 + d) % B) else (q1'', r0)
  if d ≤ p1.2 then ((p1.1 + 1) % B, p1.2 - d) else p1

/-! ### Limb-vector division engine (value-level embedding)

The engine works on caller buffers of limbs.  A buffer of `k` limbs
holding the little-endian digits of a value `X < B^k` is embedded as
the value `X` together with explicit `% B^k` truncation wherever the
code discards limbs; reading limb `j` of the buffer is `X / B^j % B`.
The main Knuth Algorithm D loop walks the numerator from the most
significant end, so the numerator's low limbs are presented as an
explicit big-endian digit list. -/

/-- Comparison `u * v > (y1, y0)` on a full two-limb product
(`mp_mul_gt_2` in mpi.c): the code computes the wide product and
compares high limbs first. -/
def mp_mul_gt_2 (B u v y1 y0 : ℕ) : Bool :=
  decide (y1 < u * v / B) || (decide (u * v / B = y1) && decide (y0 < u * v % B))

/-- Quotient-estimation refinement loop of `mpn_divmod_large_2by1`
(step D3): repeat `qhat -= 1; rhat += vp[dn-1]` while
`qhat * vp[dn-2] > (rhat, up[j+dn-2])`, breaking when `rhat` wraps
past `B`.  The decrement `qhat - 1` never wraps: the guard forces
`qhat * d0 > 0`.  Fuel bounds the trip count; it is instantiated with
the initial `qhat`, which the proofs show is always sufficient. -/
def mpn_dl_qloop (B d1 d0 n0 : ℕ) : ℕ → ℕ → ℕ → ℕ × ℕ
  | 0, qhat, rhat => (qhat, rhat)
  | fuel + 1, qhat, rhat =>
    if mp_mul_gt_2 B qhat d0 rhat n0 then
      let rhat' := (rhat + d1) % B
      if rhat' < d1 then (qhat - 1, rhat')
      else mpn_dl_qloop B d1 d0 n0 fuel (qhat - 1) rhat'
    else (qhat, rhat)

/-- Step D3 of `mpn_divmod_large_2by1` in mpi.c: compute the trial
quotient digit for the window of value `w`.  Either the top window
limb `up[j+dn]` equals the top divisor limb `vp[dn-1]` and
`qhat := B - 1` is taken directly (the exceptional path), or the
2-by-1 division of the top two window limbs estimates it and
`mpn_dl_qloop` refines.  `D` is the value of the normalized divisor
`vp[0 .. dn-1]`, `m` the 2-by-1 reciprocal of its top limb. -/
def mpn_dl_qhat (B dn D m w : ℕ) : ℕ :=
  let n2 := w / B ^ dn % B
  let n1 := w / B ^ (dn - 1) % B
  let n0 := w / B ^ (dn - 2) % B
  let d1 := D / B ^ (dn - 1) % B
  let d0 := D / B ^ (dn - 2) % B
  if n2 = d1 then B - 1
  else
    let e0 := mp_div_2by1 B d1 m n2 n1
    (mpn_dl_qloop B d1 d0 n0 e0.1 e0.1 e0.2).1

/-- One iteration `j` of Knuth Algorithm D (`mpn_divmod_large_2by1` in
mpi.c, steps D3-D6) over the window `up[j .. j+dn]`, whose value is
`rem * B + dig` (`rem` is the remainder left in `up[j+1 .. j+dn]` by
the previous iteration, `dig` the next numerator limb `up[j]`).

After the D3 estimate, steps D4-D6 are `mpn_submul_1` plus the
top-limb subtraction (a `(dn+1)`-limb subtraction of `qhat * D` with
borrow flag `w < qhat * D`) followed, when the borrow fired, by the
add-back `mpn_add_n` (carry out of the top limb discarded) and
`qhat -= 1`.  The returned remainder keeps the low `dn` limbs, which
are all the next iteration reads. -/
def mpn_dl_step (B dn D m rem dig : ℕ) : ℕ × ℕ :=
  let w := rem * B + dig
  let qhat := mpn_dl_qhat B dn D m w
  let t := qhat * D
  let sub1 := (w + B ^ (dn + 1) - t % B ^ (dn + 1)) % B ^ (dn + 1)
  if w < t then (qhat - 1, (sub1 + D) % B ^ (dn + 1) % B ^ dn)
  else (qhat, sub1 % B ^ dn)

/-- The `j`-loop of `mpn_divmod_large_2by1` (D2/D7), consuming the
numerator limbs most significant first and emitting one quotient limb
per step. -/
def mpn_dl_loop (B dn D m : ℕ) (rem : ℕ) : List ℕ → List ℕ × ℕ
  | [] => ([], rem)
  | dig :: rest =>
    let s := mpn_dl_step B dn D m rem dig
    let t := mpn_dl_loop B dn D m s.2 rest
    (s.1 :: t.1, t.2)

/-- One iteration of `mpn_divmod_small_2by1` in mpi.c: build the
normalized two-limb numerator `(n1, n0)` by shifting `s` bits of the
next limb into the running remainder, divide by the normalized limb
divisor via `mp_div_2by1`, and de-normalize the remainder
(`r >>= s`). -/
def mpn_ds_step (L s dnorm m rem dig : ℕ) : ℕ × ℕ :=
  let B := 2 ^ L
  let n1 := if s = 0 then rem else rem * 2 ^ s % B + dig / 2 ^ (L - s)
  let n0 := if s = 0 then dig else dig * 2 ^ s % B
  let qr := mp_div_2by1 B dnorm m n1 n0
  (qr.1, qr.2 / 2 ^ s)

/-- The `j`-loop of `mpn_divmod_small_2by1`, most significant limb
first. -/
def mpn_ds_loop (L s dnorm m : ℕ) (rem : ℕ) : List ℕ → List ℕ × ℕ
  | [] => ([], rem)
  | dig :: rest =>
    let t := mpn_ds_step L s dnorm m rem dig
    let u := mpn_ds_loop L s dnorm m t.2 rest
    (t.1 :: u.1, u.2)

/-- Value of a big-endian digit list. -/
def mpn_val_be (B : ℕ) : List ℕ → ℕ
  | [] => 0
  | a :: l => a * B ^ l.length + mpn_val_be B l

/-- Value of a little-endian limb list (the layout of the C buffers). -/
def mpn_le_val (B : ℕ) : List ℕ → ℕ
  | [] => 0
  | a :: l => a + B * mpn_le_val B l

/-- The low `n` limbs of `X`, most significant first. -/
def mpn_digits_be (B n X : ℕ) : List ℕ :=
  (List.range n).map (fun i => X / B ^ (n - 1 - i) % B)

/-- `mpn_divmod` in mpi.c for a numerator of `nn` limbs holding `n`
and a divisor of `dn` limbs holding `d`: returns the little-endian
quotient buffer `qp` (of `nn - dn + 1` limbs) and the remainder
value.  For `dn = 1` this is `mpn_divmod_init_1` plus
`mpn_divmod_small_2by1`; otherwise `mpn_divmod_precomp` (normalize
`d` by `s = clz(top limb)`, take the 2-by-1 reciprocal of the
normalized top limb) plus `mpn_divmod_large_2by1` (D1 shifts the
numerator, D8 shifts the remainder back). -/
def mpn_divmod (L n nn d dn : ℕ) : List ℕ × ℕ :=
  let B := 2 ^ L
  if dn = 1 then
    let s := L - mp_bitlen d
    let dnorm := d * 2 ^ s
    let m := mp_inv_2by1 B dnorm
    let r := mpn_ds_loop L s dnorm m 0 (mpn_digits_be B nn n)
    (r.1.reverse, r.2)
  else
    let dtop := d / B ^ (dn - 1)
    let s := L - mp_bitlen dtop
    let D := d * 2 ^ s
    let m := mp_inv_2by1 B (D / B ^ (dn - 1))
    let X := n * 2 ^ s
    let rem0 := X / B ^ (nn - dn + 1)
    let r := mpn_dl_loop B dn D m rem0 (mpn_digits_be B (nn - dn + 1) X)
    (r.1.reverse, r.2 / 2 ^ s)

/-- Signed big-integer record of mpi.c: a signed limb count and a
little-endian limb buffer. -/
structure mpzR where
  size : ℤ
  limbs : List ℕ
deriving DecidableEq

/-- The limbs actually read by the mpz functions. -/
def limbsOf (z : mpzR) : List ℕ := z.limbs.take z.size.natAbs

/-- Magnitude of an mpz record. -/
def mpz_absval (L : ℕ) (z : mpzR) : ℕ := mpn_le_val (2 ^ L) (limbsOf z)

/-- Signed value of an mpz record. -/
def mpz_val (L : ℕ) (z : mpzR) : ℤ :=
  if z.size < 0 then -(mpz_absval L z : ℤ) else (mpz_absval L z : ℤ)

/-- Representation invariant of mpz records. -/
def mpz_valid (L : ℕ) (z : mpzR) : Prop :=
  z.size.natAbs ≤ z.limbs.length ∧ (∀ x ∈ z.limbs, x < 2 ^ L) ∧
    (z.size ≠ 0 → z.limbs.getD (z.size.natAbs - 1) 0 ≠ 0)

/-- The strip invariant alone: a non-zero size names a non-zero top limb. -/
def mpz_ok (z : mpzR) : Prop :=
  z.size ≠ 0 → z.limbs.getD (z.size.natAbs - 1) 0 ≠ 0

instance (L : ℕ) (z : mpzR) : Decidable (mpz_valid L z) := by
  unfold mpz_valid; infer_instance

instance (z : mpzR) : Decidable (mpz_ok z) := by
  unfold mpz_ok; infer_instance

/-- `mpn_strip` of mpi.c: the number of limbs once high zero limbs are
removed. -/
def mpn_strip (l : List ℕ) : ℕ := (l.reverse.dropWhile (fun x => x == 0)).length

/-- The low `n` limbs of `X`, least significant first (the C buffer
layout). -/
def mpn_digits_le (B n X : ℕ) : List ℕ :=
  (List.range n).map (fun i => X / B ^ i % B)

/-- `mpz_subabs` in mpi.c: subtract magnitudes (callers guarantee
`|y| <= |x|`, the C code asserts the absence of a borrow) and strip the
result.  The C function returns the stripped size; the caller stores it
with a sign.  We return the record with the positive size. -/
def mpz_subabs (L : ℕ) (x y : mpzR) : mpzR :=
  let xn := x.size.natAbs
  let zl := mpn_digits_le (2 ^ L) xn (mpz_absval L x - mpz_absval L y)
  ⟨(mpn_strip zl : ℤ), zl⟩

/-- `mpz_quorem` in mpi.c: truncating division `n = q*d + r` with
`sign r = sign n`, `sign q = sign n * sign d`.  The quotient buffer from
`mpn_divmod` has `nn - dn + 1` limbs and its size is corrected by the
single decrement `qn -= (qp[qn - 1] == 0)`; the remainder is
stripped. -/
def mpz_quorem (L : ℕ) (n d : mpzR) : mpzR × mpzR :=
  let nn := n.size.natAbs
  let dn := d.size.natAbs
  if mpz_absval L n < mpz_absval L d then
    (⟨0, []⟩, n)
  else
    let dm := mpn_divmod L (mpz_absval L n) nn (mpz_absval L d) dn
    let qn0 := nn - dn + 1
    let qn := qn0 - (if dm.1.getD (qn0 - 1) 0 = 0 then 1 else 0)
    let rl := mpn_digits_le (2 ^ L) dn dm.2
    let rn := mpn_strip rl
    (⟨if (n.size < 0) ≠ (d.size < 0) then -(qn : ℤ) else (qn : ℤ), dm.1⟩,
     ⟨if n.size < 0 then -(rn : ℤ) else (rn : ℤ), rl⟩)

/-- The dispatch prefix of `mpn_powm` in mpi.c: the aborts (zero or
unnormalized modulus, `xn > mn`) and the three early returns, applied in
the order of the source.  The exponent check compares the stripped `y`
against zero (the source strips `yp` first, so the length test there is
a value test), while the base check is `xn == 0` in the source, a test
on the limb count of `x`, not on its value.  `none` means no early
return fired (the call aborts or continues into the Montgomery /
division engines, which are not modeled and are the only readers of the
base value `x`). -/
def mpn_powm (L : ℕ) (x xn y m mn : ℕ) : Option ℕ :=
  if mn = 0 ∨ m / (2 ^ L) ^ (mn - 1) % 2 ^ L = 0 then none
  else if mn < xn then none
  else if mn = 1 ∧ m % 2 ^ L = 1 then some 0
  else if y = 0 then some 1
  else if xn = 0 then some 0
  else none

/-- `mpz_divisible_2exp_p` in mpi.c: do the `bits` low bits of `n`
vanish? -/
def mpz_divisible_2exp_p (L : ℕ) (n : mpzR) (bits : ℕ) : Bool :=
  let s := bits / L
  if n.size = 0 then true
  else if n.size.natAbs ≤ s then false
  else if n.limbs.getD s 0 % 2 ^ (bits % L) ≠ 0 then false
  else (List.range s).all (fun i => n.limbs.getD i 0 == 0)

/-- `mpz_tstbit` in mpi.c. -/
def mpz_tstbit (L : ℕ) (x : mpzR) (pos : ℕ) : ℕ :=
  let s := pos / L
  if x.size.natAbs ≤ s then (if x.size < 0 then 1 else 0)
  else
    let b := x.limbs.getD s 0 / 2 ^ (pos % L) % 2
    if x.size < 0 ∧ mpz_divisible_2exp_p L x pos = false then 1 - b else b

/-- `mpz_divround` in mpi.c at the level of integer values:
`t = d quo 2` (`mpz_quo_2exp(t, d, 1)` truncates toward zero), then
`t2 = n - t` when the signs of `n` and `d` differ and `n + t`
otherwise, and finally `q = t2 quo d` (`mpz_quo` truncates toward
zero). -/
def mpz_divround (n d : ℤ) : ℤ :=
  let t := Int.tdiv d 2
  let t2 := if (n < 0) ≠ (d < 0) then n - t else n + t
  Int.tdiv t2 d
/-- `mpn_reduce_weak` in mpi.c: compute `t = x - N` with its borrow
`c`, fold in the extra high limb `hi` (`c = (hi < c)`), and select `t`
when the subtraction did not underflow (`zp`, return 1) and `x`
otherwise (return 0).  `Bn` is the limb-count power `B^n`. -/
def mpn_reduce_weak (Bn x N hi : ℕ) : ℕ × Bool :=
  let c : ℕ := if x < N then 1 else 0
  let t := (x + Bn - N) % Bn
  if hi < c then (x, false) else (t, true)

/-- `mpn_barrett` in mpi.c: the reciprocal `m = B^shift / N`. -/
def mpn_barrett (L shift N : ℕ) : ℕ := (2 ^ L) ^ shift / N

/-- `mpn_reduce` in mpi.c: Barrett reduction.  `h = x*m >> (shift*L)`,
`q = x - h*N` over `shift` limbs (the product `h*N` is formed in full
but `mpn_sub_n` consumes only its low `shift` limbs), then one weak
reduction step on the low `n` limbs of `q` with high limb `qp[n]`. -/
def mpn_reduce (L n shift m N x : ℕ) : ℕ :=
  let B := 2 ^ L
  let h := x * m / B ^ shift
  let q := (x + B ^ shift - h * N % B ^ shift) % B ^ shift
  (mpn_reduce_weak (B ^ n) (q % B ^ n) N (q / B ^ n % B)).1
/-- One halving step of the Penk cofactors in `mpn_invert` of mpi.c:
if the cofactor is odd add the (odd) modulus `y`, then shift right by
one. -/
def mpn_halve (y a : ℕ) : ℕ := if a % 2 = 1 then (a + y) / 2 else a / 2

/-- `k` halving steps. -/
def mpn_halveK (y : ℕ) : ℕ → ℕ → ℕ
  | 0, a => a
  | k + 1, a => mpn_halveK y k (mpn_halve y a)

/-- `mpn_sub_mod` in mpi.c: `a - b` modulo `y` for `a, b < y`. -/
def mpn_sub_mod (a b y : ℕ) : ℕ := if b ≤ a then a - b else y - (b - a)

/-- The main loop of `mpn_invert` in mpi.c (Penk's right-shift binary
extended gcd): strip trailing zeros of `u` and `v` (halving the
cofactors `a` and `b` alongside, modulo the odd `y`), then subtract
the smaller of `u`, `v` from the larger, updating its cofactor
modulo `y`.  Returns the final `(v, b)`. -/
def mpn_invert_loop (y : ℕ) : ℕ → ℕ → ℕ → ℕ → ℕ → ℕ × ℕ
  | 0, _, v, _, b => (v, b)
  | fuel + 1, u, v, a, b =>
    if u = 0 then (v, b)
    else
      let uz := mp_ctz u
      let vz := mp_ctz v
      let u2 := u / 2 ^ uz
      let v2 := v / 2 ^ vz
      let a2 := mpn_halveK y uz a
      let b2 := mpn_halveK y vz b
      if v2 ≤ u2 then
        mpn_invert_loop y fuel (u2 - v2) v2 (mpn_sub_mod a2 b2 y) b2
      else
        mpn_invert_loop y fuel u2 (v2 - u2) a2 (mpn_sub_mod b2 a2 y)

/-- `mpn_invert` in mpi.c: Penk's binary extended gcd modulo the odd
`y`; fails (clearing the output) when `y = 1` or when the gcd is not
1. -/
def mpn_invert (x y : ℕ) : Option ℕ :=
  if y = 1 then none
  else
    let r := mpn_invert_loop y (x + y) x y 1 0
    if r.1 = 1 then some r.2 else none
/-- One cofactor halving step of `mpz_gcdext` in mpi.c: if either
cofactor is odd, add `vp` to the first and subtract `up` from the
second, then shift both right by one (`mpz_quo_2exp`, exact here). -/
def gz_halve (vp up A B : ℤ) : ℤ × ℤ :=
  let p := if A % 2 ≠ 0 ∨ B % 2 ≠ 0 then (A + vp, B - up) else (A, B)
  (Int.tdiv p.1 2, Int.tdiv p.2 2)

/-- Iterated cofactor halving. -/
def gz_halveK (vp up : ℤ) : ℕ → ℤ → ℤ → ℤ × ℤ
  | 0, A, B => (A, B)
  | k + 1, A, B =>
    gz_halveK vp up k (gz_halve vp up A B).1 (gz_halve vp up A B).2

/-- The main loop of `mpz_gcdext` in mpi.c (binary extended gcd,
Knuth Algorithm L shape): strip trailing zeros of `u` and `v` while
halving `(A, B)` respectively `(C, D)`, then subtract the smaller of
`u`, `v` from the larger and its cofactor pair from the other pair.
Returns `(v, C, D)`. -/
def mpz_gcdext_loop (up vp : ℤ) : ℕ → ℕ → ℕ → ℤ → ℤ → ℤ → ℤ → ℕ × ℤ × ℤ
  | 0, _, v, _, _, C, D => (v, C, D)
  | fuel + 1, u, v, A, B, C, D =>
    if u = 0 then (v, C, D)
    else
      let uz := mp_ctz u
      let vz := mp_ctz v
      let u2 := u / 2 ^ uz
      let v2 := v / 2 ^ vz
      let AB := gz_halveK vp up uz A B
      let CD := gz_halveK vp up vz C D
      if v2 ≤ u2 then
        mpz_gcdext_loop up vp fuel (u2 - v2) v2 (AB.1 - CD.1) (AB.2 - CD.2) CD.1 CD.2
      else
        mpz_gcdext_loop up vp fuel u2 (v2 - u2) AB.1 AB.2 (CD.1 - AB.1) (CD.2 - AB.2)

/-- `mpz_gcdext` in mpi.c at the level of integer values: returns
`(g, s, t)` with the zero cases of the source, the common power of two
removed up front and restored into `g`, and the sign fixes on the
cofactors. -/
def mpz_gcdext (x y : ℤ) : ℤ × ℤ × ℤ :=
  if x = 0 then (|y|, 0, Int.sign y)
  else if y = 0 then (|x|, Int.sign x, 0)
  else
    let u0 := x.natAbs
    let v0 := y.natAbs
    let shift := min (mp_ctz u0) (mp_ctz v0)
    let u1 := u0 / 2 ^ shift
    let v1 := v0 / 2 ^ shift
    let r := mpz_gcdext_loop (u1 : ℤ) (v1 : ℤ) (u1 + v1) u1 v1 1 0 0 1
    ((r.1 : ℤ) * 2 ^ shift,
     if x < 0 then -r.2.1 else r.2.1,
     if y < 0 then -r.2.2 else r.2.2)
/-- `mpz_invert` in mpi.c at the level of integer values: fail on
`x = 0`, `y = 0` or `|y| = 1`; for odd `y` reduce `x` into `[0, |y|)`
when needed and run `mpn_invert`; for even `y` run `mpz_gcdext` and
reduce the cofactor modulo `y` when the gcd is 1.  `none` models the
failing path (which clears the output and returns 0). -/
def mpz_invert (x y : ℤ) : Option ℤ :=
  if x = 0 ∨ y = 0 then none
  else if y.natAbs = 1 then none
  else if y.natAbs % 2 = 1 then
    if x < 0 ∨ y.natAbs ≤ x.natAbs then
      (mpn_invert (x % (y.natAbs : ℤ)).toNat y.natAbs).map (fun b : ℕ => (b : ℤ))
    else
      (mpn_invert x.natAbs y.natAbs).map (fun b : ℕ => (b : ℤ))
  else
    if (mpz_gcdext x y).1 = 1 then
      some ((mpz_gcdext x y).2.1 % (y.natAbs : ℤ))
    else none
/-- `mpz_powm_inner` in mpi.c at value level: hand the magnitudes to
`mpn_powm` (Montgomery or division engine), producing
`|x|^|y| mod |m|`. -/
def mpz_powm_inner (x y m : ℤ) : ℤ := ((x.natAbs ^ y.natAbs % m.natAbs : ℕ) : ℤ)

/-- `mpz_powm` in mpi.c: abort (`none`) on `m = 0`; for `y < 0` invert
`x` modulo `m` first, aborting when the inverse does not exist;
otherwise reduce `x` into `[0, |m|)` when it is negative or too large
and run the inner power. -/
def mpz_powm (x y m : ℤ) : Option ℤ :=
  if m = 0 then none
  else if y < 0 then
    (mpz_invert x m).map (fun t => mpz_powm_inner t y m)
  else if x < 0 ∨ m.natAbs ≤ x.natAbs then
    some (mpz_powm_inner (x % (m.natAbs : ℤ)) y m)
  else
    some (mpz_powm_inner x y m)

/-! ## Proofs -/

/-! ### Word-division arithmetic lemmas -/

lemma wrap_mod {B : ℕ} {a c : ℕ} (ha : a < B) (hc : c < B) :
    (a + c) % B = if a + c < B then a + c else a + c - B := by
  split
  · exact Nat.mod_eq_of_lt ‹_›
  · rw [Nat.mod_eq_sub_mod (by omega)]
    exact Nat.mod_eq_of_lt (by omega)



lemma int_mod_inj {B : ℤ} {r t : ℤ} (hr : 0 ≤ r) (hr2 : r < B)
    (ht : 0 ≤ t) (ht2 : t < B) (h : r % B = t % B) : r = t := by
  rw [Int.emod_eq_of_lt hr hr2, Int.emod_eq_of_lt ht ht2] at h
  exact h

lemma int_sub_mod_mod (x y B : ℤ) : (x - y % B) % B = (x - y) % B := by
  rw [Int.sub_emod, Int.emod_emod_of_dvd _ dvd_rfl, ← Int.sub_emod]

lemma r0_eq_of_ge {B d u1 u0 q : ℕ} (hB0 : 0 < B)
    (h : q * d ≤ u1 * B + u0) (hlt : u1 * B + u0 - q * d < B) :
    (u0 + B - q * d % B) % B = u1 * B + u0 - q * d := by
  have h1 : q * d % B < B := Nat.mod_lt _ hB0
  have h2 : q * d % B ≤ u0 + B := by omega
  have key : ((u0 + B - q * d % B) % B : ℤ) = ((u1 * B + u0 - q * d : ℕ) : ℤ) := by
    apply int_mod_inj (Int.emod_nonneg _ (by exact_mod_cast hB0.ne'))
      (by apply Int.emod_lt_of_pos; exact_mod_cast hB0)
      (by positivity) (by exact_mod_cast hlt)
    push_cast [h2, h]
    rw [Int.emod_emod_of_dvd _ dvd_rfl, int_sub_mod_mod]
    have e2 : (u0 : ℤ) + B - q * d = ((u1 : ℤ) * B + u0 - q * d) + B * (1 - u1) := by ring
    rw [e2, Int.add_mul_emod_self_left]
  exact_mod_cast key

lemma r0_eq_of_lt {B d u1 u0 q : ℕ} (hB0 : 0 < B)
    (h : u1 * B + u0 < q * d) (hlt : q * d ≤ u1 * B + u0 + B) :
    (u0 + B - q * d % B) % B = B - (q * d - (u1 * B + u0)) := by
  have h1 : q * d % B < B := Nat.mod_lt _ hB0
  have h2 : q * d % B ≤ u0 + B := by omega
  have hδ1 : 1 ≤ q * d - (u1 * B + u0) := by omega
  have hδ2 : q * d - (u1 * B + u0) ≤ B := by omega
  have hcast : ((B - (q * d - (u1 * B + u0)) : ℕ) : ℤ)
      = (B : ℤ) - ((q : ℤ) * d - ((u1 : ℤ) * B + u0)) := by
    rw [Nat.cast_sub hδ2, Nat.cast_sub (le_of_lt h)]
    push_cast
    ring
  have key : ((u0 + B - q * d % B) % B : ℤ) = ((B - (q * d - (u1 * B + u0)) : ℕ) : ℤ) := by
    apply int_mod_inj (Int.emod_nonneg _ (by exact_mod_cast hB0.ne'))
      (by apply Int.emod_lt_of_pos; exact_mod_cast hB0)
      (by positivity) (by rw [hcast]; push_cast; omega)
    rw [hcast]
    rw [Int.emod_emod_of_dvd _ dvd_rfl, int_sub_mod_mod]
    have e2 : (u0 : ℤ) + B - q * d
        = ((B : ℤ) - ((q : ℤ) * d - ((u1 : ℤ) * B + u0))) + B * (0 - u1) := by ring
    rw [e2, Int.add_mul_emod_self_left]
  exact_mod_cast key

lemma div2by1_G_ub {B d e u1 u0 Q1 Q0 : ℤ} (hB : 2 ≤ B) (hd0 : 1 ≤ d) (hd2 : d < B)
    (he : e < d) (he0 : 0 ≤ e) (hu1 : 0 ≤ u1) (hu1d : u1 < d) (hu0 : 0 ≤ u0) (hu0B : u0 < B)
    (hQ0 : 0 ≤ Q0) (hQ0B : Q0 < B)
    (hstar : B * ((u1*B + u0) - (Q1+1)*d) = u1*(e+1) + u0*(B-d) + d*Q0 - d*B) :
    u1*B + u0 < (Q1+1)*d + B := by
  have t4 : u1*(e+1) ≤ (d-1)*d := by
    apply mul_le_mul (by linarith) (by linarith) (by linarith) (by linarith)
  have t5 : u0*(B-d) ≤ (B-1)*(B-d) := by
    apply mul_le_mul_of_nonneg_right (by linarith) (by linarith)
  have t6 : d*Q0 ≤ d*(B-1) := by
    apply mul_le_mul_of_nonneg_left (by linarith) (by linarith)
  have h1 : B * ((u1*B + u0) - (Q1+1)*d) ≤ (d-1)*d + (B-1)*(B-d) + d*(B-1) - d*B := by
    linarith
  have h2 : (d-1)*d + (B-1)*(B-d) + d*(B-1) - d*B < B*B := by nlinarith
  have h3 : B * ((u1*B + u0) - (Q1+1)*d) < B*B := by linarith
  by_contra hcon
  push_neg at hcon
  have h4 : B*B ≤ B * ((u1*B + u0) - (Q1+1)*d) := by
    apply mul_le_mul_of_nonneg_left (by linarith) (by linarith)
  linarith

lemma div2by1_G_lb {B d e u1 u0 Q1 Q0 : ℤ} (hB : 2 ≤ B) (hd0 : 1 ≤ d) (hd2 : d < B)
    (he0 : 0 ≤ e) (hu1 : 0 ≤ u1) (hu0 : 0 ≤ u0) (hQ0 : 0 ≤ Q0)
    (hstar : B * ((u1*B + u0) - (Q1+1)*d) = u1*(e+1) + u0*(B-d) + d*Q0 - d*B) :
    (Q1+1)*d ≤ u1*B + u0 + d := by
  have t1 : (0:ℤ) ≤ u1*(e+1) := by positivity
  have t2 : (0:ℤ) ≤ u0*(B-d) := mul_nonneg hu0 (by linarith)
  have t3 : (0:ℤ) ≤ d*Q0 := mul_nonneg (by linarith) hQ0
  have h1 : -(d*B) ≤ B * ((u1*B + u0) - (Q1+1)*d) := by linarith
  by_contra hcon
  push_neg at hcon
  have h2 : B * ((u1*B + u0) - (Q1+1)*d) ≤ B * (-d - 1) := by
    apply mul_le_mul_of_nonneg_left (by linarith) (by linarith)
  nlinarith

lemma div2by1_P1 {B d e u1 u0 Q1 Q0 : ℤ} (hB : 2 ≤ B) (hd0 : 1 ≤ d) (hd2 : d < B)
    (he : e < d) (he0 : 0 ≤ e) (hu1 : 0 ≤ u1) (hu1d : u1 < d) (hu0 : 0 ≤ u0) (hu0B : u0 < B)
    (hQ0 : 0 ≤ Q0)
    (hT0 : 0 ≤ (u1*B + u0) - (Q1+1)*d)
    (hbr : Q0 < (u1*B + u0) - (Q1+1)*d)
    (hstar : B * ((u1*B + u0) - (Q1+1)*d) = u1*(e+1) + u0*(B-d) + d*Q0 - d*B) :
    (u1*B + u0) - (Q1+1)*d + d < B := by
  have t4 : u1*(e+1) ≤ (d-1)*d := by
    apply mul_le_mul (by linarith) (by linarith) (by linarith) (by linarith)
  have t5 : u0*(B-d) ≤ (B-1)*(B-d) := by
    apply mul_le_mul_of_nonneg_right (by linarith) (by linarith)
  have t6 : d*Q0 ≤ d*((u1*B + u0) - (Q1+1)*d - 1) := by
    apply mul_le_mul_of_nonneg_left (by linarith) (by linarith)
  have h2 : (B-d)*((u1*B + u0) - (Q1+1)*d) ≤ (B-d)*(B-d) - (B+d) := by nlinarith
  by_contra hcon
  push_neg at hcon
  have h4 : (B-d)*(B-d) ≤ (B-d)*((u1*B + u0) - (Q1+1)*d) := by
    apply mul_le_mul_of_nonneg_left (by linarith) (by linarith)
  linarith

lemma div2by1_N_br {B d e u1 u0 Q1 Q0 δ : ℤ} (hB : 2 ≤ B) (hd0 : 1 ≤ d) (hd2 : d < B)
    (he0 : 0 ≤ e) (hu1 : 0 ≤ u1) (hu0 : 0 ≤ u0) (hQ0 : 0 ≤ Q0)
    (hδ1 : 1 ≤ δ) (hδd : δ ≤ d)
    (hδz : (Q1+1)*d = u1*B + u0 + δ)
    (hstar : B * ((u1*B + u0) - (Q1+1)*d) = u1*(e+1) + u0*(B-d) + d*Q0 - d*B) :
    Q0 < B - δ := by
  have t1 : (0:ℤ) ≤ u1*(e+1) := by positivity
  have t2 : (0:ℤ) ≤ u0*(B-d) := mul_nonneg hu0 (by linarith)
  have t10 : (1:ℤ)*1 ≤ (B-d)*δ := by
    apply mul_le_mul (by linarith) (by linarith) (by linarith) (by linarith)
  by_contra hcon
  push_neg at hcon
  have t9 : d*(B-δ) ≤ d*Q0 := by
    apply mul_le_mul_of_nonneg_left (by linarith) (by linarith)
  nlinarith

theorem mp_div_2by1_correct (B d v u1 u0 : ℕ) (hB : 2 ≤ B) (hd1 : B ≤ 2 * d)
    (hd2 : d < B) (hv : v = mp_inv_2by1 B d) (hu1 : u1 < d) (hu0 : u0 < B) :
    mp_div_2by1 B d v u1 u0 = ((u1 * B + u0) / d, (u1 * B + u0) % d) := by
  have hd0 : 0 < d := by omega
  have hB0 : 0 < B := by omega
  set w := (B * B - 1) / d with hw
  set e := (B * B - 1) % d with he_def
  have hBB1 : 0 < B * B := by positivity
  have hdB : d * B + B ≤ B * B := by nlinarith
  have hvw : v + B = w := by
    rw [hv, mp_inv_2by1, hw]
    rw [← Nat.add_mul_div_left _ _ hd0]
    congr 1
    omega
  have hwd : d * w + e = B * B - 1 := Nat.div_add_mod _ _
  have he : e < d := Nat.mod_lt _ hd0
  have hwd' : d * w + e + 1 = B * B := by rw [hwd, Nat.sub_add_cancel hBB1]
  -- integer versions of the arithmetic facts
  have hwdz : (d : ℤ) * w + e + 1 = B * B := by exact_mod_cast hwd'
  have hez : (e : ℤ) < d := by exact_mod_cast he
  have hd2z : (d : ℤ) < B := by exact_mod_cast hd2
  have hd1z : (B : ℤ) ≤ 2 * d := by exact_mod_cast hd1
  have hu1z : (u1 : ℤ) < d := by exact_mod_cast hu1
  have hu0z : (u0 : ℤ) < B := by exact_mod_cast hu0
  have hBz : (2 : ℤ) ≤ B := by exact_mod_cast hB
  have hw_lb : B + 1 ≤ w := by
    have : (B : ℤ) + 1 ≤ w := by nlinarith
    exact_mod_cast this
  have hw_ub : w < 2 * B := by
    have : (w : ℤ) < 2 * B := by nlinarith
    exact_mod_cast this
  set P := w * u1 + u0 with hPdef
  have hP_ub : P < B * B := by
    have : (w : ℤ) * u1 + u0 < B * B := by nlinarith
    rw [hPdef]
    exact_mod_cast this
  set Q1 := P / B with hQ1def
  set Q0 := P % B with hQ0def
  have hQ1B : Q1 < B := Nat.div_lt_of_lt_mul hP_ub
  have hQ0B : Q0 < B := Nat.mod_lt _ hB0
  have hPQ : B * Q1 + Q0 = w * u1 + u0 := Nat.div_add_mod P B
  -- normal form of the carry chain: q0' = Q0
  have hq0' : (v * u1 % B + u0) % B = Q0 := by
    rw [Nat.mod_add_mod, hQ0def, hPdef, show w = v + B by omega, add_mul]
    rw [show v * u1 + B * u1 + u0 = v * u1 + u0 + B * u1 by ring]
    rw [Nat.add_mul_mod_self_left]
  -- normal form of the high-limb chain: q1' = Q1
  have hq1' : (v * u1 / B + u1 + if Q0 < u0 then 1 else 0) = Q1 := by
    set a := v * u1 / B with ha
    have hb : v * u1 % B < B := Nat.mod_lt _ hB0
    have hab : B * a + v * u1 % B = v * u1 := Nat.div_add_mod _ _
    have hP2 : P = B * (a + u1) + (v * u1 % B + u0) := by
      rw [hPdef, show w = v + B by omega, add_mul]
      nth_rewrite 1 [← hab]
      ring
    have hcarry : (Q0 < u0) ↔ (B ≤ v * u1 % B + u0) := by
      rw [← hq0', wrap_mod hb hu0]
      split <;> omega
    rcases le_or_lt B (v * u1 % B + u0) with hc | hc
    · rw [if_pos (hcarry.2 hc)]
      rw [hQ1def, hP2, Nat.mul_add_div hB0]
      have : (v * u1 % B + u0) / B = 1 := by
        apply Nat.div_eq_of_lt_le <;> omega
      omega
    · rw [if_neg (by rw [hcarry]; omega)]
      rw [hQ1def, hP2, Nat.mul_add_div hB0]
      have : (v * u1 % B + u0) / B = 0 := Nat.div_eq_of_lt hc
      omega
  clear_value w e P Q1 Q0
  -- (★) the Möller–Granlund identity
  have hPQz : (B:ℤ) * Q1 + Q0 = (w:ℤ) * u1 + u0 := by exact_mod_cast hPQ
  have hQ0Bz : (Q0:ℤ) < B := by exact_mod_cast hQ0B
  have hd0z : (1:ℤ) ≤ (d:ℤ) := by exact_mod_cast hd0
  have hstar : (B:ℤ) * (((u1:ℤ)*B + u0) - ((Q1:ℤ)+1)*d)
      = (u1:ℤ)*(e+1) + (u0:ℤ)*((B:ℤ)-d) + (d:ℤ)*Q0 - (d:ℤ)*B := by
    linear_combination (-(d:ℤ)) * hPQz - (u1:ℤ) * hwdz
  have G_ub : u1*B + u0 < (Q1+1)*d + B := by
    have hZ := div2by1_G_ub hBz hd0z hd2z hez (by positivity) (by positivity) hu1z
      (by positivity) hu0z (by positivity) hQ0Bz hstar
    exact_mod_cast hZ
  have G_lb : (Q1+1)*d ≤ u1*B + u0 + d := by
    have hZ := div2by1_G_lb hBz hd0z hd2z (by positivity) (by positivity)
      (by positivity) (by positivity) hstar
    exact_mod_cast hZ
  -- unfold the algorithm and normalize
  simp only [mp_div_2by1]
  rw [hq0', hq1', Nat.mod_eq_of_lt hQ1B, Nat.mod_mul_mod]
  rcases le_or_lt ((Q1+1)*d) (u1*B + u0) with hT | hT
  · -- non-negative candidate remainder
    have hu_ub : u1*B + u0 < B*d := by
      have h1 : (u1+1)*B ≤ d*B := Nat.mul_le_mul_right B hu1
      calc u1*B + u0 < u1*B + B := Nat.add_lt_add_left hu0 _
        _ = (u1+1)*B := by ring
        _ ≤ d*B := h1
        _ = B*d := Nat.mul_comm d B
    have hqclt : Q1 + 1 < B :=
      Nat.lt_of_mul_lt_mul_right (lt_of_le_of_lt hT hu_ub)
    have hTB : u1*B + u0 - (Q1+1)*d < B :=
      (Nat.sub_lt_iff_lt_add hT).mpr (by linarith [G_ub])
    rw [r0_eq_of_ge hB0 hT hTB, Nat.mod_eq_of_lt hqclt]
    by_cases hbr : Q0 < u1*B + u0 - (Q1+1)*d
    · -- spurious first adjustment, undone by the second
      have hbrz : (Q0:ℤ) < (u1:ℤ)*B + u0 - ((Q1:ℤ)+1)*d := by
        zify [hT] at hbr
        exact hbr
      have hTd : u1*B + u0 - (Q1+1)*d + d < B := by
        zify [hT]
        have hZ := div2by1_P1 hBz hd0z hd2z hez (by positivity) (by positivity) hu1z
          (by positivity) hu0z (by positivity) (by linarith) hbrz hstar
        linarith
      rw [if_pos hbr]
      have e1 : (Q1 + 1 + B - 1) % B = Q1 := by
        rw [show Q1+1+B-1 = Q1 + B by omega, Nat.add_mod_right]
        exact Nat.mod_eq_of_lt hQ1B
      have e2 : (u1*B + u0 - (Q1+1)*d + d) % B = u1*B + u0 - (Q1+1)*d + d :=
        Nat.mod_eq_of_lt hTd
      simp only [e1, e2]
      rw [if_pos (Nat.le_add_left d _)]
      simp only [Nat.add_sub_cancel]
      rw [Nat.mod_eq_of_lt hqclt]
      have hu_eq : u1*B + u0 = (u1*B + u0 - (Q1+1)*d) + (Q1+1)*d :=
        (Nat.sub_add_cancel hT).symm
      have hTlt : u1*B + u0 - (Q1+1)*d < d := by
        zify [hT] at hTd ⊢
        linarith [hd1z]
      rw [Prod.mk.injEq]
      constructor
      · conv_rhs => rw [hu_eq]
        rw [Nat.add_mul_div_right _ _ hd0, Nat.div_eq_of_lt hTlt, zero_add]
      · conv_rhs => rw [hu_eq]
        rw [Nat.add_mul_mod_self_right, Nat.mod_eq_of_lt hTlt]
    · rw [if_neg hbr]
      by_cases hbr2 : d ≤ u1*B + u0 - (Q1+1)*d
      · rw [if_pos hbr2]
        have hq2 : (Q1+1+1)*d ≤ u1*B + u0 := by
          have hq2z : ((Q1:ℤ)+1+1)*d ≤ (u1:ℤ)*B+u0 := by
            zify [hT] at hbr2
            linarith
          exact_mod_cast hq2z
        have hqclt2 : Q1 + 1 + 1 < B :=
          Nat.lt_of_mul_lt_mul_right (lt_of_le_of_lt hq2 hu_ub)
        rw [Nat.mod_eq_of_lt hqclt2]
        have hu_eq : u1*B + u0 = (u1*B + u0 - (Q1+1)*d - d) + (Q1+1+1)*d := by
          zify [hT, hbr2]
          ring
        have hTlt : u1*B + u0 - (Q1+1)*d - d < d := by
          have hGz : (u1:ℤ)*B + u0 < ((Q1:ℤ)+1)*d + B := by exact_mod_cast G_ub
          zify [hT, hbr2]
          linarith [hd1z]
        rw [Prod.mk.injEq]
        constructor
        · conv_rhs => rw [hu_eq]
          rw [Nat.add_mul_div_right _ _ hd0, Nat.div_eq_of_lt hTlt, zero_add]
        · conv_rhs => rw [hu_eq]
          rw [Nat.add_mul_mod_self_right, Nat.mod_eq_of_lt hTlt]
      · rw [if_neg hbr2]
        have hu_eq : u1*B + u0 = (u1*B + u0 - (Q1+1)*d) + (Q1+1)*d :=
          (Nat.sub_add_cancel hT).symm
        have hTlt : u1*B + u0 - (Q1+1)*d < d := Nat.lt_of_not_le hbr2
        rw [Prod.mk.injEq]
        constructor
        · conv_rhs => rw [hu_eq]
          rw [Nat.add_mul_div_right _ _ hd0, Nat.div_eq_of_lt hTlt, zero_add]
        · conv_rhs => rw [hu_eq]
          rw [Nat.add_mul_mod_self_right, Nat.mod_eq_of_lt hTlt]
  · -- negative candidate remainder: first adjustment must fire
    obtain ⟨δ, hδ⟩ : ∃ δ, (Q1+1)*d = u1*B + u0 + δ :=
      ⟨_, (Nat.add_sub_cancel' hT.le).symm⟩
    have hδ1 : 1 ≤ δ := by
      rcases Nat.eq_zero_or_pos δ with h | h
      · rw [h, Nat.add_zero] at hδ
        rw [hδ] at hT
        exact absurd hT (lt_irrefl _)
      · exact h
    have hδd : δ ≤ d := by linarith [G_lb, hδ.symm.le, hδ.le]
    have hδ2 : (Q1+1)*d - (u1*B + u0) = δ := by
      rw [hδ, Nat.add_sub_cancel_left]
    rw [r0_eq_of_lt hB0 hT (by linarith [G_lb, hd2.le]), hδ2]
    have hδz : ((Q1:ℤ)+1)*d = (u1:ℤ)*B + u0 + δ := by exact_mod_cast hδ
    have hbrN : Q0 < B - δ := by
      have hδB : δ ≤ B := le_trans hδd hd2.le
      have hZ := div2by1_N_br hBz hd0z hd2z (by positivity) (by positivity)
        (by positivity) (by positivity) (by exact_mod_cast hδ1) (by exact_mod_cast hδd)
        hδz hstar
      zify [hδB]
      exact hZ
    rw [if_pos hbrN]
    have e1 : ((Q1+1) % B + B - 1) % B = Q1 := by
      rw [show (Q1+1) % B + B - 1 = (Q1+1) % B + (B-1) by omega,
        Nat.mod_add_mod, show Q1+1+(B-1) = Q1 + B by omega, Nat.add_mod_right]
      exact Nat.mod_eq_of_lt hQ1B
    have e2 : (B - δ + d) % B = d - δ := by
      rw [show B - δ + d = B + (d - δ) by omega, Nat.add_mod_left]
      exact Nat.mod_eq_of_lt (by omega)
    simp only [e1, e2]
    rw [if_neg (by omega : ¬ d ≤ d - δ)]
    have hu_eq : u1*B + u0 = (d - δ) + Q1*d := by
      have hZ : (u1:ℤ)*B + u0 = ((d:ℤ) - δ) + (Q1:ℤ)*d := by linarith [hδz]
      zify [hδd]
      linarith
    rw [Prod.mk.injEq]
    constructor
    · conv_rhs => rw [hu_eq]
      rw [Nat.add_mul_div_right _ _ hd0, Nat.div_eq_of_lt (by omega), zero_add]
    · conv_rhs => rw [hu_eq]
      rw [Nat.add_mul_mod_self_right, Nat.mod_eq_of_lt (by omega)]

lemma mp_bitlenF_zero (f : ℕ) : mp_bitlenF f 0 = 0 := by
  cases f <;> simp [mp_bitlenF]

-- bitlen characterization
lemma mp_bitlenF_correct : ∀ f n, n ≤ f →
    n < 2 ^ mp_bitlenF f n ∧ (1 ≤ n → 2 ^ (mp_bitlenF f n - 1) ≤ n) := by
  intro f
  induction f with
  | zero =>
    intro n hn
    interval_cases n
    simp [mp_bitlenF]
  | succ f ih =>
    intro n hn
    by_cases h0 : n = 0
    · subst h0; simp [mp_bitlenF]
    · have hrec : n / 2 ≤ f := by omega
      obtain ⟨ih1, ih2⟩ := ih (n / 2) hrec
      rw [mp_bitlenF, if_neg h0]
      constructor
      · have : n ≤ 2 * (n / 2) + 1 := by omega
        calc n ≤ 2 * (n / 2) + 1 := this
          _ < 2 * 2 ^ mp_bitlenF f (n / 2) := by omega
          _ = 2 ^ (mp_bitlenF f (n / 2) + 1) := by ring
      · intro _
        by_cases h2 : n / 2 = 0
        · rw [h2, mp_bitlenF_zero] at ih1 ⊢
          simp only [pow_zero, Nat.add_sub_cancel, pow_one]
          omega
        · have h3 : 1 ≤ mp_bitlenF f (n / 2) := by
            rcases Nat.eq_zero_or_pos (mp_bitlenF f (n/2)) with h | h
            · rw [h] at ih1; omega
            · exact h
          have h4 := ih2 (by omega)
          have h5 : 2 ^ (mp_bitlenF f (n / 2) + 1 - 1) = 2 * 2 ^ (mp_bitlenF f (n / 2) - 1) := by
            rw [Nat.add_sub_cancel, ← pow_succ']
            congr 1
            omega
          rw [h5]
          omega

lemma mp_bitlen_lt (n : ℕ) : n < 2 ^ mp_bitlen n :=
  (mp_bitlenF_correct n n le_rfl).1

lemma mp_bitlen_le (n : ℕ) (h : 1 ≤ n) : 2 ^ (mp_bitlen n - 1) ≤ n :=
  (mp_bitlenF_correct n n le_rfl).2 h

lemma mp_bitlen_pos (n : ℕ) (h : 1 ≤ n) : 1 ≤ mp_bitlen n := by
  rcases Nat.eq_zero_or_pos (mp_bitlen n) with h2 | h2
  · have := mp_bitlen_lt n
    rw [h2] at this
    omega
  · exact h2

lemma mp_bitlen_le_of_lt {n L : ℕ} (h : n < 2 ^ L) : mp_bitlen n ≤ L := by
  by_contra hcon
  push_neg at hcon
  rcases Nat.eq_zero_or_pos n with h0 | h0
  · subst h0
    simp [mp_bitlen, mp_bitlenF] at hcon
  · have h1 := mp_bitlen_le n h0
    have h2 : L ≤ mp_bitlen n - 1 := by omega
    have := Nat.pow_le_pow_right (by norm_num : 1 ≤ 2) h2
    omega

-- normalization: for 1 ≤ x < 2^L and s = L - bitlen x, 2^(L-1) ≤ x * 2^s < 2^L
lemma mp_norm_bounds {L x : ℕ} (hx : 1 ≤ x) (hxL : x < 2 ^ L) :
    2 ^ (L - 1) ≤ x * 2 ^ (L - mp_bitlen x) ∧ x * 2 ^ (L - mp_bitlen x) < 2 ^ L := by
  have hbl := mp_bitlen_pos x hx
  have hbL := mp_bitlen_le_of_lt hxL
  have h1 := mp_bitlen_le x hx
  have h2 := mp_bitlen_lt x
  constructor
  · calc 2 ^ (L - 1) = 2 ^ (mp_bitlen x - 1) * 2 ^ (L - mp_bitlen x) := by
          rw [← pow_add]
          congr 1
          omega
      _ ≤ x * 2 ^ (L - mp_bitlen x) := Nat.mul_le_mul_right _ h1
  · calc x * 2 ^ (L - mp_bitlen x) < 2 ^ mp_bitlen x * 2 ^ (L - mp_bitlen x) :=
          (Nat.mul_lt_mul_right (by positivity)).mpr h2
      _ = 2 ^ L := by
          rw [← pow_add]
          congr 1
          omega

-- digit list lemmas
lemma mpn_digits_be_succ (B n X : ℕ) :
    mpn_digits_be B (n + 1) X = (X / B ^ n % B) :: mpn_digits_be B n X := by
  rw [mpn_digits_be, mpn_digits_be, List.range_succ_eq_map, List.map_cons]
  simp only [Nat.add_sub_cancel, Nat.sub_zero, List.map_map]
  congr 1
  apply List.map_congr_left
  intro i _
  simp only [Function.comp_apply]
  congr 3
  omega

lemma mpn_digits_be_length (B n X : ℕ) : (mpn_digits_be B n X).length = n := by
  simp [mpn_digits_be]

lemma mpn_digits_be_lt (B n X : ℕ) (hB : 0 < B) :
    ∀ x ∈ mpn_digits_be B n X, x < B := by
  intro x hx
  simp only [mpn_digits_be, List.mem_map] at hx
  obtain ⟨i, _, rfl⟩ := hx
  exact Nat.mod_lt _ hB

lemma mpn_digits_be_val (B n X : ℕ) (hB : 0 < B) :
    mpn_val_be B (mpn_digits_be B n X) = X % B ^ n := by
  induction n with
  | zero => simp [mpn_digits_be, mpn_val_be, Nat.mod_one]
  | succ n ih =>
    rw [mpn_digits_be_succ, mpn_val_be, ih, mpn_digits_be_length]
    rw [Nat.mod_pow_succ]
    ring

lemma mpn_val_be_lt (B : ℕ) (hB : 0 < B) :
    ∀ l : List ℕ, (∀ x ∈ l, x < B) → mpn_val_be B l < B ^ l.length := by
  intro l
  induction l with
  | nil => simp [mpn_val_be]
  | cons a t ih =>
    intro hl
    rw [mpn_val_be, List.length_cons]
    have h1 : a < B := hl a (by simp)
    have h2 := ih (fun x hx => hl x (by simp [hx]))
    calc a * B ^ t.length + mpn_val_be B t
        < (a + 1) * B ^ t.length := by linarith [h2, (by ring : (a + 1) * B ^ t.length = a * B ^ t.length + B ^ t.length)]
      _ ≤ B * B ^ t.length := Nat.mul_le_mul_right _ (by omega)
      _ = B ^ (t.length + 1) := (pow_succ' B t.length).symm

lemma mpn_le_val_append (B : ℕ) (l : List ℕ) (a : ℕ) :
    mpn_le_val B (l ++ [a]) = mpn_le_val B l + a * B ^ l.length := by
  induction l with
  | nil =>
    simp only [List.nil_append, mpn_le_val, List.length_nil, pow_zero]
    ring
  | cons b t ih =>
    rw [List.cons_append]
    simp only [mpn_le_val]
    rw [ih, List.length_cons]
    ring

lemma mpn_le_val_reverse (B : ℕ) (l : List ℕ) :
    mpn_le_val B l.reverse = mpn_val_be B l := by
  induction l with
  | nil => rfl
  | cons a t ih =>
    rw [List.reverse_cons, mpn_le_val_append, ih, mpn_val_be, List.length_reverse]
    ring

-- mp_mul_gt_2 is the lexicographic comparison of u * v against (y1, y0)
lemma lex_lt_iff (B hi lo y1 y0 : ℕ) (hy0 : y0 < B) (hlo : lo < B) :
    (y1 < hi ∨ (hi = y1 ∧ y0 < lo)) ↔ y1 * B + y0 < B * hi + lo := by
  constructor
  · rintro (h | ⟨heq, h⟩)
    · have h1 : (y1 + 1) * B ≤ hi * B := Nat.mul_le_mul_right _ h
      have h2 : (y1 + 1) * B = y1 * B + B := by ring
      have h3 : hi * B = B * hi := by ring
      linarith
    · subst heq
      linarith [(by ring : hi * B = B * hi)]
  · intro h
    by_contra hcon
    push_neg at hcon
    obtain ⟨h1, h2⟩ := hcon
    rcases lt_or_eq_of_le h1 with h3 | h3
    · have h4 : (hi + 1) * B ≤ y1 * B := Nat.mul_le_mul_right _ h3
      have h5 : (hi + 1) * B = B * hi + B := by ring
      linarith
    · have h6 := h2 h3
      subst h3
      linarith [(by ring : hi * B = B * hi)]

lemma mp_mul_gt_2_iff (B u v y1 y0 : ℕ) (hB : 0 < B) (hy0 : y0 < B) :
    mp_mul_gt_2 B u v y1 y0 = true ↔ y1 * B + y0 < u * v := by
  have hdm : B * (u * v / B) + u * v % B = u * v := Nat.div_add_mod _ _
  rw [mp_mul_gt_2]
  simp only [Bool.or_eq_true, Bool.and_eq_true, decide_eq_true_eq]
  rw [lex_lt_iff B (u * v / B) (u * v % B) y1 y0 hy0 (Nat.mod_lt _ hB), hdm]

-- the quotient-estimation loop computes the exact 3-by-2 quotient
lemma mpn_dl_qloop_correct (B d1 d0 n0 u2 : ℕ) (hB : 0 < B) (hd0B : d0 < B)
    (hd1B : d1 < B) (hn0 : n0 < B) :
    ∀ fuel qhat rhat,
      u2 = qhat * d1 + rhat → rhat < B → qhat < B →
      u2 * B + n0 < (qhat + 1) * (d1 * B + d0) →
      qhat ≤ fuel + (u2 * B + n0) / (d1 * B + d0) →
      (mpn_dl_qloop B d1 d0 n0 fuel qhat rhat).1 * (d1 * B + d0) ≤ u2 * B + n0 ∧
      u2 * B + n0 < ((mpn_dl_qloop B d1 d0 n0 fuel qhat rhat).1 + 1) * (d1 * B + d0) := by
  intro fuel
  induction fuel with
  | zero =>
    intro qhat rhat hrel hrB hqB hinv2 hfuel
    rw [mpn_dl_qloop]
    refine ⟨?_, hinv2⟩
    rcases Nat.eq_zero_or_pos (d1 * B + d0) with hD2 | hD2
    · simp [hD2]
    · have h1 : qhat ≤ (u2 * B + n0) / (d1 * B + d0) := by omega
      calc qhat * (d1 * B + d0) ≤ ((u2 * B + n0) / (d1 * B + d0)) * (d1 * B + d0) :=
            Nat.mul_le_mul_right _ h1
        _ ≤ u2 * B + n0 := Nat.div_mul_le_self _ _
  | succ fuel ih =>
    intro qhat rhat hrel hrB hqB hinv2 hfuel
    rw [mpn_dl_qloop]
    by_cases hcond : mp_mul_gt_2 B qhat d0 rhat n0 = true
    · rw [if_pos hcond]
      rw [mp_mul_gt_2_iff B qhat d0 rhat n0 hB hn0] at hcond
      -- cond true: qhat * D2 > u2 * B + n0, so qhat ≥ 1 and the estimate is too big
      have hq1 : 1 ≤ qhat := by
        rcases Nat.eq_zero_or_pos qhat with h0 | h0
        · rw [h0, Nat.zero_mul] at hcond
          exact absurd hcond (Nat.not_lt_zero _)
        · exact h0
      have hinv2' : u2 * B + n0 < (qhat - 1 + 1) * (d1 * B + d0) := by
        have h2 : qhat * (d1 * B + d0) = qhat * d1 * B + qhat * d0 := by ring
        have h3 : rhat * B + n0 < qhat * d0 := hcond
        have h4 : u2 * B = qhat * d1 * B + rhat * B := by rw [hrel]; ring
        have h5 : qhat - 1 + 1 = qhat := by omega
        rw [h5]
        linarith
      -- the decrement keeps qhat at or above the true quotient
      have hgt : (u2 * B + n0) / (d1 * B + d0) < qhat := by
        have hD2 : 0 < d1 * B + d0 := by
          rcases Nat.eq_zero_or_pos (d1 * B + d0) with h0 | h0
          · exfalso
            have h4 : d0 = 0 := (Nat.add_eq_zero.mp h0).2
            have h3 : rhat * B + n0 < qhat * d0 := hcond
            rw [h4, Nat.mul_zero] at h3
            exact absurd h3 (Nat.not_lt_zero _)
          · exact h0
        rw [Nat.div_lt_iff_lt_mul hD2]
        have h3 : rhat * B + n0 < qhat * d0 := hcond
        have h4 : u2 * B = qhat * d1 * B + rhat * B := by rw [hrel]; ring
        have h5 : qhat * (d1 * B + d0) = qhat * d1 * B + qhat * d0 := by ring
        linarith
      by_cases hbrk : (rhat + d1) % B < d1
      · rw [if_pos hbrk]
        simp only []
        refine ⟨?_, hinv2'⟩
        -- wrap: rhat + d1 ≥ B, so the true remainder u2 - (qhat-1)*d1 ≥ B
        have hwrap : B ≤ rhat + d1 := by
          by_contra hc
          push_neg at hc
          rw [Nat.mod_eq_of_lt hc] at hbrk
          omega
        have h4 : u2 = (qhat - 1) * d1 + (rhat + d1) := by
          have h8 : (qhat - 1) * d1 + d1 = qhat * d1 := by
            have h5 : qhat - 1 + 1 = qhat := by omega
            calc (qhat - 1) * d1 + d1 = (qhat - 1 + 1) * d1 := by ring
              _ = qhat * d1 := by rw [h5]
          linarith [h8, hrel]
        have h6 : (qhat - 1) * d0 ≤ (rhat + d1) * B := by
          calc (qhat - 1) * d0 ≤ B * B := Nat.mul_le_mul (by omega) (by omega)
            _ ≤ (rhat + d1) * B := Nat.mul_le_mul_right _ hwrap
        calc (qhat - 1) * (d1 * B + d0) = (qhat - 1) * d1 * B + (qhat - 1) * d0 := by ring
          _ ≤ (qhat - 1) * d1 * B + (rhat + d1) * B := by linarith
          _ = u2 * B := by rw [h4]; ring
          _ ≤ u2 * B + n0 := Nat.le_add_right _ _
      · rw [if_neg hbrk]
        have hnw : rhat + d1 < B := by
          by_contra hc
          push_neg at hc
          have h1 : rhat + d1 - B < d1 := by omega
          have h2 : (rhat + d1) % B = rhat + d1 - B := by
            rw [Nat.mod_eq_sub_mod hc]
            exact Nat.mod_eq_of_lt (by omega)
          rw [h2] at hbrk
          omega
        rw [Nat.mod_eq_of_lt hnw]
        apply ih (qhat - 1) (rhat + d1)
        · have h8 : (qhat - 1) * d1 + d1 = qhat * d1 := by
            have h5 : qhat - 1 + 1 = qhat := by omega
            calc (qhat - 1) * d1 + d1 = (qhat - 1 + 1) * d1 := by ring
              _ = qhat * d1 := by rw [h5]
          linarith [h8, hrel]
        · exact hnw
        · omega
        · exact hinv2'
        · set Qd := (u2 * B + n0) / (d1 * B + d0) with hQd
          clear_value Qd
          omega
    · rw [if_neg hcond]
      simp only []
      refine ⟨?_, hinv2⟩
      have h1 : ¬ (rhat * B + n0 < qhat * d0) := by
        rw [← mp_mul_gt_2_iff B qhat d0 rhat n0 hB hn0]
        exact hcond
      push_neg at h1
      have h4 : u2 * B = qhat * d1 * B + rhat * B := by rw [hrel]; ring
      calc qhat * (d1 * B + d0) = qhat * d1 * B + qhat * d0 := by ring
        _ ≤ qhat * d1 * B + (rhat * B + n0) := by linarith
        _ = u2 * B + n0 := by linarith

-- steps D4-D6: multiply-subtract with borrow, then conditional add-back
lemma dl_submul_final {Bp dn D w qhat : ℕ} (hD : 0 < D) (hDlt : D < Bp ^ dn)
    (hw : w < Bp ^ (dn + 1)) (ht : qhat * D < Bp ^ (dn + 1))
    (hq_le : w / D ≤ qhat) (hq_ub : qhat ≤ w / D + 1) :
    (if w < qhat * D then
       (qhat - 1, ((w + Bp ^ (dn + 1) - qhat * D % Bp ^ (dn + 1)) % Bp ^ (dn + 1) + D)
          % Bp ^ (dn + 1) % Bp ^ dn)
     else (qhat, (w + Bp ^ (dn + 1) - qhat * D % Bp ^ (dn + 1)) % Bp ^ (dn + 1) % Bp ^ dn))
    = (w / D, w % D) := by
  have hKpos : 0 < Bp ^ (dn + 1) := by
    rcases Nat.eq_zero_or_pos (Bp ^ (dn + 1)) with h | h
    · omega
    · exact h
  have hBp : 0 < Bp := by
    by_contra hc
    push_neg at hc
    interval_cases Bp
    simp at hKpos
  have hpow : Bp ^ dn ≤ Bp ^ (dn + 1) := Nat.pow_le_pow_right hBp (Nat.le_succ dn)
  have hdm : D * (w / D) + w % D = w := Nat.div_add_mod w D
  have hdm2 : w / D * D + w % D = w := Nat.div_add_mod' w D
  have hmodD : w % D < D := Nat.mod_lt _ hD
  rw [Nat.mod_eq_of_lt ht]
  by_cases hc : w < qhat * D
  · rw [if_pos hc]
    -- the estimate was one too large: qhat = w / D + 1
    have hq : qhat = w / D + 1 := by
      have h1 : w / D * D ≤ w := Nat.div_mul_le_self _ _
      have h2 : w / D < qhat := by
        by_contra hcon
        push_neg at hcon
        have h3 : qhat * D ≤ w / D * D := Nat.mul_le_mul_right _ hcon
        omega
      omega
    subst hq
    have h1 : (w / D + 1) * D = D * (w / D) + D := by ring
    have h2 : w + Bp ^ (dn + 1) - (w / D + 1) * D = Bp ^ (dn + 1) - (D - w % D) := by omega
    rw [h2]
    have h3 : D - w % D ≤ Bp ^ (dn + 1) := by omega
    have h4 : Bp ^ (dn + 1) - (D - w % D) < Bp ^ (dn + 1) := by omega
    rw [Nat.mod_eq_of_lt h4]
    have h5 : Bp ^ (dn + 1) - (D - w % D) + D = Bp ^ (dn + 1) + w % D := by omega
    have m2 : w % D < Bp ^ dn := lt_trans hmodD hDlt
    have m1 : w % D < Bp ^ (dn + 1) := lt_of_lt_of_le m2 hpow
    rw [h5, Nat.add_mod_left, Nat.mod_eq_of_lt m1, Nat.mod_eq_of_lt m2]
    simp
  · rw [if_neg hc]
    push_neg at hc
    -- the estimate is exact: qhat = w / D
    have hq : qhat = w / D := by
      have h2 : qhat ≤ w / D := by
        by_contra hcon
        push_neg at hcon
        have h3 : (w / D + 1) * D ≤ qhat * D := Nat.mul_le_mul_right _ hcon
        have h4 : (w / D + 1) * D = D * (w / D) + D := by ring
        omega
      omega
    subst hq
    have h2 : w + Bp ^ (dn + 1) - w / D * D = (w - w / D * D) + Bp ^ (dn + 1) := by omega
    rw [h2, Nat.add_mod_right]
    have h3 : w - w / D * D = w % D := by omega
    have m2 : w % D < Bp ^ dn := lt_trans hmodD hDlt
    have m1 : w % D < Bp ^ (dn + 1) := lt_of_lt_of_le m2 hpow
    rw [h3, Nat.mod_eq_of_lt m1, Nat.mod_eq_of_lt m2]

-- helper: a < (a / b + 1) * b
lemma nat_lt_div_succ_mul (a b : ℕ) (hb : 0 < b) : a < (a / b + 1) * b := by
  have h := Nat.div_add_mod a b
  have h2 : a % b < b := Nat.mod_lt _ hb
  have h3 : (a / b + 1) * b = b * (a / b) + b := by ring
  omega

lemma bracket_aux (q x : ℕ) (h : (q + 2) * x < (q + 1) * (x + 1)) : x < q + 1 := by
  nlinarith

-- the D3 estimate is the true quotient digit or one above it
lemma mpn_dl_qhat_bracket (L dn D m w : ℕ) (hL : 1 ≤ L) (hdn : 2 ≤ dn)
    (hD_lo : (2 ^ L) ^ dn ≤ 2 * D) (hD_hi : D < (2 ^ L) ^ dn)
    (hm : m = mp_inv_2by1 (2 ^ L) (D / (2 ^ L) ^ (dn - 1)))
    (hw : w < 2 ^ L * D) :
    w / D ≤ mpn_dl_qhat (2 ^ L) dn D m w ∧
    mpn_dl_qhat (2 ^ L) dn D m w ≤ w / D + 1 := by
  set B := 2 ^ L with hBdef
  have hB : 2 ≤ B := by
    rw [hBdef]
    calc 2 = 2 ^ 1 := (pow_one 2).symm
      _ ≤ 2 ^ L := Nat.pow_le_pow_right (by norm_num) hL
  have hB0 : 0 < B := by omega
  have hpow1 : B ^ (dn - 1) * B = B ^ dn := by
    rw [← pow_succ]
    congr 1
    omega
  have hpow2 : B ^ (dn - 2) * B = B ^ (dn - 1) := by
    rw [← pow_succ]
    congr 1
    omega
  have hpowdn : B ^ dn * B = B ^ (dn + 1) := by rw [← pow_succ]
  have hpd1 : 0 < B ^ (dn - 1) := by positivity
  have hpd2 : 0 < B ^ (dn - 2) := by positivity
  have hpdn : 0 < B ^ dn := by positivity
  have hD0 : 0 < D := by
    rcases Nat.eq_zero_or_pos D with h | h
    · rw [h, Nat.mul_zero] at hD_lo
      omega
    · exact h
  have hwK : w < B ^ (dn + 1) := by
    calc w < B * D := hw
      _ ≤ B * B ^ dn := Nat.mul_le_mul_left _ (le_of_lt hD_hi)
      _ = B ^ dn * B := Nat.mul_comm _ _
      _ = B ^ (dn + 1) := hpowdn
  set d1 := D / B ^ (dn - 1) with hd1def
  have hd1B : d1 < B := by
    rw [hd1def, Nat.div_lt_iff_lt_mul hpd1, Nat.mul_comm B (B ^ (dn - 1)), hpow1]
    exact hD_hi
  have hd1lo : B ≤ 2 * d1 := by
    have h2 : 2 * (2 ^ (L - 1) * B ^ (dn - 1)) = B ^ dn := by
      rw [← Nat.mul_assoc, ← pow_succ']
      have h3 : L - 1 + 1 = L := by omega
      rw [show 2 ^ (L - 1 + 1) = 2 ^ L from by rw [h3], ← hBdef, Nat.mul_comm, hpow1]
    have h1 : 2 ^ (L - 1) * B ^ (dn - 1) ≤ D := by omega
    have h4 : 2 ^ (L - 1) ≤ d1 := by
      rw [hd1def, Nat.le_div_iff_mul_le hpd1]
      exact h1
    have h5 : 2 * 2 ^ (L - 1) = B := by
      rw [← pow_succ']
      have h3 : L - 1 + 1 = L := by omega
      rw [show 2 ^ (L - 1 + 1) = 2 ^ L from by rw [h3], ← hBdef]
    omega
  have hd1pos : 1 ≤ d1 := by omega
  have hn2B : w / B ^ dn < B := by
    rw [Nat.div_lt_iff_lt_mul hpdn, Nat.mul_comm B (B ^ dn), hpowdn]
    exact hwK
  have hn2le : w / B ^ dn ≤ d1 := by
    have h2 : D < (d1 + 1) * B ^ (dn - 1) := by
      rw [hd1def]
      exact nat_lt_div_succ_mul D (B ^ (dn - 1)) hpd1
    have h1 : w < (d1 + 1) * B ^ dn := by
      calc w < B * D := hw
        _ ≤ B * ((d1 + 1) * B ^ (dn - 1)) := Nat.mul_le_mul_left _ (le_of_lt h2)
        _ = (d1 + 1) * (B ^ (dn - 1) * B) := by ring
        _ = (d1 + 1) * B ^ dn := by rw [hpow1]
    have h3 : w / B ^ dn < d1 + 1 := by
      rw [Nat.div_lt_iff_lt_mul hpdn]
      calc w < (d1 + 1) * B ^ dn := h1
        _ = (d1 + 1) * B ^ dn := rfl
    omega
  have hn2eq : w / B ^ dn % B = w / B ^ dn := Nat.mod_eq_of_lt hn2B
  have htopeq : D / B ^ (dn - 1) % B = d1 := Nat.mod_eq_of_lt hd1B
  have hq_lt : w / D < B := by
    rw [Nat.div_lt_iff_lt_mul hD0]
    exact hw
  rw [mpn_dl_qhat]
  simp only [hn2eq, htopeq]
  by_cases hA : w / B ^ dn = d1
  · rw [if_pos hA]
    refine ⟨by omega, ?_⟩
    -- exceptional path: the true quotient is at least B - 2
    have h1 : d1 * B ^ dn ≤ w := by
      calc d1 * B ^ dn = B ^ dn * d1 := Nat.mul_comm _ _
        _ = B ^ dn * (w / B ^ dn) := by rw [hA]
        _ ≤ w := Nat.mul_div_le w (B ^ dn)
    have h2 : D < (d1 + 1) * B ^ (dn - 1) := by
      rw [hd1def]
      exact nat_lt_div_succ_mul D (B ^ (dn - 1)) hpd1
    have hkey : (B - 2) * (d1 + 1) ≤ d1 * B := by
      have hz : (B : ℤ) ≤ 2 * d1 := by exact_mod_cast hd1lo
      have hz2 : (2 : ℤ) ≤ B := by exact_mod_cast hB
      zify [hB]
      nlinarith
    have h3 : (B - 2) * D ≤ w := by
      calc (B - 2) * D ≤ (B - 2) * ((d1 + 1) * B ^ (dn - 1)) :=
            Nat.mul_le_mul_left _ (le_of_lt h2)
        _ = (B - 2) * (d1 + 1) * B ^ (dn - 1) := by ring
        _ ≤ d1 * B * B ^ (dn - 1) := Nat.mul_le_mul_right _ hkey
        _ = d1 * (B ^ (dn - 1) * B) := by ring
        _ = d1 * B ^ dn := by rw [hpow1]
        _ ≤ w := h1
    have h5 : B - 2 ≤ w / D := by
      rw [Nat.le_div_iff_mul_le hD0]
      exact h3
    omega
  · rw [if_neg hA]
    have hn2lt : w / B ^ dn < d1 := lt_of_le_of_ne hn2le hA
    set u2 := w / B ^ (dn - 1) with hu2def
    have hu2split : w / B ^ dn = u2 / B := by
      rw [hu2def, Nat.div_div_eq_div_mul, hpow1]
    have hdiv := mp_div_2by1_correct B d1 m (u2 / B) (u2 % B) hB hd1lo hd1B
      hm (by rw [← hu2split]; exact hn2lt) (Nat.mod_lt _ hB0)
    rw [hu2split]
    simp only [hdiv]
    rw [Nat.div_add_mod' u2 B]
    set d0 := D / B ^ (dn - 2) % B with hd0def
    set n0 := w / B ^ (dn - 2) % B with hn0def
    set D2 := D / B ^ (dn - 2) with hD2def
    set w3 := w / B ^ (dn - 2) with hw3def
    have hd0B : d0 < B := by rw [hd0def]; exact Nat.mod_lt _ hB0
    have hn0B : n0 < B := by rw [hn0def]; exact Nat.mod_lt _ hB0
    have hD2split : d1 = D2 / B := by
      rw [hd1def, hD2def, Nat.div_div_eq_div_mul, hpow2]
    have hD2val : d1 * B + d0 = D2 := by
      rw [hD2split, hd0def]
      exact Nat.div_add_mod' D2 B
    have hw3split : u2 = w3 / B := by
      rw [hu2def, hw3def, Nat.div_div_eq_div_mul, hpow2]
    have hw3val : u2 * B + n0 = w3 := by
      rw [hw3split, hn0def]
      exact Nat.div_add_mod' w3 B
    have hu2d1 : u2 < d1 * B := by
      have h1 : u2 / B < d1 := by rw [← hu2split]; exact hn2lt
      calc u2 < (u2 / B + 1) * B := nat_lt_div_succ_mul u2 B hB0
        _ ≤ d1 * B := Nat.mul_le_mul_right _ h1
    have harg1 : u2 = u2 / d1 * d1 + u2 % d1 := (Nat.div_add_mod' u2 d1).symm
    have harg2 : u2 % d1 < B := lt_trans (Nat.mod_lt _ (by omega)) hd1B
    have harg3 : u2 / d1 < B := by
      rw [Nat.div_lt_iff_lt_mul (by omega : 0 < d1)]
      calc u2 < d1 * B := hu2d1
        _ = B * d1 := Nat.mul_comm _ _
    have harg4 : u2 * B + n0 < (u2 / d1 + 1) * (d1 * B + d0) := by
      have h1 : u2 < (u2 / d1 + 1) * d1 := nat_lt_div_succ_mul u2 d1 (by omega)
      have h2 : (u2 + 1) * B ≤ (u2 / d1 + 1) * d1 * B := Nat.mul_le_mul_right _ h1
      have h3 : (u2 + 1) * B = u2 * B + B := by ring
      have h4 : (u2 / d1 + 1) * d1 * B = (u2 / d1 + 1) * (d1 * B) := by ring
      have h5 : (u2 / d1 + 1) * (d1 * B) ≤ (u2 / d1 + 1) * (d1 * B + d0) :=
        Nat.mul_le_mul_left _ (Nat.le_add_right _ _)
      omega
    have harg5 : u2 / d1 ≤ u2 / d1 + (u2 * B + n0) / (d1 * B + d0) := Nat.le_add_right _ _
    have hloop := mpn_dl_qloop_correct B d1 d0 n0 u2 hB0 hd0B hd1B hn0B
      (u2 / d1) (u2 / d1) (u2 % d1) harg1 harg2 harg3 harg4 harg5
    obtain ⟨hp1, hp2⟩ := hloop
    have hD2pos : 0 < d1 * B + d0 := by positivity
    set qres := (mpn_dl_qloop B d1 d0 n0 (u2 / d1) (u2 / d1) (u2 % d1)).1 with hqres
    have hqeq : qres = w3 / (d1 * B + d0) := by
      have h1 : qres ≤ w3 / (d1 * B + d0) := by
        rw [Nat.le_div_iff_mul_le hD2pos, ← hw3val]
        exact hp1
      have h2 : w3 / (d1 * B + d0) ≤ qres := by
        by_contra hcon
        push_neg at hcon
        have h3 : (qres + 1) * (d1 * B + d0) ≤ w3 / (d1 * B + d0) * (d1 * B + d0) :=
          Nat.mul_le_mul_right _ hcon
        have h4 : w3 / (d1 * B + d0) * (d1 * B + d0) ≤ u2 * B + n0 := by
          rw [hw3val]
          exact Nat.div_mul_le_self _ _
        linarith
      exact Nat.le_antisymm h1 h2
    rw [hqeq]
    constructor
    · rw [Nat.le_div_iff_mul_le hD2pos, hD2val, hw3def, Nat.le_div_iff_mul_le hpd2]
      have h1 : w / D * D2 * B ^ (dn - 2) ≤ w := by
        calc w / D * D2 * B ^ (dn - 2) = w / D * (D2 * B ^ (dn - 2)) := by ring
          _ ≤ w / D * D := by
              apply Nat.mul_le_mul_left
              rw [hD2def]
              exact Nat.div_mul_le_self _ _
          _ ≤ w := Nat.div_mul_le_self _ _
      exact h1
    · by_contra hcon
      push_neg at hcon
      have h1 : (w / D + 2) * (d1 * B + d0) ≤ w3 := by
        have h2 : w / D + 2 ≤ w3 / (d1 * B + d0) := by omega
        calc (w / D + 2) * (d1 * B + d0) ≤ w3 / (d1 * B + d0) * (d1 * B + d0) :=
              Nat.mul_le_mul_right _ h2
          _ ≤ w3 := Nat.div_mul_le_self _ _
      rw [hD2val] at h1
      have h3 : (w / D + 2) * D2 * B ^ (dn - 2) ≤ w := by
        calc (w / D + 2) * D2 * B ^ (dn - 2) ≤ w3 * B ^ (dn - 2) :=
              Nat.mul_le_mul_right _ h1
          _ ≤ w := by
              rw [hw3def]
              exact Nat.div_mul_le_self _ _
      have h4 : w < (w / D + 1) * D := nat_lt_div_succ_mul w D hD0
      have h5 : D < (D2 + 1) * B ^ (dn - 2) := by
        rw [hD2def]
        exact nat_lt_div_succ_mul D (B ^ (dn - 2)) hpd2
      have h6 : (w / D + 2) * D2 * B ^ (dn - 2) < (w / D + 1) * (D2 + 1) * B ^ (dn - 2) := by
        calc (w / D + 2) * D2 * B ^ (dn - 2) ≤ w := h3
          _ < (w / D + 1) * D := h4
          _ ≤ (w / D + 1) * ((D2 + 1) * B ^ (dn - 2)) := Nat.mul_le_mul_left _ (le_of_lt h5)
          _ = (w / D + 1) * (D2 + 1) * B ^ (dn - 2) := by ring
      have h7 : (w / D + 2) * D2 < (w / D + 1) * (D2 + 1) :=
        lt_of_mul_lt_mul_right h6 (Nat.zero_le _)
      have h9 : D2 < w / D + 1 := bracket_aux (w / D) D2 h7
      have h10 : B ≤ D2 := by
        rw [← hD2val]
        calc B = 1 * B := (Nat.one_mul B).symm
          _ ≤ d1 * B := Nat.mul_le_mul_right _ hd1pos
          _ ≤ d1 * B + d0 := Nat.le_add_right _ _
      omega

-- one full iteration of the large-2by1 loop produces the exact quotient
-- digit and remainder of the window
lemma mpn_dl_step_correct (L dn D m rem dig : ℕ) (hL : 1 ≤ L) (hdn : 2 ≤ dn)
    (hD_lo : (2 ^ L) ^ dn ≤ 2 * D) (hD_hi : D < (2 ^ L) ^ dn)
    (hm : m = mp_inv_2by1 (2 ^ L) (D / (2 ^ L) ^ (dn - 1)))
    (hrem : rem < D) (hdig : dig < 2 ^ L) :
    mpn_dl_step (2 ^ L) dn D m rem dig =
      ((rem * (2 ^ L) + dig) / D, (rem * (2 ^ L) + dig) % D) := by
  set B := 2 ^ L with hBdef
  have hB : 2 ≤ B := by
    rw [hBdef]
    calc 2 = 2 ^ 1 := (pow_one 2).symm
      _ ≤ 2 ^ L := Nat.pow_le_pow_right (by norm_num) hL
  have hB0 : 0 < B := by omega
  have hpdn : 0 < B ^ dn := by positivity
  have hD0 : 0 < D := by
    rcases Nat.eq_zero_or_pos D with h | h
    · rw [h, Nat.mul_zero] at hD_lo
      omega
    · exact h
  have hw : rem * B + dig < B * D := by
    have h1 : rem * B + dig < (rem + 1) * B := by
      have : (rem + 1) * B = rem * B + B := by ring
      omega
    have h2 : (rem + 1) * B ≤ D * B := Nat.mul_le_mul_right _ hrem
    have h3 : D * B = B * D := Nat.mul_comm _ _
    omega
  have hbr := mpn_dl_qhat_bracket L dn D m (rem * B + dig) hL hdn hD_lo hD_hi hm hw
  rw [← hBdef] at hbr
  have hpowdn : B ^ dn * B = B ^ (dn + 1) := by rw [← pow_succ]
  have hwK : rem * B + dig < B ^ (dn + 1) := by
    calc rem * B + dig < B * D := hw
      _ ≤ B * B ^ dn := Nat.mul_le_mul_left _ (le_of_lt hD_hi)
      _ = B ^ dn * B := Nat.mul_comm _ _
      _ = B ^ (dn + 1) := hpowdn
  have hq_lt : (rem * B + dig) / D < B := by
    rw [Nat.div_lt_iff_lt_mul hD0]
    exact hw
  have ht : mpn_dl_qhat B dn D m (rem * B + dig) * D < B ^ (dn + 1) := by
    have h1 : mpn_dl_qhat B dn D m (rem * B + dig) ≤ B := by
      have h2 := hbr.2
      omega
    calc mpn_dl_qhat B dn D m (rem * B + dig) * D ≤ B * D := Nat.mul_le_mul_right _ h1
      _ < B * B ^ dn := mul_lt_mul_of_pos_left hD_hi hB0
      _ = B ^ dn * B := Nat.mul_comm _ _
      _ = B ^ (dn + 1) := hpowdn
  rw [mpn_dl_step]
  exact dl_submul_final hD0 hD_hi hwK ht hbr.1 hbr.2

-- the quotient-emitting loop of mpn_divmod_large_2by1 divides exactly
lemma mpn_dl_loop_correct (L dn D m : ℕ) (hL : 1 ≤ L) (hdn : 2 ≤ dn)
    (hD_lo : (2 ^ L) ^ dn ≤ 2 * D) (hD_hi : D < (2 ^ L) ^ dn)
    (hm : m = mp_inv_2by1 (2 ^ L) (D / (2 ^ L) ^ (dn - 1))) :
    ∀ digs : List ℕ, ∀ rem : ℕ, rem < D → (∀ x ∈ digs, x < 2 ^ L) →
      (mpn_dl_loop (2 ^ L) dn D m rem digs).1.length = digs.length ∧
      (∀ q ∈ (mpn_dl_loop (2 ^ L) dn D m rem digs).1, q < 2 ^ L) ∧
      mpn_val_be (2 ^ L) (mpn_dl_loop (2 ^ L) dn D m rem digs).1 =
        (rem * (2 ^ L) ^ digs.length + mpn_val_be (2 ^ L) digs) / D ∧
      (mpn_dl_loop (2 ^ L) dn D m rem digs).2 =
        (rem * (2 ^ L) ^ digs.length + mpn_val_be (2 ^ L) digs) % D := by
  have hD0 : 0 < D := by
    rcases Nat.eq_zero_or_pos D with h | h
    · rw [h, Nat.mul_zero] at hD_lo
      have : 0 < (2 ^ L) ^ dn := by positivity
      omega
    · exact h
  intro digs
  induction digs with
  | nil =>
    intro rem hrem hd
    rw [mpn_dl_loop]
    refine ⟨rfl, by simp, ?_, ?_⟩
    · simp [mpn_val_be]
      exact (Nat.div_eq_of_lt hrem).symm
    · simp [mpn_val_be]
      exact (Nat.mod_eq_of_lt hrem).symm
  | cons dig rest ih =>
    intro rem hrem hd
    have hdig : dig < 2 ^ L := hd dig (List.mem_cons_self dig rest)
    have hrest : ∀ x ∈ rest, x < 2 ^ L := fun x hx => hd x (List.mem_cons_of_mem dig hx)
    have hstep := mpn_dl_step_correct L dn D m rem dig hL hdn hD_lo hD_hi hm hrem hdig
    have hw : rem * 2 ^ L + dig < 2 ^ L * D := by
      have h1 : rem * 2 ^ L + dig < (rem + 1) * 2 ^ L := by
        have : (rem + 1) * 2 ^ L = rem * 2 ^ L + 2 ^ L := by ring
        omega
      have h2 : (rem + 1) * 2 ^ L ≤ D * 2 ^ L := Nat.mul_le_mul_right _ hrem
      have h3 : D * 2 ^ L = 2 ^ L * D := Nat.mul_comm _ _
      omega
    set w := rem * 2 ^ L + dig with hwdef
    have hr1 : w % D < D := Nat.mod_lt _ hD0
    have hq : w / D < 2 ^ L := by
      rw [Nat.div_lt_iff_lt_mul hD0]
      exact hw
    obtain ⟨ihlen, ihlt, ihq, ihr⟩ := ih (w % D) hr1 hrest
    rw [mpn_dl_loop]
    simp only [hstep]
    refine ⟨?_, ?_, ?_, ?_⟩
    · simp only [List.length_cons, ihlen]
    · intro q hq2
      rcases List.mem_cons.mp hq2 with h | h
      · rw [h]; exact hq
      · exact ihlt q h
    · rw [mpn_val_be, ihlen, ihq]
      -- value identity for one digit peeled off
      have hsplit : rem * (2 ^ L) ^ (dig :: rest).length + mpn_val_be (2 ^ L) (dig :: rest)
          = w / D * D * (2 ^ L) ^ rest.length
            + (w % D * (2 ^ L) ^ rest.length + mpn_val_be (2 ^ L) rest) := by
        rw [mpn_val_be, List.length_cons, hwdef]
        have hdm : w / D * D + w % D = w := Nat.div_add_mod' w D
        have hpow : (2 ^ L) ^ (rest.length + 1) = (2 ^ L) ^ rest.length * 2 ^ L := pow_succ _ _
        calc rem * (2 ^ L) ^ (rest.length + 1) + (dig * (2 ^ L) ^ rest.length + mpn_val_be (2 ^ L) rest)
            = (rem * 2 ^ L + dig) * (2 ^ L) ^ rest.length + mpn_val_be (2 ^ L) rest := by
              rw [hpow]; ring
          _ = (w / D * D + w % D) * (2 ^ L) ^ rest.length + mpn_val_be (2 ^ L) rest := by
              rw [hdm]
          _ = w / D * D * (2 ^ L) ^ rest.length
              + (w % D * (2 ^ L) ^ rest.length + mpn_val_be (2 ^ L) rest) := by ring
      rw [hsplit]
      rw [Nat.add_comm (w / D * D * (2 ^ L) ^ rest.length), Nat.mul_comm (w / D * D)]
      rw [show (2 ^ L) ^ rest.length * (w / D * D)
            = (2 ^ L) ^ rest.length * (w / D) * D from by ring]
      rw [Nat.add_mul_div_right _ _ hD0]
      ring
    · rw [ihr]
      have hsplit : rem * (2 ^ L) ^ (dig :: rest).length + mpn_val_be (2 ^ L) (dig :: rest)
          = w / D * D * (2 ^ L) ^ rest.length
            + (w % D * (2 ^ L) ^ rest.length + mpn_val_be (2 ^ L) rest) := by
        rw [mpn_val_be, List.length_cons, hwdef]
        have hdm : w / D * D + w % D = w := Nat.div_add_mod' w D
        have hpow : (2 ^ L) ^ (rest.length + 1) = (2 ^ L) ^ rest.length * 2 ^ L := pow_succ _ _
        calc rem * (2 ^ L) ^ (rest.length + 1) + (dig * (2 ^ L) ^ rest.length + mpn_val_be (2 ^ L) rest)
            = (rem * 2 ^ L + dig) * (2 ^ L) ^ rest.length + mpn_val_be (2 ^ L) rest := by
              rw [hpow]; ring
          _ = (w / D * D + w % D) * (2 ^ L) ^ rest.length + mpn_val_be (2 ^ L) rest := by
              rw [hdm]
          _ = w / D * D * (2 ^ L) ^ rest.length
              + (w % D * (2 ^ L) ^ rest.length + mpn_val_be (2 ^ L) rest) := by ring
      rw [hsplit]
      rw [Nat.add_comm (w / D * D * (2 ^ L) ^ rest.length), Nat.mul_comm (w / D * D)]
      rw [show (2 ^ L) ^ rest.length * (w / D * D)
            = (2 ^ L) ^ rest.length * (w / D) * D from by ring]
      rw [Nat.add_mul_mod_self_right]

-- one iteration of the small-2by1 loop: inline normalization, word
-- division, and remainder de-normalization give exact short division
lemma mpn_ds_step_correct (L s d m rem dig : ℕ) (hL : 1 ≤ L) (hd0 : 0 < d)
    (hlo : 2 ^ L ≤ 2 * (d * 2 ^ s)) (hhi : d * 2 ^ s < 2 ^ L)
    (hm : m = mp_inv_2by1 (2 ^ L) (d * 2 ^ s))
    (hrem : rem < d) (hdig : dig < 2 ^ L) :
    mpn_ds_step L s (d * 2 ^ s) m rem dig =
      ((rem * 2 ^ L + dig) / d, (rem * 2 ^ L + dig) % d) := by
  have hB : 2 ≤ 2 ^ L := by
    calc 2 = 2 ^ 1 := (pow_one 2).symm
      _ ≤ 2 ^ L := Nat.pow_le_pow_right (by norm_num) hL
  by_cases hs : s = 0
  · subst hs
    have hm0 : m = mp_inv_2by1 (2 ^ L) d := by
      rw [hm, pow_zero, Nat.mul_one]
    have hlo0 : 2 ^ L ≤ 2 * d := by
      rw [pow_zero, Nat.mul_one] at hlo
      exact hlo
    have hhi0 : d < 2 ^ L := by
      rw [pow_zero, Nat.mul_one] at hhi
      exact hhi
    have hdiv := mp_div_2by1_correct (2 ^ L) d m rem dig hB hlo0 hhi0 hm0 hrem hdig
    rw [mpn_ds_step]
    simp only [if_pos rfl, if_true, pow_zero, Nat.mul_one, hdiv, Nat.div_one]
  · have hps : 0 < 2 ^ s := by positivity
    have hpLs : 0 < 2 ^ (L - s) := by positivity
    have hsL : s < L := by
      have h1 : 2 ^ s ≤ d * 2 ^ s := Nat.le_mul_of_pos_left _ hd0
      have h2 : 2 ^ s < 2 ^ L := lt_of_le_of_lt h1 hhi
      exact (Nat.pow_lt_pow_iff_right (by norm_num)).mp h2
    have hpowL : 2 ^ (L - s) * 2 ^ s = 2 ^ L := by
      rw [← pow_add]
      congr 1
      omega
    have hrs : rem * 2 ^ s % 2 ^ L = rem * 2 ^ s := by
      apply Nat.mod_eq_of_lt
      calc rem * 2 ^ s < d * 2 ^ s := Nat.mul_lt_mul_of_pos_right hrem hps
        _ < 2 ^ L := hhi
    have hdig_div : dig / 2 ^ (L - s) < 2 ^ s := by
      rw [Nat.div_lt_iff_lt_mul hpLs]
      calc dig < 2 ^ L := hdig
        _ = 2 ^ (L - s) * 2 ^ s := hpowL.symm
        _ = 2 ^ s * 2 ^ (L - s) := Nat.mul_comm _ _
    have h1 : dig * 2 ^ s
        = dig % 2 ^ (L - s) * 2 ^ s + dig / 2 ^ (L - s) * 2 ^ L := by
      have h2 : dig / 2 ^ (L - s) * 2 ^ (L - s) + dig % 2 ^ (L - s) = dig :=
        Nat.div_add_mod' dig _
      calc dig * 2 ^ s
          = (dig / 2 ^ (L - s) * 2 ^ (L - s) + dig % 2 ^ (L - s)) * 2 ^ s := by rw [h2]
        _ = dig % 2 ^ (L - s) * 2 ^ s + dig / 2 ^ (L - s) * (2 ^ (L - s) * 2 ^ s) := by
            ring
        _ = dig % 2 ^ (L - s) * 2 ^ s + dig / 2 ^ (L - s) * 2 ^ L := by rw [hpowL]
    have hn0B : dig % 2 ^ (L - s) * 2 ^ s < 2 ^ L := by
      calc dig % 2 ^ (L - s) * 2 ^ s < 2 ^ (L - s) * 2 ^ s :=
            Nat.mul_lt_mul_of_pos_right (Nat.mod_lt _ hpLs) hps
        _ = 2 ^ L := hpowL
    have hn0 : dig * 2 ^ s % 2 ^ L = dig % 2 ^ (L - s) * 2 ^ s := by
      rw [h1, Nat.add_mul_mod_self_right]
      exact Nat.mod_eq_of_lt hn0B
    have hn1_lt : rem * 2 ^ s + dig / 2 ^ (L - s) < d * 2 ^ s := by
      have e1 : (rem + 1) * 2 ^ s = rem * 2 ^ s + 2 ^ s := by ring
      have e2 : (rem + 1) * 2 ^ s ≤ d * 2 ^ s :=
        Nat.mul_le_mul_right _ (by omega)
      omega
    have hdiv := mp_div_2by1_correct (2 ^ L) (d * 2 ^ s) m
      (rem * 2 ^ s + dig / 2 ^ (L - s)) (dig % 2 ^ (L - s) * 2 ^ s)
      hB hlo hhi hm hn1_lt hn0B
    have h3 : dig / 2 ^ (L - s) * 2 ^ L + dig % 2 ^ (L - s) * 2 ^ s = dig * 2 ^ s := by
      rw [h1]
      ring
    have hW : (rem * 2 ^ s + dig / 2 ^ (L - s)) * 2 ^ L + dig % 2 ^ (L - s) * 2 ^ s
        = (rem * 2 ^ L + dig) * 2 ^ s := by
      calc (rem * 2 ^ s + dig / 2 ^ (L - s)) * 2 ^ L + dig % 2 ^ (L - s) * 2 ^ s
          = rem * 2 ^ s * 2 ^ L
              + (dig / 2 ^ (L - s) * 2 ^ L + dig % 2 ^ (L - s) * 2 ^ s) := by ring
        _ = rem * 2 ^ s * 2 ^ L + dig * 2 ^ s := by rw [h3]
        _ = (rem * 2 ^ L + dig) * 2 ^ s := by ring
    rw [mpn_ds_step]
    simp only [if_neg hs]
    rw [hrs, hn0]
    simp only [hdiv]
    rw [hW, Nat.mul_div_mul_right _ _ hps, Nat.mul_mod_mul_right, Nat.mul_div_cancel _ hps]

-- the quotient-emitting loop of mpn_divmod_small_2by1 divides exactly
lemma mpn_ds_loop_correct (L s d m : ℕ) (hL : 1 ≤ L) (hd0 : 0 < d)
    (hlo : 2 ^ L ≤ 2 * (d * 2 ^ s)) (hhi : d * 2 ^ s < 2 ^ L)
    (hm : m = mp_inv_2by1 (2 ^ L) (d * 2 ^ s)) :
    ∀ digs : List ℕ, ∀ rem : ℕ, rem < d → (∀ x ∈ digs, x < 2 ^ L) →
      (mpn_ds_loop L s (d * 2 ^ s) m rem digs).1.length = digs.length ∧
      (∀ q ∈ (mpn_ds_loop L s (d * 2 ^ s) m rem digs).1, q < 2 ^ L) ∧
      mpn_val_be (2 ^ L) (mpn_ds_loop L s (d * 2 ^ s) m rem digs).1 =
        (rem * (2 ^ L) ^ digs.length + mpn_val_be (2 ^ L) digs) / d ∧
      (mpn_ds_loop L s (d * 2 ^ s) m rem digs).2 =
        (rem * (2 ^ L) ^ digs.length + mpn_val_be (2 ^ L) digs) % d := by
  intro digs
  induction digs with
  | nil =>
    intro rem hrem hd
    rw [mpn_ds_loop]
    refine ⟨rfl, by simp, ?_, ?_⟩
    · simp [mpn_val_be]
      exact (Nat.div_eq_of_lt hrem).symm
    · simp [mpn_val_be]
      exact (Nat.mod_eq_of_lt hrem).symm
  | cons dig rest ih =>
    intro rem hrem hd
    have hdig : dig < 2 ^ L := hd dig (List.mem_cons_self dig rest)
    have hrest : ∀ x ∈ rest, x < 2 ^ L := fun x hx => hd x (List.mem_cons_of_mem dig hx)
    have hstep := mpn_ds_step_correct L s d m rem dig hL hd0 hlo hhi hm hrem hdig
    have hw : rem * 2 ^ L + dig < 2 ^ L * d := by
      have h1 : rem * 2 ^ L + dig < (rem + 1) * 2 ^ L := by
        have : (rem + 1) * 2 ^ L = rem * 2 ^ L + 2 ^ L := by ring
        omega
      have h2 : (rem + 1) * 2 ^ L ≤ d * 2 ^ L := Nat.mul_le_mul_right _ hrem
      have h3 : d * 2 ^ L = 2 ^ L * d := Nat.mul_comm _ _
      omega
    set w := rem * 2 ^ L + dig with hwdef
    have hr1 : w % d < d := Nat.mod_lt _ hd0
    have hq : w / d < 2 ^ L := by
      rw [Nat.div_lt_iff_lt_mul hd0]
      exact hw
    obtain ⟨ihlen, ihlt, ihq, ihr⟩ := ih (w % d) hr1 hrest
    rw [mpn_ds_loop]
    simp only [hstep]
    refine ⟨?_, ?_, ?_, ?_⟩
    · simp only [List.length_cons, ihlen]
    · intro q hq2
      rcases List.mem_cons.mp hq2 with h | h
      · rw [h]; exact hq
      · exact ihlt q h
    · rw [mpn_val_be, ihlen, ihq]
      have hsplit : rem * (2 ^ L) ^ (dig :: rest).length + mpn_val_be (2 ^ L) (dig :: rest)
          = w / d * d * (2 ^ L) ^ rest.length
            + (w % d * (2 ^ L) ^ rest.length + mpn_val_be (2 ^ L) rest) := by
        rw [mpn_val_be, List.length_cons, hwdef]
        have hdm : w / d * d + w % d = w := Nat.div_add_mod' w d
        have hpow : (2 ^ L) ^ (rest.length + 1) = (2 ^ L) ^ rest.length * 2 ^ L := pow_succ _ _
        calc rem * (2 ^ L) ^ (rest.length + 1) + (dig * (2 ^ L) ^ rest.length + mpn_val_be (2 ^ L) rest)
            = (rem * 2 ^ L + dig) * (2 ^ L) ^ rest.length + mpn_val_be (2 ^ L) rest := by
              rw [hpow]; ring
          _ = (w / d * d + w % d) * (2 ^ L) ^ rest.length + mpn_val_be (2 ^ L) rest := by
              rw [hdm]
          _ = w / d * d * (2 ^ L) ^ rest.length
              + (w % d * (2 ^ L) ^ rest.length + mpn_val_be (2 ^ L) rest) := by ring
      rw [hsplit]
      rw [Nat.add_comm (w / d * d * (2 ^ L) ^ rest.length), Nat.mul_comm (w / d * d)]
      rw [show (2 ^ L) ^ rest.length * (w / d * d)
            = (2 ^ L) ^ rest.length * (w / d) * d from by ring]
      rw [Nat.add_mul_div_right _ _ hd0]
      ring
    · rw [ihr]
      have hsplit : rem * (2 ^ L) ^ (dig :: rest).length + mpn_val_be (2 ^ L) (dig :: rest)
          = w / d * d * (2 ^ L) ^ rest.length
            + (w % d * (2 ^ L) ^ rest.length + mpn_val_be (2 ^ L) rest) := by
        rw [mpn_val_be, List.length_cons, hwdef]
        have hdm : w / d * d + w % d = w := Nat.div_add_mod' w d
        have hpow : (2 ^ L) ^ (rest.length + 1) = (2 ^ L) ^ rest.length * 2 ^ L := pow_succ _ _
        calc rem * (2 ^ L) ^ (rest.length + 1) + (dig * (2 ^ L) ^ rest.length + mpn_val_be (2 ^ L) rest)
            = (rem * 2 ^ L + dig) * (2 ^ L) ^ rest.length + mpn_val_be (2 ^ L) rest := by
              rw [hpow]; ring
          _ = (w / d * d + w % d) * (2 ^ L) ^ rest.length + mpn_val_be (2 ^ L) rest := by
              rw [hdm]
          _ = w / d * d * (2 ^ L) ^ rest.length
              + (w % d * (2 ^ L) ^ rest.length + mpn_val_be (2 ^ L) rest) := by ring
      rw [hsplit]
      rw [Nat.add_comm (w / d * d * (2 ^ L) ^ rest.length), Nat.mul_comm (w / d * d)]
      rw [show (2 ^ L) ^ rest.length * (w / d * d)
            = (2 ^ L) ^ rest.length * (w / d) * d from by ring]
      rw [Nat.add_mul_mod_self_right]

-- top-level correctness of mpn_divmod: Euclidean division of the limb
-- buffers, quotient little-endian of the documented length
lemma mpn_divmod_correct (L n nn d dn : ℕ) (hL : 1 ≤ L) (hdn : 1 ≤ dn)
    (hnn : dn ≤ nn) (hn : n < (2 ^ L) ^ nn)
    (hdlo : (2 ^ L) ^ (dn - 1) ≤ d) (hdhi : d < (2 ^ L) ^ dn) :
    mpn_le_val (2 ^ L) (mpn_divmod L n nn d dn).1 * d + (mpn_divmod L n nn d dn).2 = n ∧
    (mpn_divmod L n nn d dn).2 < d ∧
    (mpn_divmod L n nn d dn).1.length = nn - dn + 1 ∧
    ∀ x ∈ (mpn_divmod L n nn d dn).1, x < 2 ^ L := by
  have hB : 2 ≤ 2 ^ L := by
    calc 2 = 2 ^ 1 := (pow_one 2).symm
      _ ≤ 2 ^ L := Nat.pow_le_pow_right (by norm_num) hL
  have hB0 : 0 < 2 ^ L := by omega
  have hpd1 : 0 < (2 ^ L) ^ (dn - 1) := by positivity
  have hd0 : 0 < d := lt_of_lt_of_le hpd1 hdlo
  have h2L : 2 * 2 ^ (L - 1) = 2 ^ L := by
    rw [← pow_succ']
    congr 1
    omega
  by_cases hdn1 : dn = 1
  · subst hdn1
    rw [mpn_divmod]
    simp only [if_pos rfl, if_true]
    have hdhi1 : d < 2 ^ L := by rw [← pow_one (2 ^ L)]; exact hdhi
    have hnb := mp_norm_bounds (L := L) hd0 hdhi1
    have hlo : 2 ^ L ≤ 2 * (d * 2 ^ (L - mp_bitlen d)) := by omega
    have hloop := mpn_ds_loop_correct L (L - mp_bitlen d) d
      (mp_inv_2by1 (2 ^ L) (d * 2 ^ (L - mp_bitlen d))) hL hd0 hlo hnb.2 rfl
      (mpn_digits_be (2 ^ L) nn n) 0 hd0 (mpn_digits_be_lt _ _ _ hB0)
    obtain ⟨hlen, hlt, hq, hr⟩ := hloop
    rw [mpn_digits_be_length, mpn_digits_be_val _ _ _ hB0, Nat.mod_eq_of_lt hn,
      Nat.zero_mul, Nat.zero_add] at hq hr
    refine ⟨?_, ?_, ?_, ?_⟩
    · rw [mpn_le_val_reverse, hq, hr]
      exact Nat.div_add_mod' n d
    · rw [hr]
      exact Nat.mod_lt _ hd0
    · rw [List.length_reverse, hlen, mpn_digits_be_length]
      omega
    · intro x hx
      rw [List.mem_reverse] at hx
      exact hlt x hx
  · have hdn2 : 2 ≤ dn := by omega
    rw [mpn_divmod]
    simp only [if_neg hdn1]
    set dtop := d / (2 ^ L) ^ (dn - 1) with hdtopdef
    set s := L - mp_bitlen dtop with hsdef
    set D := d * 2 ^ s with hDdef
    set X := n * 2 ^ s with hXdef
    have hps : 0 < 2 ^ s := by positivity
    have hdtop1 : 1 ≤ dtop := by
      rw [hdtopdef, Nat.le_div_iff_mul_le hpd1, Nat.one_mul]
      exact hdlo
    have hdtopB : dtop < 2 ^ L := by
      rw [hdtopdef, Nat.div_lt_iff_lt_mul hpd1]
      calc d < (2 ^ L) ^ dn := hdhi
        _ = (2 ^ L) ^ (dn - 1) * 2 ^ L := by
            rw [← pow_succ]
            congr 1
            omega
        _ = 2 ^ L * (2 ^ L) ^ (dn - 1) := Nat.mul_comm _ _
    have hnb := mp_norm_bounds (L := L) hdtop1 hdtopB
    have ht1 : 1 ≤ mp_bitlen dtop := mp_bitlen_pos _ hdtop1
    have htL : mp_bitlen dtop ≤ L := mp_bitlen_le_of_lt hdtopB
    have hsL : s ≤ L - 1 := by rw [hsdef]; omega
    have hpow_split : (2 ^ L) ^ (dn - 1) * 2 ^ L = (2 ^ L) ^ dn := by
      rw [← pow_succ]
      congr 1
      omega
    have hdtop_le : dtop * (2 ^ L) ^ (dn - 1) ≤ d := by
      rw [hdtopdef]
      exact Nat.div_mul_le_self _ _
    have hdtop_lt : d < (dtop + 1) * (2 ^ L) ^ (dn - 1) := by
      rw [hdtopdef]
      exact nat_lt_div_succ_mul d _ hpd1
    have hDlo : (2 ^ L) ^ dn ≤ 2 * D := by
      have h1 : dtop * 2 ^ s * (2 ^ L) ^ (dn - 1) ≤ D := by
        rw [hDdef]
        calc dtop * 2 ^ s * (2 ^ L) ^ (dn - 1)
            = dtop * (2 ^ L) ^ (dn - 1) * 2 ^ s := by ring
          _ ≤ d * 2 ^ s := Nat.mul_le_mul_right _ hdtop_le
      have h2 : 2 ^ (L - 1) * (2 ^ L) ^ (dn - 1) ≤ dtop * 2 ^ s * (2 ^ L) ^ (dn - 1) :=
        Nat.mul_le_mul_right _ hnb.1
      have h3 : 2 * (2 ^ (L - 1) * (2 ^ L) ^ (dn - 1)) = (2 ^ L) ^ dn := by
        rw [← Nat.mul_assoc, h2L, Nat.mul_comm (2 ^ L), hpow_split]
      omega
    have hDhi : D < (2 ^ L) ^ dn := by
      have h1 : dtop + 1 ≤ 2 ^ mp_bitlen dtop := mp_bitlen_lt dtop
      have h2 : (dtop + 1) * 2 ^ s ≤ 2 ^ L := by
        calc (dtop + 1) * 2 ^ s ≤ 2 ^ mp_bitlen dtop * 2 ^ s := Nat.mul_le_mul_right _ h1
          _ = 2 ^ L := by
              rw [← pow_add]
              congr 1
              rw [hsdef]
              omega
      calc D = d * 2 ^ s := hDdef
        _ < (dtop + 1) * (2 ^ L) ^ (dn - 1) * 2 ^ s :=
            Nat.mul_lt_mul_of_pos_right hdtop_lt hps
        _ = (dtop + 1) * 2 ^ s * (2 ^ L) ^ (dn - 1) := by ring
        _ ≤ 2 ^ L * (2 ^ L) ^ (dn - 1) := Nat.mul_le_mul_right _ h2
        _ = (2 ^ L) ^ (dn - 1) * 2 ^ L := Nat.mul_comm _ _
        _ = (2 ^ L) ^ dn := hpow_split
    have hXlt : X < D * (2 ^ L) ^ (nn - dn + 1) := by
      have h1 : 2 ^ (L - 1) * (2 ^ L) ^ (dn - 1) ≤ D := by
        have h2 : dtop * 2 ^ s * (2 ^ L) ^ (dn - 1) ≤ D := by
          rw [hDdef]
          calc dtop * 2 ^ s * (2 ^ L) ^ (dn - 1)
              = dtop * (2 ^ L) ^ (dn - 1) * 2 ^ s := by ring
            _ ≤ d * 2 ^ s := Nat.mul_le_mul_right _ hdtop_le
        have h3 : 2 ^ (L - 1) * (2 ^ L) ^ (dn - 1) ≤ dtop * 2 ^ s * (2 ^ L) ^ (dn - 1) :=
          Nat.mul_le_mul_right _ hnb.1
        omega
      have h4 : (2 ^ L) ^ (dn - 1) * (2 ^ L) ^ (nn - dn + 1) = (2 ^ L) ^ nn := by
        rw [← pow_add]
        congr 1
        omega
      have h5 : 2 ^ s ≤ 2 ^ (L - 1) := Nat.pow_le_pow_right (by norm_num) hsL
      calc X = n * 2 ^ s := hXdef
        _ ≤ n * 2 ^ (L - 1) := Nat.mul_le_mul_left _ h5
        _ < (2 ^ L) ^ nn * 2 ^ (L - 1) := Nat.mul_lt_mul_of_pos_right hn (by positivity)
        _ = 2 ^ (L - 1) * (2 ^ L) ^ (dn - 1) * (2 ^ L) ^ (nn - dn + 1) := by
            rw [Nat.mul_assoc, h4]
            ring
        _ ≤ D * (2 ^ L) ^ (nn - dn + 1) := Nat.mul_le_mul_right _ h1
    have hrem0 : X / (2 ^ L) ^ (nn - dn + 1) < D := by
      rw [Nat.div_lt_iff_lt_mul (by positivity)]
      exact hXlt
    have hloop := mpn_dl_loop_correct L dn D (mp_inv_2by1 (2 ^ L) (D / (2 ^ L) ^ (dn - 1)))
      hL hdn2 hDlo hDhi rfl
      (mpn_digits_be (2 ^ L) (nn - dn + 1) X) (X / (2 ^ L) ^ (nn - dn + 1)) hrem0
      (mpn_digits_be_lt _ _ _ hB0)
    obtain ⟨hlen, hlt, hq, hr⟩ := hloop
    rw [mpn_digits_be_length, mpn_digits_be_val _ _ _ hB0, Nat.div_add_mod'] at hq hr
    have hXq : X / D = n / d := by
      rw [hXdef, hDdef]
      exact Nat.mul_div_mul_right _ _ hps
    have hXr : X % D = n % d * 2 ^ s := by
      rw [hXdef, hDdef]
      exact Nat.mul_mod_mul_right _ _ _
    refine ⟨?_, ?_, ?_, ?_⟩
    · rw [mpn_le_val_reverse, hq, hr, hXq, hXr, Nat.mul_div_cancel _ hps]
      exact Nat.div_add_mod' n d
    · rw [hr, hXr, Nat.mul_div_cancel _ hps]
      exact Nat.mod_lt _ hd0
    · rw [List.length_reverse, hlen, mpn_digits_be_length]
    · intro x hx
      rw [List.mem_reverse] at hx
      exact hlt x hx

-- stripping a limb list exposes a non-zero top limb
lemma dropWhile_zero_spec (r : List ℕ) :
    (r.dropWhile (fun x => x == 0)).length ≤ r.length ∧
    ((r.dropWhile (fun x => x == 0)).length ≠ 0 →
      r.getD (r.length - (r.dropWhile (fun x => x == 0)).length) 0 ≠ 0) := by
  induction r with
  | nil => exact ⟨le_rfl, by simp⟩
  | cons a t ih =>
    by_cases ha : a = 0
    · subst ha
      rw [List.dropWhile_cons_of_pos (by simp)]
      refine ⟨le_trans ih.1 (by simp), ?_⟩
      intro hne
      have h1 := ih.1
      have h2 : (0 :: t).length - (t.dropWhile (fun x => x == 0)).length
          = (t.length - (t.dropWhile (fun x => x == 0)).length) + 1 := by
        simp only [List.length_cons]
        omega
      rw [h2, List.getD_cons_succ]
      exact ih.2 hne
    · rw [List.dropWhile_cons_of_neg (by simpa using ha)]
      refine ⟨le_rfl, ?_⟩
      intro _
      have h2 : (a :: t).length - (a :: t).length = 0 := by omega
      rw [h2, List.getD_cons_zero]
      exact ha

lemma mpn_strip_le (l : List ℕ) : mpn_strip l ≤ l.length := by
  have h := (dropWhile_zero_spec l.reverse).1
  rw [List.length_reverse] at h
  exact h

lemma mpn_strip_spec (l : List ℕ) (h : mpn_strip l ≠ 0) :
    l.getD (mpn_strip l - 1) 0 ≠ 0 := by
  have h1 := (dropWhile_zero_spec l.reverse).2 h
  have h2 := mpn_strip_le l
  have h3 : mpn_strip l ≠ 0 := h
  rw [List.length_reverse] at h1
  have h4 : l.length - mpn_strip l < l.length := by
    unfold mpn_strip at h3 h2 ⊢
    omega
  have h1' : l.reverse.getD (l.length - mpn_strip l) 0 ≠ 0 := h1
  rw [List.getD_eq_getElem?_getD, List.getElem?_reverse h4] at h1'
  have h5 : l.length - 1 - (l.length - mpn_strip l) = mpn_strip l - 1 := by
    unfold mpn_strip at h3 h2 ⊢
    omega
  rw [h5, ← List.getD_eq_getElem?_getD] at h1'
  exact h1'

lemma mpn_le_val_eq_val_be (B : ℕ) (l : List ℕ) :
    mpn_le_val B l = mpn_val_be B l.reverse := by
  rw [← mpn_le_val_reverse, List.reverse_reverse]

lemma mpn_le_val_lt (B : ℕ) (hB : 0 < B) (l : List ℕ) (h : ∀ x ∈ l, x < B) :
    mpn_le_val B l < B ^ l.length := by
  rw [mpn_le_val_eq_val_be, ← List.length_reverse l]
  exact mpn_val_be_lt B hB l.reverse (fun x hx => h x (List.mem_reverse.mp hx))

lemma mpn_digits_le_length (B n X : ℕ) : (mpn_digits_le B n X).length = n := by
  simp [mpn_digits_le]

lemma mpn_digits_le_lt (B n X : ℕ) (hB : 0 < B) :
    ∀ x ∈ mpn_digits_le B n X, x < B := by
  intro x hx
  simp only [mpn_digits_le, List.mem_map] at hx
  obtain ⟨i, _, rfl⟩ := hx
  exact Nat.mod_lt _ hB

lemma mpn_digits_le_succ (B n X : ℕ) :
    mpn_digits_le B (n + 1) X = mpn_digits_le B n X ++ [X / B ^ n % B] := by
  simp [mpn_digits_le, List.range_succ]

lemma mpn_digits_le_val (B n X : ℕ) (hB : 0 < B) :
    mpn_le_val B (mpn_digits_le B n X) = X % B ^ n := by
  induction n with
  | zero => simp [mpn_digits_le, mpn_le_val, Nat.mod_one]
  | succ n ih =>
    rw [mpn_digits_le_succ, mpn_le_val_append, ih, mpn_digits_le_length,
      Nat.mod_pow_succ]
    ring

lemma mpn_digits_le_getD (B n X i : ℕ) (hi : i < n) :
    (mpn_digits_le B n X).getD i 0 = X / B ^ i % B := by
  rw [mpn_digits_le, List.getD_eq_getElem?_getD]
  rw [List.getElem?_map]
  rw [List.getElem?_range hi]
  rfl

-- limb extraction from a little-endian value
lemma mpn_le_val_getD (B : ℕ) (hB : 0 < B) (l : List ℕ) (h : ∀ x ∈ l, x < B) :
    ∀ i, i < l.length → l.getD i 0 = mpn_le_val B l / B ^ i % B := by
  induction l with
  | nil => intro i hi; simp at hi
  | cons a t ih =>
    intro i hi
    have ha : a < B := h a (List.mem_cons_self a t)
    match i with
    | 0 =>
      rw [List.getD_cons_zero, mpn_le_val, pow_zero, Nat.div_one,
        Nat.add_mul_mod_self_left, Nat.mod_eq_of_lt ha]
    | i + 1 =>
      rw [List.getD_cons_succ, mpn_le_val, pow_succ]
      rw [show B ^ i * B = B * B ^ i from Nat.mul_comm _ _, ← Nat.div_div_eq_div_mul]
      rw [Nat.add_mul_div_left _ _ hB, Nat.div_eq_of_lt ha, Nat.zero_add]
      exact ih (fun x hx => h x (List.mem_cons_of_mem a hx)) i (by
        simp only [List.length_cons] at hi
        omega)

-- a non-zero top limb bounds the value from below
lemma mpn_le_val_top (B : ℕ) (l : List ℕ) (hne : l ≠ []) :
    l.getD (l.length - 1) 0 * B ^ (l.length - 1) ≤ mpn_le_val B l := by
  induction l with
  | nil => simp at hne
  | cons a t ih =>
    match t, ih with
    | [], _ => simp [mpn_le_val]
    | b :: t', ih =>
      have h1 : (a :: b :: t').length - 1 = (b :: t').length - 1 + 1 := by
        simp
      rw [h1, List.getD_cons_succ, mpn_le_val]
      have h2 := ih (by simp)
      calc (b :: t').getD ((b :: t').length - 1) 0 * B ^ ((b :: t').length - 1 + 1)
          = B * ((b :: t').getD ((b :: t').length - 1) 0 * B ^ ((b :: t').length - 1)) := by
            ring
        _ ≤ B * mpn_le_val B (b :: t') := Nat.mul_le_mul_left _ h2
        _ ≤ a + B * mpn_le_val B (b :: t') := Nat.le_add_left _ _

-- C4: the mpn_powm dispatch checks in source order
theorem mpn_powm_dispatch (L x xn y m mn : ℕ) (hL : 1 ≤ L) (hmn : 1 ≤ mn)
    (htop : (2 ^ L) ^ (mn - 1) ≤ m) (hm : m < (2 ^ L) ^ mn) (hx : xn ≤ mn) :
    (m = 1 → mpn_powm L x xn y m mn = some 0) ∧
    (m ≠ 1 → y = 0 → mpn_powm L x xn y m mn = some 1) ∧
    (m ≠ 1 → y ≠ 0 → xn = 0 → mpn_powm L x xn y m mn = some 0) := by
  have hB : 2 ≤ 2 ^ L := by
    calc 2 = 2 ^ 1 := (pow_one 2).symm
      _ ≤ 2 ^ L := Nat.pow_le_pow_right (by norm_num) hL
  have hpow : (2 ^ L) ^ (mn - 1) * 2 ^ L = (2 ^ L) ^ mn := by
    rw [← pow_succ]
    congr 1
    omega
  have hpd : 0 < (2 ^ L) ^ (mn - 1) := by positivity
  -- the top limb of m is non-zero, so the aborts do not fire
  have htl : m / (2 ^ L) ^ (mn - 1) % 2 ^ L ≠ 0 := by
    have h1 : 1 ≤ m / (2 ^ L) ^ (mn - 1) := by
      rw [Nat.le_div_iff_mul_le hpd, Nat.one_mul]
      exact htop
    have h2 : m / (2 ^ L) ^ (mn - 1) < 2 ^ L := by
      rw [Nat.div_lt_iff_lt_mul hpd]
      calc m < (2 ^ L) ^ mn := hm
        _ = (2 ^ L) ^ (mn - 1) * 2 ^ L := hpow.symm
        _ = 2 ^ L * (2 ^ L) ^ (mn - 1) := Nat.mul_comm _ _
    rw [Nat.mod_eq_of_lt h2]
    omega
  have habort : ¬(mn = 0 ∨ m / (2 ^ L) ^ (mn - 1) % 2 ^ L = 0) := by
    push_neg
    exact ⟨by omega, htl⟩
  have hxabort : ¬(mn < xn) := by omega
  refine ⟨?_, ?_, ?_⟩
  · intro hm1
    subst hm1
    have hmn1 : mn = 1 := by
      by_contra hc
      have h2 : 2 ≤ mn := by omega
      have h3 : 2 ^ L ≤ (2 ^ L) ^ (mn - 1) := by
        calc 2 ^ L = (2 ^ L) ^ 1 := (pow_one _).symm
          _ ≤ (2 ^ L) ^ (mn - 1) := Nat.pow_le_pow_right (by omega) (by omega)
      omega
    rw [mpn_powm, if_neg habort, if_neg hxabort, if_pos ⟨hmn1, Nat.mod_eq_of_lt (by omega)⟩]
  · intro hm1 hy
    have hcase : ¬(mn = 1 ∧ m % 2 ^ L = 1) := by
      rintro ⟨h1, h2⟩
      rw [h1, pow_one] at hm
      rw [Nat.mod_eq_of_lt hm] at h2
      exact hm1 h2
    rw [mpn_powm, if_neg habort, if_neg hxabort, if_neg hcase, if_pos hy]
  · intro hm1 hy hx0
    have hcase : ¬(mn = 1 ∧ m % 2 ^ L = 1) := by
      rintro ⟨h1, h2⟩
      rw [h1, pow_one] at hm
      rw [Nat.mod_eq_of_lt hm] at h2
      exact hm1 h2
    rw [mpn_powm, if_neg habort, if_neg hxabort, if_neg hcase, if_neg hy, if_pos hx0]

-- sign-split form of mpz_divround
lemma mpz_divround_eq (n d : ℤ) (hd : d ≠ 0) :
    mpz_divround n d =
      if (n < 0) ≠ (d < 0)
      then -(((n.natAbs + d.natAbs / 2) / d.natAbs : ℕ) : ℤ)
      else (((n.natAbs + d.natAbs / 2) / d.natAbs : ℕ) : ℤ) := by
  set N := n.natAbs with hNdef
  set D := d.natAbs with hDdef
  have htd2 : ((D : ℕ) : ℤ).tdiv 2 = ((D / 2 : ℕ) : ℤ) := rfl
  have htdN : ((N + D / 2 : ℕ) : ℤ).tdiv ((D : ℕ) : ℤ) = ((N + D / 2) / D : ℕ) := rfl
  have hjoin : (N : ℤ) + ((D / 2 : ℕ) : ℤ) = ((N + D / 2 : ℕ) : ℤ) := by push_cast; ring
  rcases le_or_lt 0 n with hn | hn <;> rcases lt_or_lt_iff_ne.mpr hd with hdlt | hdlt
  · -- 0 ≤ n, d < 0
    have hnn : ¬ n < 0 := not_lt.mpr hn
    have hN : n = (N : ℤ) := (Int.natAbs_of_nonneg hn).symm
    have hD : d = -(D : ℤ) := by
      rw [hDdef, Int.ofNat_natAbs_of_nonpos (le_of_lt hdlt)]
      ring
    rw [if_pos (by simp [hnn, hdlt]), mpz_divround, if_pos (by simp [hnn, hdlt])]
    rw [hN, hD, Int.neg_tdiv, htd2, sub_neg_eq_add, hjoin, Int.tdiv_neg, htdN]
  · -- 0 ≤ n, 0 < d
    have hnn : ¬ n < 0 := not_lt.mpr hn
    have hdd : ¬ d < 0 := not_lt.mpr (le_of_lt hdlt)
    have hN : n = (N : ℤ) := (Int.natAbs_of_nonneg hn).symm
    have hD : d = (D : ℤ) := by rw [hDdef, Int.natAbs_of_nonneg (le_of_lt hdlt)]
    rw [if_neg (by simp [hnn, hdd]), mpz_divround, if_neg (by simp [hnn, hdd])]
    rw [hN, hD, htd2, hjoin, htdN]
  · -- n < 0, d < 0
    have hN : n = -(N : ℤ) := by
      rw [hNdef, Int.ofNat_natAbs_of_nonpos (le_of_lt hn)]
      ring
    have hD : d = -(D : ℤ) := by
      rw [hDdef, Int.ofNat_natAbs_of_nonpos (le_of_lt hdlt)]
      ring
    rw [if_neg (by simp [hn, hdlt]), mpz_divround, if_neg (by simp [hn, hdlt])]
    rw [hN, hD, Int.neg_tdiv, htd2]
    rw [show -(N : ℤ) + -((D / 2 : ℕ) : ℤ) = -((N + D / 2 : ℕ) : ℤ) from by push_cast; ring]
    rw [Int.neg_tdiv, Int.tdiv_neg, neg_neg, htdN]
  · -- n < 0, 0 < d
    have hdd : ¬ d < 0 := not_lt.mpr (le_of_lt hdlt)
    have hN : n = -(N : ℤ) := by
      rw [hNdef, Int.ofNat_natAbs_of_nonpos (le_of_lt hn)]
      ring
    have hD : d = (D : ℤ) := by rw [hDdef, Int.natAbs_of_nonneg (le_of_lt hdlt)]
    rw [if_pos (by simp [hn, hdd]), mpz_divround, if_pos (by simp [hn, hdd])]
    rw [hN, hD, htd2]
    rw [show -(N : ℤ) - ((D / 2 : ℕ) : ℤ) = -((N + D / 2 : ℕ) : ℤ) from by push_cast; ring]
    rw [Int.neg_tdiv, htdN]

-- half-away-from-zero rounding, numerator side
lemma divround_core (N D : ℕ) (hD : 0 < D) :
    2 * ((N : ℤ) - ((N + D / 2) / D : ℕ) * D).natAbs ≤ D ∧
    (2 * ((N : ℤ) - ((N + D / 2) / D : ℕ) * D).natAbs = D →
      N < ((N + D / 2) / D) * D) := by
  have key : N + D / 2 = D * ((N + D / 2) / D) + (N + D / 2) % D :=
    (Nat.div_add_mod _ _).symm
  have hr : (N + D / 2) % D < D := Nat.mod_lt _ hD
  have hd2 : D = 2 * (D / 2) + D % 2 := (Nat.div_add_mod _ _).symm
  have keyz : (N : ℤ) + (D / 2 : ℕ) = (D : ℕ) * ((N + D / 2) / D : ℕ)
      + ((N + D / 2) % D : ℕ) := by exact_mod_cast key
  have hcast : (((N + D / 2) / D * D : ℕ) : ℤ)
      = (((N + D / 2) / D : ℕ) : ℤ) * (D : ℕ) := by push_cast; ring
  have hcomm : ((D : ℕ) : ℤ) * (((N + D / 2) / D : ℕ) : ℤ)
      = (((N + D / 2) / D : ℕ) : ℤ) * ((D : ℕ) : ℤ) := mul_comm _ _
  constructor
  · omega
  · intro htie
    omega

-- C8 (amended): divround is round-to-nearest with ties away from zero
theorem mpz_divround_correct (n d : ℤ) (hd : d ≠ 0) :
    2 * (n - mpz_divround n d * d).natAbs ≤ d.natAbs ∧
    (2 * (n - mpz_divround n d * d).natAbs = d.natAbs →
      n.natAbs < (mpz_divround n d * d).natAbs) := by
  have hD0 : 0 < d.natAbs := Int.natAbs_pos.mpr hd
  set N := n.natAbs with hNdef
  set D := d.natAbs with hDdef
  set Q := (N + D / 2) / D with hQdef
  have hcore := divround_core N D hD0
  rw [← hQdef] at hcore
  rw [mpz_divround_eq n d hd, ← hQdef]
  rcases le_or_lt 0 n with hn | hn <;> rcases lt_or_lt_iff_ne.mpr hd with hdlt | hdlt
  · -- 0 ≤ n, d < 0
    have hnn : ¬ n < 0 := not_lt.mpr hn
    have hN : n = (N : ℤ) := (Int.natAbs_of_nonneg hn).symm
    have hD : d = -(D : ℤ) := by
      rw [hDdef, Int.ofNat_natAbs_of_nonpos (le_of_lt hdlt)]
      ring
    rw [if_pos (by simp [hnn, hdlt])]
    have e1 : n - -((Q : ℕ) : ℤ) * d = (N : ℤ) - ((Q * D : ℕ) : ℤ) := by
      rw [hN, hD]
      push_cast
      ring
    have e2 : (-((Q : ℕ) : ℤ) * d).natAbs = Q * D := by
      rw [hD, show -((Q : ℕ) : ℤ) * -((D : ℕ) : ℤ) = ((Q * D : ℕ) : ℤ) from by
        push_cast; ring]
      exact Int.natAbs_ofNat _
    rw [e1, e2]
    have e3 : ((N : ℤ) - ((Q * D : ℕ) : ℤ)) = ((N : ℤ) - (Q : ℕ) * (D : ℕ)) := by
      push_cast
      ring
    rw [e3]
    exact hcore
  · -- 0 ≤ n, 0 < d
    have hnn : ¬ n < 0 := not_lt.mpr hn
    have hdd : ¬ d < 0 := not_lt.mpr (le_of_lt hdlt)
    have hN : n = (N : ℤ) := (Int.natAbs_of_nonneg hn).symm
    have hD : d = (D : ℤ) := by rw [hDdef, Int.natAbs_of_nonneg (le_of_lt hdlt)]
    rw [if_neg (by simp [hnn, hdd])]
    have e1 : n - ((Q : ℕ) : ℤ) * d = (N : ℤ) - (Q : ℕ) * (D : ℕ) := by
      rw [hN, hD]
    have e2 : (((Q : ℕ) : ℤ) * d).natAbs = Q * D := by
      rw [hD, show ((Q : ℕ) : ℤ) * ((D : ℕ) : ℤ) = ((Q * D : ℕ) : ℤ) from by
        push_cast; ring]
      exact Int.natAbs_ofNat _
    rw [e1, e2]
    exact hcore
  · -- n < 0, d < 0
    have hN : n = -(N : ℤ) := by
      rw [hNdef, Int.ofNat_natAbs_of_nonpos (le_of_lt hn)]
      ring
    have hD : d = -(D : ℤ) := by
      rw [hDdef, Int.ofNat_natAbs_of_nonpos (le_of_lt hdlt)]
      ring
    rw [if_neg (by simp [hn, hdlt])]
    have e1 : n - ((Q : ℕ) : ℤ) * d = -((N : ℤ) - (Q : ℕ) * (D : ℕ)) := by
      rw [hN, hD]
      ring
    have e2 : (((Q : ℕ) : ℤ) * d).natAbs = Q * D := by
      rw [hD, show ((Q : ℕ) : ℤ) * -((D : ℕ) : ℤ) = -((Q * D : ℕ) : ℤ) from by
        push_cast; ring, Int.natAbs_neg]
      exact Int.natAbs_ofNat _
    rw [e1, Int.natAbs_neg, e2]
    exact hcore
  · -- n < 0, 0 < d
    have hdd : ¬ d < 0 := not_lt.mpr (le_of_lt hdlt)
    have hN : n = -(N : ℤ) := by
      rw [hNdef, Int.ofNat_natAbs_of_nonpos (le_of_lt hn)]
      ring
    have hD : d = (D : ℤ) := by rw [hDdef, Int.natAbs_of_nonneg (le_of_lt hdlt)]
    rw [if_pos (by simp [hn, hdd])]
    have e1 : n - -((Q : ℕ) : ℤ) * d = -((N : ℤ) - (Q : ℕ) * (D : ℕ)) := by
      rw [hN, hD]
      ring
    have e2 : (-((Q : ℕ) : ℤ) * d).natAbs = Q * D := by
      rw [hD, show -((Q : ℕ) : ℤ) * ((D : ℕ) : ℤ) = -((Q * D : ℕ) : ℤ) from by
        push_cast; ring, Int.natAbs_neg]
      exact Int.natAbs_ofNat _
    rw [e1, Int.natAbs_neg, e2]
    exact hcore

lemma getD_take (l : List ℕ) (n i : ℕ) (h : i < n) :
    (l.take n).getD i 0 = l.getD i 0 := by
  rw [List.getD_eq_getElem?_getD, List.getD_eq_getElem?_getD, List.getElem?_take, if_pos h]

-- a bit of the residue is a bit of the number
lemma mod_pow_div_bit (x L r : ℕ) (h : r < L) :
    x % 2 ^ L / 2 ^ r % 2 = x / 2 ^ r % 2 := by
  have hsplit : 2 ^ L = 2 ^ r * 2 ^ (L - r) := by
    rw [← pow_add]
    congr 1
    omega
  have hpr : 0 < 2 ^ r := by positivity
  rw [hsplit, Nat.mod_mul, Nat.add_mul_div_left _ _ hpr,
    Nat.div_eq_of_lt (Nat.mod_lt _ hpr), Nat.zero_add]
  have hdvd : (2 : ℕ) ∣ 2 ^ (L - r) := dvd_pow_self 2 (by omega)
  rw [Nat.mod_mod_of_dvd _ hdvd]

lemma mod_pow_mod (x L r : ℕ) (h : r ≤ L) :
    x % 2 ^ L % 2 ^ r = x % 2 ^ r :=
  Nat.mod_mod_of_dvd _ (pow_dvd_pow 2 h)

-- all low limbs vanish iff the value is divisible by the limb power
lemma low_limbs_zero_iff (B v : ℕ) (hB : 0 < B) :
    ∀ s, v % B ^ s = 0 ↔ ∀ i < s, v / B ^ i % B = 0 := by
  intro s
  induction s with
  | zero => simp [Nat.mod_one]
  | succ s ih =>
    rw [Nat.mod_pow_succ]
    constructor
    · intro h i hi
      have hp : 0 < B ^ s := by positivity
      have h1 : v % B ^ s = 0 ∧ v / B ^ s % B = 0 := by
        obtain ⟨hz1, hz2⟩ := Nat.add_eq_zero.mp h
        refine ⟨hz1, ?_⟩
        rcases Nat.mul_eq_zero.mp hz2 with h4 | h4
        · omega
        · exact h4
      rcases Nat.lt_succ_iff_lt_or_eq.mp hi with h2 | h2
      · exact (ih.mp h1.1) i h2
      · rw [h2]
        exact h1.2
    · intro h
      have h1 : v % B ^ s = 0 := ih.mpr (fun i hi => h i (Nat.lt_succ_of_lt hi))
      have h2 : v / B ^ s % B = 0 := h s (Nat.lt_succ_self s)
      rw [h1, h2]
      simp

-- the two' s-complement bit of a negative number
lemma int_neg_bit (v p : ℕ) (hr : v % 2 ^ p ≠ 0) :
    (-(v : ℤ)) / ((2 : ℤ) ^ p) % 2 = 1 - (v / 2 ^ p % 2 : ℕ) := by
  have hp : (0 : ℤ) < 2 ^ p := by positivity
  have hsplit : (v : ℤ) = 2 ^ p * (v / 2 ^ p : ℕ) + (v % 2 ^ p : ℕ) := by
    exact_mod_cast (Nat.div_add_mod v (2 ^ p)).symm
  have hrb : (0 : ℤ) < (v % 2 ^ p : ℕ) := by
    have := Nat.pos_of_ne_zero hr
    exact_mod_cast this
  have hrb2 : ((v % 2 ^ p : ℕ) : ℤ) < 2 ^ p := by
    have h := Nat.mod_lt v (show 0 < 2 ^ p by positivity)
    exact_mod_cast h
  have heq : -(v : ℤ) = (2 ^ p - (v % 2 ^ p : ℕ)) + 2 ^ p * (-(v / 2 ^ p : ℕ) - 1) := by
    rw [hsplit]
    ring
  rw [heq, Int.add_mul_ediv_left _ _ (by positivity : (2:ℤ) ^ p ≠ 0)]
  rw [Int.ediv_eq_zero_of_lt (by omega) (by omega)]
  omega

lemma int_neg_bit_dvd (v p : ℕ) (hr : v % 2 ^ p = 0) :
    (-(v : ℤ)) / ((2 : ℤ) ^ p) % 2 = (v / 2 ^ p % 2 : ℕ) := by
  have hsplit : (v : ℤ) = 2 ^ p * (v / 2 ^ p : ℕ) + (v % 2 ^ p : ℕ) := by
    exact_mod_cast (Nat.div_add_mod v (2 ^ p)).symm
  have hr0 : ((v % 2 ^ p : ℕ) : ℤ) = 0 := by exact_mod_cast hr
  have heq : -(v : ℤ) = 2 ^ p * (-(v / 2 ^ p : ℕ)) := by
    rw [hsplit, hr0]
    ring
  rw [heq, Int.mul_ediv_cancel_left _ (by positivity : (2:ℤ) ^ p ≠ 0)]
  omega

lemma int_pos_bit (v p : ℕ) : ((v : ℤ) / (2 : ℤ) ^ p % 2) = (v / 2 ^ p % 2 : ℕ) := by
  have h1 : ((v : ℤ) / (2 : ℤ) ^ p) = ((v / 2 ^ p : ℕ) : ℤ) := by
    have hsplit : (v : ℤ) = 2 ^ p * (v / 2 ^ p : ℕ) + (v % 2 ^ p : ℕ) := by
      exact_mod_cast (Nat.div_add_mod v (2 ^ p)).symm
    rw [hsplit, show (2 : ℤ) ^ p * ((v / 2 ^ p : ℕ) : ℤ) + ((v % 2 ^ p : ℕ) : ℤ)
        = ((v % 2 ^ p : ℕ) : ℤ) + (2 : ℤ) ^ p * ((v / 2 ^ p : ℕ) : ℤ) from by ring]
    rw [Int.add_mul_ediv_left _ _ (by positivity : (2 : ℤ) ^ p ≠ 0)]
    rw [Int.ediv_eq_zero_of_lt (by positivity) (by
      have h := Nat.mod_lt v (show 0 < 2 ^ p by positivity)
      exact_mod_cast h)]
    ring
  rw [h1]
  omega

lemma limbsOf_length (L : ℕ) (x : mpzR) (h : mpz_valid L x) :
    (limbsOf x).length = x.size.natAbs := by
  rw [limbsOf, List.length_take]
  exact min_eq_left h.1

lemma limbsOf_lt (L : ℕ) (x : mpzR) (h : mpz_valid L x) :
    ∀ a ∈ limbsOf x, a < 2 ^ L := fun a ha =>
  h.2.1 a ((List.take_sublist _ _).mem ha)

lemma mpz_limb_getD (L : ℕ) (x : mpzR) (h : mpz_valid L x) (i : ℕ)
    (hi : i < x.size.natAbs) :
    x.limbs.getD i 0 = mpz_absval L x / (2 ^ L) ^ i % 2 ^ L := by
  have h1 := mpn_le_val_getD (2 ^ L) (by positivity) (limbsOf x) (limbsOf_lt L x h) i
    (by rw [limbsOf_length L x h]; exact hi)
  rw [mpz_absval, ← h1, limbsOf, getD_take _ _ _ hi]

-- mpz_divisible_2exp_p decides divisibility by 2^bits
lemma mpz_divisible_correct (L : ℕ) (x : mpzR) (bits : ℕ) (hL : 1 ≤ L)
    (hvalid : mpz_valid L x) (hs : bits / L < x.size.natAbs) :
    (mpz_divisible_2exp_p L x bits = true ↔ mpz_absval L x % 2 ^ bits = 0) := by
  have hB0 : 0 < 2 ^ L := by positivity
  have hrL : bits % L < L := Nat.mod_lt _ (by omega)
  have h2p : 2 ^ bits = (2 ^ L) ^ (bits / L) * 2 ^ (bits % L) := by
    rw [← pow_mul, ← pow_add]
    congr 1
    exact (Nat.div_add_mod bits L).symm ▸ rfl
  have hsz : x.size ≠ 0 := by
    intro hc
    rw [hc] at hs
    simp at hs
  have hnle : ¬ x.size.natAbs ≤ bits / L := by omega
  have hlimb : x.limbs.getD (bits / L) 0
      = mpz_absval L x / (2 ^ L) ^ (bits / L) % 2 ^ L :=
    mpz_limb_getD L x hvalid _ hs
  have hps : 0 < (2 ^ L) ^ (bits / L) := by positivity
  simp only [mpz_divisible_2exp_p, if_neg hsz, if_neg hnle]
  by_cases hcond : x.limbs.getD (bits / L) 0 % 2 ^ (bits % L) ≠ 0
  · rw [if_pos hcond]
    simp only [Bool.false_eq_true, false_iff]
    intro hdvd
    rw [h2p, Nat.mod_mul] at hdvd
    obtain ⟨hz1, hz2⟩ := Nat.add_eq_zero.mp hdvd
    have hz3 : mpz_absval L x / (2 ^ L) ^ (bits / L) % 2 ^ (bits % L) = 0 := by
      rcases Nat.mul_eq_zero.mp hz2 with h4 | h4
      · omega
      · exact h4
    rw [hlimb, mod_pow_mod _ _ _ (le_of_lt hrL)] at hcond
    exact hcond hz3
  · rw [if_neg hcond]
    push_neg at hcond
    rw [hlimb, mod_pow_mod _ _ _ (le_of_lt hrL)] at hcond
    have hall : ((List.range (bits / L)).all (fun i => x.limbs.getD i 0 == 0)) = true
        ↔ ∀ i < bits / L, x.limbs.getD i 0 = 0 := by
      simp [List.all_eq_true]
    rw [hall]
    have hlow : (∀ i < bits / L, x.limbs.getD i 0 = 0)
        ↔ mpz_absval L x % (2 ^ L) ^ (bits / L) = 0 := by
      rw [low_limbs_zero_iff (2 ^ L) _ hB0]
      constructor
      · intro h i hi
        rw [← mpz_limb_getD L x hvalid i (by omega)]
        exact h i hi
      · intro h i hi
        rw [mpz_limb_getD L x hvalid i (by omega)]
        exact h i hi
    rw [hlow, h2p, Nat.mod_mul]
    constructor
    · intro h
      rw [h, hcond]
      simp
    · intro h
      obtain ⟨hz1, hz2⟩ := Nat.add_eq_zero.mp h
      exact hz1

lemma mpz_absval_pos (L : ℕ) (x : mpzR) (h : mpz_valid L x) (hs : x.size ≠ 0) :
    0 < mpz_absval L x := by
  have h1 : x.limbs.getD (x.size.natAbs - 1) 0 ≠ 0 := h.2.2 hs
  have hnz : 1 ≤ x.size.natAbs := by
    rcases Nat.eq_zero_or_pos x.size.natAbs with h2 | h2
    · exact absurd (Int.natAbs_eq_zero.mp h2) hs
    · exact h2
  have hlen : (limbsOf x).length = x.size.natAbs := limbsOf_length L x h
  have hne : limbsOf x ≠ [] := by
    intro hc
    rw [hc] at hlen
    simp at hlen
    omega
  have h2 := mpn_le_val_top (2 ^ L) (limbsOf x) hne
  rw [hlen] at h2
  rw [limbsOf, getD_take _ _ _ (by omega)] at h2
  have h3 : 1 ≤ x.limbs.getD (x.size.natAbs - 1) 0 := Nat.pos_of_ne_zero h1
  have h4 : 0 < (2 ^ L) ^ (x.size.natAbs - 1) := by positivity
  calc 0 < x.limbs.getD (x.size.natAbs - 1) 0 * (2 ^ L) ^ (x.size.natAbs - 1) := by
        exact Nat.mul_pos h3 h4
    _ ≤ mpz_absval L x := h2

lemma mpz_absval_lt (L : ℕ) (x : mpzR) (h : mpz_valid L x) :
    mpz_absval L x < (2 ^ L) ^ x.size.natAbs := by
  have h1 := mpn_le_val_lt (2 ^ L) (by positivity) (limbsOf x) (limbsOf_lt L x h)
  rw [limbsOf_length L x h] at h1
  exact h1

-- C7 (amended): tstbit on a negative below the top limb flips the
-- stored bit exactly when a lower bit of the magnitude is set, and the
-- result is the bit of the two' s-complement value
theorem mpz_tstbit_neg (L : ℕ) (x : mpzR) (pos : ℕ) (hL : 1 ≤ L)
    (hv : mpz_valid L x) (hneg : x.size < 0) (hpos : pos / L < x.size.natAbs) :
    mpz_tstbit L x pos =
      (if mpz_absval L x % 2 ^ pos = 0 then mpz_absval L x / 2 ^ pos % 2
       else 1 - mpz_absval L x / 2 ^ pos % 2) ∧
    (mpz_tstbit L x pos : ℤ) = mpz_val L x / 2 ^ pos % 2 := by
  have hrL : pos % L < L := Nat.mod_lt _ (by omega)
  have h2p : 2 ^ pos = (2 ^ L) ^ (pos / L) * 2 ^ (pos % L) := by
    rw [← pow_mul, ← pow_add]
    congr 1
    exact (Nat.div_add_mod pos L).symm ▸ rfl
  have hnle : ¬ x.size.natAbs ≤ pos / L := by omega
  have hsz : x.size ≠ 0 := by omega
  have hb : x.limbs.getD (pos / L) 0 / 2 ^ (pos % L) % 2
      = mpz_absval L x / 2 ^ pos % 2 := by
    rw [mpz_limb_getD L x hv _ hpos, mod_pow_div_bit _ _ _ hrL,
      Nat.div_div_eq_div_mul, ← h2p]
  have hdc := mpz_divisible_correct L x pos hL hv hpos
  have hvpos : 0 < mpz_absval L x := mpz_absval_pos L x hv hsz
  have hval : mpz_val L x = -(mpz_absval L x : ℤ) := by
    rw [mpz_val, if_pos hneg]
  simp only [mpz_tstbit, if_neg hnle]
  by_cases hdvd : mpz_absval L x % 2 ^ pos = 0
  · have hdt : mpz_divisible_2exp_p L x pos = true := hdc.mpr hdvd
    have hcond : ¬(x.size < 0 ∧ mpz_divisible_2exp_p L x pos = false) := by
      rintro ⟨_, h2⟩
      rw [hdt] at h2
      exact absurd h2 (by simp)
    rw [if_neg hcond, if_pos hdvd]
    refine ⟨hb, ?_⟩
    rw [hb, hval, int_neg_bit_dvd _ _ hdvd]
  · have hdt : mpz_divisible_2exp_p L x pos = false := by
      rcases Bool.eq_false_or_eq_true (mpz_divisible_2exp_p L x pos) with h2 | h2
      · exact absurd (hdc.mp h2) hdvd
      · exact h2
    rw [if_pos ⟨hneg, hdt⟩, if_neg hdvd]
    refine ⟨by rw [hb], ?_⟩
    rw [hb, hval, int_neg_bit _ _ hdvd]
    have hble : mpz_absval L x / 2 ^ pos % 2 ≤ 1 := by omega
    omega

-- C10: tstbit at or above the top limb is the sign bit, which is the
-- bit of the two' s-complement value there
theorem mpz_tstbit_high (L : ℕ) (x : mpzR) (pos : ℕ) (hL : 1 ≤ L)
    (hv : mpz_valid L x) (hpos : x.size.natAbs ≤ pos / L) :
    mpz_tstbit L x pos = (if x.size < 0 then 1 else 0) ∧
    (mpz_tstbit L x pos : ℤ) = mpz_val L x / 2 ^ pos % 2 := by
  have hvlt : mpz_absval L x < 2 ^ pos := by
    calc mpz_absval L x < (2 ^ L) ^ x.size.natAbs := mpz_absval_lt L x hv
      _ ≤ (2 ^ L) ^ (pos / L) := Nat.pow_le_pow_right (by positivity) hpos
      _ = 2 ^ (L * (pos / L)) := by rw [← pow_mul]
      _ ≤ 2 ^ pos := Nat.pow_le_pow_right (by norm_num)
          (by
            have := Nat.div_add_mod pos L
            omega)
  rw [mpz_tstbit]
  simp only [if_pos hpos]
  refine ⟨trivial, ?_⟩
  by_cases hneg : x.size < 0
  · have hsz : x.size ≠ 0 := by omega
    have hvpos : 0 < mpz_absval L x := mpz_absval_pos L x hv hsz
    rw [if_pos hneg, mpz_val, if_pos hneg]
    have h1 : -(mpz_absval L x : ℤ) / (2 : ℤ) ^ pos = -1 := by
      rw [show -(mpz_absval L x : ℤ)
          = ((2 ^ pos - mpz_absval L x : ℕ) : ℤ) + 2 ^ pos * (-1) from by
        push_cast [le_of_lt hvlt]
        ring]
      rw [Int.add_mul_ediv_left _ _ (by positivity : (2 : ℤ) ^ pos ≠ 0)]
      rw [Int.ediv_eq_zero_of_lt (by positivity) (by
        have h2 : 2 ^ pos - mpz_absval L x < 2 ^ pos := by omega
        exact_mod_cast h2)]
      ring
    rw [h1]
    decide
  · rw [if_neg hneg, mpz_val, if_neg hneg]
    have h1 : (mpz_absval L x : ℤ) / (2 : ℤ) ^ pos = 0 :=
      Int.ediv_eq_zero_of_lt (by positivity) (by exact_mod_cast hvlt)
    rw [h1]
    decide

-- C6: mpz_subabs and mpz_quorem preserve the strip invariant
theorem mpz_strip_invariants (L : ℕ) (x y n d : mpzR) (hL : 1 ≤ L)
    (hx : mpz_valid L x) (hy : mpz_valid L y) (hn : mpz_valid L n)
    (hd : mpz_valid L d) (hyx : mpz_absval L y ≤ mpz_absval L x)
    (hd0 : d.size ≠ 0) :
    mpz_ok (mpz_subabs L x y) ∧
    mpz_ok (mpz_quorem L n d).1 ∧ mpz_ok (mpz_quorem L n d).2 := by
  have hB0 : 0 < 2 ^ L := by positivity
  refine ⟨?_, ?_⟩
  · -- subabs: the size is computed by mpn_strip
    rw [mpz_subabs, mpz_ok]
    intro hsz
    simp only at hsz ⊢
    have h1 : (mpn_strip (mpn_digits_le (2 ^ L) x.size.natAbs
        (mpz_absval L x - mpz_absval L y)) : ℤ).natAbs
        = mpn_strip (mpn_digits_le (2 ^ L) x.size.natAbs
            (mpz_absval L x - mpz_absval L y)) := Int.natAbs_ofNat _
    rw [h1]
    apply mpn_strip_spec
    intro hc
    rw [hc] at hsz
    exact hsz rfl
  -- quorem
  rw [mpz_quorem]
  by_cases hlt : mpz_absval L n < mpz_absval L d
  · rw [if_pos hlt]
    constructor
    · intro hsz
      simp at hsz
    · exact hn.2.2
  · rw [if_neg hlt]
    push_neg at hlt
    set nn := n.size.natAbs with hnn_def
    set dn := d.size.natAbs with hdn_def
    have hdn1 : 1 ≤ dn := by
      rcases Nat.eq_zero_or_pos dn with h2 | h2
      · exact absurd (Int.natAbs_eq_zero.mp h2) hd0
      · exact h2
    have hdne : limbsOf d ≠ [] := by
      intro hc
      have := limbsOf_length L d hd
      rw [hc] at this
      simp at this
      omega
    have hdlo : (2 ^ L) ^ (dn - 1) ≤ mpz_absval L d := by
      have h2 := mpn_le_val_top (2 ^ L) (limbsOf d) hdne
      rw [limbsOf_length L d hd] at h2
      rw [limbsOf, getD_take _ _ _ (by omega)] at h2
      have h3 : 1 ≤ d.limbs.getD (dn - 1) 0 := Nat.pos_of_ne_zero (hd.2.2 hd0)
      calc (2 ^ L) ^ (dn - 1) = 1 * (2 ^ L) ^ (dn - 1) := (Nat.one_mul _).symm
        _ ≤ d.limbs.getD (dn - 1) 0 * (2 ^ L) ^ (dn - 1) := Nat.mul_le_mul_right _ h3
        _ ≤ mpz_absval L d := h2
    have hdhi : mpz_absval L d < (2 ^ L) ^ dn := mpz_absval_lt L d hd
    have hnlt : mpz_absval L n < (2 ^ L) ^ nn := mpz_absval_lt L n hn
    have hdpos : 0 < mpz_absval L d := lt_of_lt_of_le (by positivity) hdlo
    have hnn2 : dn ≤ nn := by
      by_contra hc
      push_neg at hc
      have h2 : nn ≤ dn - 1 := by omega
      have h3 : mpz_absval L n < (2 ^ L) ^ (dn - 1) :=
        lt_of_lt_of_le hnlt (Nat.pow_le_pow_right (by positivity) h2)
      omega
    have hdm := mpn_divmod_correct L (mpz_absval L n) nn (mpz_absval L d) dn
      hL hdn1 hnn2 hnlt hdlo hdhi
    obtain ⟨hid, hrlt, hqlen, hqdig⟩ := hdm
    constructor
    · -- the quotient record
      rw [mpz_ok]
      intro hsz
      simp only at hsz ⊢
      set qn0 := nn - dn + 1 with hqn0
      set qp := (mpn_divmod L (mpz_absval L n) nn (mpz_absval L d) dn).1 with hqp
      set qv := mpn_le_val (2 ^ L) qp with hqv
      have hqv_eq : qv = mpz_absval L n / mpz_absval L d := by
        rw [← hid, Nat.add_comm, Nat.add_mul_div_right _ _ hdpos,
          Nat.div_eq_of_lt hrlt, Nat.zero_add]
      have hqvlt : qv < (2 ^ L) ^ qn0 := by
        rw [hqv, ← hqlen]
        exact mpn_le_val_lt _ hB0 _ hqdig
      have hget : ∀ i, i < qn0 → qp.getD i 0 = qv / (2 ^ L) ^ i % 2 ^ L := by
        intro i hi
        exact mpn_le_val_getD _ hB0 qp hqdig i (by rw [hqlen]; exact hi)
      by_cases ht1 : qp.getD (qn0 - 1) 0 = 0
      · -- one leading zero: the single decrement strips it
        rw [if_pos ht1] at hsz ⊢
        have hqn0ge : 2 ≤ qn0 := by
          by_contra hc
          have h2 : qn0 = 1 := by omega
          apply hsz
          rw [h2]
          split <;> simp
        have hna : ((if (n.size < 0) ≠ (d.size < 0) then -((qn0 - 1 : ℕ) : ℤ)
            else ((qn0 - 1 : ℕ) : ℤ))).natAbs = qn0 - 1 := by
          split <;> simp
        rw [hna]
        -- the quotient is at least B^(qn0-2), so limb qn0-2 is non-zero
        have hnsz : n.size ≠ 0 := by
          intro hc
          have h2 : nn = 0 := by rw [hnn_def, hc]; rfl
          rw [h2] at hnn2
          omega
        have hnne : limbsOf n ≠ [] := by
          intro hc
          have := limbsOf_length L n hn
          rw [hc] at this
          simp at this
          omega
        have hntop : (2 ^ L) ^ (nn - 1) ≤ mpz_absval L n := by
          have h2 := mpn_le_val_top (2 ^ L) (limbsOf n) hnne
          rw [limbsOf_length L n hn] at h2
          rw [limbsOf, getD_take _ _ _ (by omega)] at h2
          have h3 : 1 ≤ n.limbs.getD (nn - 1) 0 := Nat.pos_of_ne_zero (hn.2.2 hnsz)
          calc (2 ^ L) ^ (nn - 1) = 1 * (2 ^ L) ^ (nn - 1) := (Nat.one_mul _).symm
            _ ≤ n.limbs.getD (nn - 1) 0 * (2 ^ L) ^ (nn - 1) := Nat.mul_le_mul_right _ h3
            _ ≤ mpz_absval L n := h2
        have hqlow : (2 ^ L) ^ (qn0 - 2) ≤ qv := by
          rw [hqv_eq]
          calc (2 ^ L) ^ (qn0 - 2) = (2 ^ L) ^ (nn - 1) / (2 ^ L) ^ dn := by
                rw [Nat.pow_div (by omega) hB0]
                congr 1
                omega
            _ ≤ mpz_absval L n / (2 ^ L) ^ dn :=
                Nat.div_le_div_right hntop
            _ ≤ mpz_absval L n / mpz_absval L d :=
                Nat.div_le_div_left (le_of_lt hdhi) hdpos
        have hqhigh : qv < (2 ^ L) ^ (qn0 - 1) := by
          have h2 := hget (qn0 - 1) (by omega)
          rw [ht1] at h2
          have h3 : qv / (2 ^ L) ^ (qn0 - 1) < 2 ^ L := by
            rw [Nat.div_lt_iff_lt_mul (by positivity)]
            calc qv < (2 ^ L) ^ qn0 := hqvlt
              _ = (2 ^ L) ^ (qn0 - 1) * 2 ^ L := by
                  rw [← pow_succ]
                  congr 1
              _ = 2 ^ L * (2 ^ L) ^ (qn0 - 1) := Nat.mul_comm _ _
          have h4 : qv / (2 ^ L) ^ (qn0 - 1) = 0 := by
            rw [Nat.mod_eq_of_lt h3] at h2
            omega
          rw [Nat.div_eq_zero_iff (by positivity)] at h4
          exact h4
        have h5 : 1 ≤ qv / (2 ^ L) ^ (qn0 - 2) := by
          rw [Nat.le_div_iff_mul_le (by positivity), Nat.one_mul]
          exact hqlow
        have h6 : qv / (2 ^ L) ^ (qn0 - 2) < 2 ^ L := by
          rw [Nat.div_lt_iff_lt_mul (by positivity)]
          calc qv < (2 ^ L) ^ (qn0 - 1) := hqhigh
            _ = (2 ^ L) ^ (qn0 - 2) * 2 ^ L := by
                rw [← pow_succ]
                congr 1
                omega
            _ = 2 ^ L * (2 ^ L) ^ (qn0 - 2) := Nat.mul_comm _ _
        have h7 : qn0 - 1 - 1 = qn0 - 2 := by omega
        rw [h7, hget (qn0 - 2) (by omega), Nat.mod_eq_of_lt h6]
        omega
      · -- top limb already non-zero
        rw [if_neg ht1] at hsz ⊢
        have hna : ((if (n.size < 0) ≠ (d.size < 0) then -((qn0 - 0 : ℕ) : ℤ)
            else ((qn0 - 0 : ℕ) : ℤ))).natAbs = qn0 - 0 := by
          split <;> simp
        rw [hna]
        have h2 : qn0 - 0 - 1 = qn0 - 1 := by omega
        rw [h2]
        exact ht1
    · -- the remainder record
      rw [mpz_ok]
      intro hsz
      simp only at hsz ⊢
      set rl := mpn_digits_le (2 ^ L) dn
        (mpn_divmod L (mpz_absval L n) nn (mpz_absval L d) dn).2 with hrl
      have hna : ((if n.size < 0 then -((mpn_strip rl : ℕ) : ℤ)
          else ((mpn_strip rl : ℕ) : ℤ))).natAbs = mpn_strip rl := by
        split <;> simp
      rw [hna]
      apply mpn_strip_spec
      intro hc
      rw [hc] at hsz
      rcases (show (if n.size < 0 then -((0 : ℕ) : ℤ) else ((0 : ℕ) : ℤ)) = 0 from by
        split <;> simp) with h3
      rw [h3] at hsz
      exact hsz rfl
-- the Barrett quotient underestimates the true quotient by at most one
lemma barrett_h_bounds (K N x m : ℕ) (hN : 0 < N) (hK : 0 < K) (hx : x < K)
    (hm : m = K / N) :
    x * m / K ≤ x / N ∧ x < (x * m / K + 2) * N := by
  have hle : x * m / K ≤ x / N := by
    have h1 : x * m ≤ x * K / N := by
      rw [hm]
      exact Nat.mul_div_le_mul_div_assoc x K N
    calc x * m / K ≤ x * K / N / K := Nat.div_le_div_right h1
      _ = x * K / (N * K) := by rw [Nat.div_div_eq_div_mul]
      _ = x / N := Nat.mul_div_mul_right x N hK
  refine ⟨hle, ?_⟩
  set h := x * m / K with hh
  have hNm1 : K + 1 ≤ N * m + N := by
    rw [hm]
    have h1 : N * (K / N) + K % N = K := Nat.div_add_mod K N
    have h2 : K % N < N := Nat.mod_lt _ hN
    omega
  have hxm : x * m + 1 ≤ (h + 1) * K := by
    have h1 : x * m < (h + 1) * K := nat_lt_div_succ_mul (x * m) K hK
    omega
  have step1 : x * K + x ≤ x * (N * m) + x * N := by
    have h1 : x * (K + 1) ≤ x * (N * m + N) := Nat.mul_le_mul_left x hNm1
    have h2 : x * (K + 1) = x * K + x := by ring
    have h3 : x * (N * m + N) = x * (N * m) + x * N := by ring
    omega
  have step2 : x * (N * m) = N * (x * m) := by ring
  have step3 : N * (x * m) + N ≤ N * ((h + 1) * K) := by
    calc N * (x * m) + N = N * (x * m + 1) := by ring
      _ ≤ N * ((h + 1) * K) := Nat.mul_le_mul_left N hxm
  have step4 : x * N ≤ (K - 1) * N := Nat.mul_le_mul_right N (by omega)
  have step5 : x * K < K * ((h + 2) * N) := by
    have h1 : x * K + x + N ≤ N * ((h + 1) * K) + x * N := by omega
    have h2 : N * ((h + 1) * K) + (K - 1) * N + N = K * ((h + 2) * N) := by
      have h3 : 1 ≤ K := hK
      zify [h3]
      ring
    have h4 : x * K + x + N ≤ N * ((h + 1) * K) + (K - 1) * N := by omega
    omega
  have h6 : K * x < K * ((h + 2) * N) := by
    rw [Nat.mul_comm K x]
    exact step5
  exact Nat.lt_of_mul_lt_mul_left h6

-- C3: Barrett reduction returns the canonical residue with a single
-- masked subtraction
theorem mpn_reduce_correct (L n shift m N x : ℕ) (hL : 1 ≤ L) (hn : 1 ≤ n)
    (hNlo : (2 ^ L) ^ (n - 1) ≤ N) (hNhi : N < (2 ^ L) ^ n)
    (hshift : 2 * n ≤ shift) (hx : x < (2 ^ L) ^ shift)
    (hm : m = mpn_barrett L shift N) :
    mpn_reduce L n shift m N x % N = x % N ∧ mpn_reduce L n shift m N x < N := by
  have hB : 2 ≤ 2 ^ L := by
    calc 2 = 2 ^ 1 := (pow_one 2).symm
      _ ≤ 2 ^ L := Nat.pow_le_pow_right (by norm_num) hL
  have hN0 : 0 < N := lt_of_lt_of_le (by positivity) hNlo
  have hK : 0 < (2 ^ L) ^ shift := by positivity
  have hBn : 0 < (2 ^ L) ^ n := by positivity
  obtain ⟨h_le, h_ub⟩ := barrett_h_bounds ((2 ^ L) ^ shift) N x m hN0 hK hx hm
  set K := (2 ^ L) ^ shift with hKdef
  set h := x * m / K with hh
  have hhN : h * N ≤ x := by
    calc h * N ≤ x / N * N := Nat.mul_le_mul_right _ h_le
      _ ≤ x := Nat.div_mul_le_self _ _
  have hq2N : x - h * N < 2 * N := by
    have h1 : (h + 2) * N = h * N + 2 * N := by ring
    omega
  have hNBn : (2 ^ L) ^ n ≤ K := by
    rw [hKdef]
    exact Nat.pow_le_pow_right (by positivity) (by omega)
  have hq_wrap : (x + K - h * N % K) % K = x - h * N := by
    have h1 : h * N % K = h * N := Nat.mod_eq_of_lt (by omega)
    rw [h1]
    have h2 : x + K - h * N = (x - h * N) + K := by omega
    rw [h2, Nat.add_mod_right]
    exact Nat.mod_eq_of_lt (by omega)
  set q := x - h * N with hq
  have hqx : x % N = q % N := by
    conv_lhs => rw [show x = h * N + q from by omega]
    rw [Nat.add_comm, Nat.add_mul_mod_self_right]
  have hq2Bn : q < 2 * (2 ^ L) ^ n := by omega
  have hhi_le : q / (2 ^ L) ^ n ≤ 1 := by
    by_contra hc
    push_neg at hc
    have h1 : 2 ≤ q / (2 ^ L) ^ n := hc
    have h2 : 2 * (2 ^ L) ^ n ≤ q / (2 ^ L) ^ n * (2 ^ L) ^ n :=
      Nat.mul_le_mul_right _ h1
    have h3 : q / (2 ^ L) ^ n * (2 ^ L) ^ n ≤ q := Nat.div_mul_le_self _ _
    omega
  have hhi_mod : q / (2 ^ L) ^ n % 2 ^ L = q / (2 ^ L) ^ n :=
    Nat.mod_eq_of_lt (by omega)
  rw [mpn_reduce]
  rw [← hKdef, ← hh, hq_wrap, hhi_mod]
  rw [mpn_reduce_weak]
  by_cases hhi : q / (2 ^ L) ^ n = 0
  · have hqBn : q < (2 ^ L) ^ n := by
      rw [Nat.div_eq_zero_iff hBn] at hhi
      exact hhi
    have hqlow : q % (2 ^ L) ^ n = q := Nat.mod_eq_of_lt hqBn
    rw [hqlow, hhi]
    by_cases hqN : q < N
    · rw [if_pos (by rw [if_pos hqN]; omega)]
      exact ⟨hqx.symm, hqN⟩
    · push_neg at hqN
      rw [if_neg (by rw [if_neg (not_lt.mpr hqN)]; omega)]
      have ht : (q + (2 ^ L) ^ n - N) % (2 ^ L) ^ n = q - N := by
        have h2 : q + (2 ^ L) ^ n - N = (q - N) + (2 ^ L) ^ n := by omega
        rw [h2, Nat.add_mod_right]
        exact Nat.mod_eq_of_lt (by omega)
      rw [ht]
      constructor
      · rw [hqx]
        conv_rhs => rw [show q = (q - N) + N from by omega]
        rw [Nat.add_mod_right]
      · omega
  · have hhi1 : q / (2 ^ L) ^ n = 1 := by omega
    have hBnq : (2 ^ L) ^ n ≤ q := by
      by_contra hc
      push_neg at hc
      rw [Nat.div_eq_of_lt hc] at hhi1
      omega
    have hNq : N ≤ q := le_of_lt (lt_of_lt_of_le hNhi hBnq)
    have hqlow : q % (2 ^ L) ^ n = q - (2 ^ L) ^ n := by
      rw [Nat.mod_eq_sub_mod hBnq]
      exact Nat.mod_eq_of_lt (by omega)
    rw [hqlow, hhi1]
    rw [if_neg (by split <;> omega)]
    have ht : (q - (2 ^ L) ^ n + (2 ^ L) ^ n - N) % (2 ^ L) ^ n = q - N := by
      have h2 : q - (2 ^ L) ^ n + (2 ^ L) ^ n - N = q - N := by omega
      rw [h2]
      exact Nat.mod_eq_of_lt (by omega)
    rw [ht]
    constructor
    · rw [hqx]
      conv_rhs => rw [show q = (q - N) + N from by omega]
      rw [Nat.add_mod_right]
    · omega
lemma mod_eq_zero_of_dvd {a b : ℕ} (h : b ∣ a) : a % b = 0 := by
  rcases h with ⟨c, rfl⟩
  exact Nat.mul_mod_right b c

-- trailing-zero count: the stripped number is odd
lemma mp_ctzF_correct : ∀ f n, 0 < n → n ≤ f →
    n % 2 ^ mp_ctzF f n = 0 ∧ n / 2 ^ mp_ctzF f n % 2 = 1 := by
  intro f
  induction f with
  | zero =>
    intro n h1 h2
    omega
  | succ f ih =>
    intro n h1 h2
    by_cases hodd : n % 2 = 1
    · rw [mp_ctzF, if_pos (Or.inl hodd)]
      refine ⟨Nat.mod_one n, ?_⟩
      simpa using hodd
    · have hcond : ¬(n % 2 = 1 ∨ n = 0) := by omega
      rw [mp_ctzF, if_neg hcond]
      have hrec := ih (n / 2) (by omega) (by omega)
      obtain ⟨ihd, iho⟩ := hrec
      constructor
      · have h3 : n = 2 * (n / 2) := by omega
        have h4 : 2 ^ mp_ctzF f (n / 2) ∣ n / 2 := Nat.dvd_of_mod_eq_zero ihd
        have h5 : 2 * 2 ^ mp_ctzF f (n / 2) ∣ n := by
          have h6 : 2 * 2 ^ mp_ctzF f (n / 2) ∣ 2 * (n / 2) := Nat.mul_dvd_mul_left 2 h4
          rw [← h3] at h6
          exact h6
        rw [pow_succ, Nat.mul_comm (2 ^ mp_ctzF f (n / 2)) 2]
        exact mod_eq_zero_of_dvd h5
      · rw [pow_succ, Nat.mul_comm (2 ^ mp_ctzF f (n / 2)) 2, ← Nat.div_div_eq_div_mul]
        exact iho

lemma mp_ctz_dvd (n : ℕ) (h : 0 < n) : n % 2 ^ mp_ctz n = 0 :=
  (mp_ctzF_correct n n h le_rfl).1

lemma mp_ctz_odd (n : ℕ) (h : 0 < n) : n / 2 ^ mp_ctz n % 2 = 1 :=
  (mp_ctzF_correct n n h le_rfl).2

lemma mp_ctz_div_pos (n : ℕ) (h : 0 < n) : 0 < n / 2 ^ mp_ctz n := by
  have := mp_ctz_odd n h
  rcases Nat.eq_zero_or_pos (n / 2 ^ mp_ctz n) with h2 | h2
  · rw [h2] at this
    simp at this
  · exact h2

-- a single cofactor halving step tracks the halving of u
lemma mpn_halve_correct (y x u a : ℕ) (hy : y % 2 = 1) (hy2 : 2 ≤ y)
    (ha : a < y) (heven : u % 2 = 0) (hinv : a * x ≡ u [MOD y]) :
    mpn_halve y a < y ∧ mpn_halve y a * x ≡ u / 2 [MOD y] := by
  have hcop : Nat.gcd y 2 = 1 := by
    rw [Nat.gcd_comm, Nat.gcd_rec, hy]
    simp
  rw [mpn_halve]
  by_cases hodd : a % 2 = 1
  · rw [if_pos hodd]
    refine ⟨by omega, ?_⟩
    have heven2 : (a + y) % 2 = 0 := by omega
    have hexact : 2 * ((a + y) / 2) = a + y := by omega
    apply Nat.ModEq.cancel_left_of_coprime hcop
    calc 2 * ((a + y) / 2 * x) = (2 * ((a + y) / 2)) * x := by ring
      _ = (a + y) * x := by rw [hexact]
      _ = a * x + y * x := by ring
      _ ≡ a * x + 0 * x [MOD y] := Nat.ModEq.add_left _
            (Nat.ModEq.mul_right x (Nat.modEq_zero_iff_dvd.mpr dvd_rfl))
      _ = a * x := by ring
      _ ≡ u [MOD y] := hinv
      _ = 2 * (u / 2) := by omega
  · rw [if_neg hodd]
    refine ⟨by omega, ?_⟩
    have hexact : 2 * (a / 2) = a := by omega
    apply Nat.ModEq.cancel_left_of_coprime hcop
    calc 2 * (a / 2 * x) = (2 * (a / 2)) * x := by ring
      _ = a * x := by rw [hexact]
      _ ≡ u [MOD y] := hinv
      _ = 2 * (u / 2) := by omega

-- iterated halving
lemma mpn_halveK_correct (y x : ℕ) (hy : y % 2 = 1) (hy2 : 2 ≤ y) :
    ∀ k u a, a < y → u % 2 ^ k = 0 → a * x ≡ u [MOD y] →
      mpn_halveK y k a < y ∧ mpn_halveK y k a * x ≡ u / 2 ^ k [MOD y] := by
  intro k
  induction k with
  | zero =>
    intro u a ha _ hinv
    rw [mpn_halveK]
    simpa using ⟨ha, hinv⟩
  | succ k ih =>
    intro u a ha hdvd hinv
    rw [mpn_halveK]
    have heven : u % 2 = 0 := by
      have h1 : (2 : ℕ) ∣ 2 ^ (k + 1) := dvd_pow_self 2 (by omega)
      have h2 : (2 : ℕ) ∣ u := dvd_trans h1 (Nat.dvd_of_mod_eq_zero hdvd)
      omega
    obtain ⟨h1, h2⟩ := mpn_halve_correct y x u a hy hy2 ha heven hinv
    have hdvd2 : u / 2 % 2 ^ k = 0 := by
      have h3 : u = 2 * (u / 2) := by omega
      have h4 : 2 ^ (k + 1) ∣ u := Nat.dvd_of_mod_eq_zero hdvd
      rw [h3, pow_succ, Nat.mul_comm (2 ^ k) 2] at h4
      have h5 : 2 ^ k ∣ u / 2 := (Nat.mul_dvd_mul_iff_left (by norm_num : 0 < 2)).mp h4
      exact Nat.mod_eq_zero_of_dvd h5
    have hres := ih (u / 2) (mpn_halve y a) h1 hdvd2 h2
    have heq : u / 2 / 2 ^ k = u / 2 ^ (k + 1) := by
      rw [Nat.div_div_eq_div_mul, ← pow_succ']
    rw [heq] at hres
    exact hres

lemma mpn_sub_mod_correct (a b y : ℕ) (ha : a < y) (hb : b < y) :
    mpn_sub_mod a b y < y ∧ mpn_sub_mod a b y + b ≡ a [MOD y] := by
  rw [mpn_sub_mod]
  by_cases h : b ≤ a
  · rw [if_pos h]
    refine ⟨by omega, ?_⟩
    rw [Nat.sub_add_cancel h]
  · rw [if_neg h]
    refine ⟨by omega, ?_⟩
    have h1 : y - (b - a) + b = y + a := by omega
    rw [h1]
    calc y + a ≡ 0 + a [MOD y] :=
          Nat.ModEq.add_right a (Nat.modEq_zero_iff_dvd.mpr dvd_rfl)
      _ = a := by omega

lemma odd_of_dvd_odd {d n : ℕ} (h : d ∣ n) (hn : n % 2 = 1) : d % 2 = 1 := by
  by_contra hc
  have h2 : (2 : ℕ) ∣ d := by omega
  have h3 : (2 : ℕ) ∣ n := dvd_trans h2 h
  rcases h3 with ⟨c, rfl⟩
  omega

-- stripping powers of two from one side keeps an odd gcd
lemma gcd_strip_left (u v k : ℕ) (hodd : Nat.gcd u v % 2 = 1)
    (hdvd : u % 2 ^ k = 0) : Nat.gcd (u / 2 ^ k) v = Nat.gcd u v := by
  have hdvd2 : 2 ^ k ∣ u := Nat.dvd_of_mod_eq_zero hdvd
  obtain ⟨u2, hu2⟩ := hdvd2
  have hu2' : u / 2 ^ k = u2 := by
    rw [hu2]
    exact Nat.mul_div_cancel_left u2 (by positivity)
  rw [hu2']
  apply Nat.dvd_antisymm
  · apply Nat.dvd_gcd
    · exact dvd_trans (Nat.gcd_dvd_left u2 v) (by rw [hu2]; exact dvd_mul_left u2 (2 ^ k))
    · exact Nat.gcd_dvd_right u2 v
  · apply Nat.dvd_gcd
    · have hg_odd : Nat.gcd u v % 2 = 1 := hodd
      have hcop : Nat.Coprime (Nat.gcd u v) 2 := by
        have h2 : Nat.gcd (Nat.gcd u v) 2 = 1 := by
          rw [Nat.gcd_comm, Nat.gcd_rec, hg_odd]
          simp
        exact h2
      have hcop2 : Nat.Coprime (Nat.gcd u v) (2 ^ k) := Nat.Coprime.pow_right k hcop
      have h1 : Nat.gcd u v ∣ 2 ^ k * u2 := by
        rw [← hu2]
        exact Nat.gcd_dvd_left u v
      exact (Nat.Coprime.dvd_of_dvd_mul_left hcop2 h1)
    · exact Nat.gcd_dvd_right u v

-- the Penk loop returns the gcd and a modular cofactor
lemma mpn_invert_loop_correct (y x : ℕ) (hy : y % 2 = 1) (hy2 : 2 ≤ y) :
    ∀ fuel u v a b, u + v ≤ fuel →
      a < y → b < y → 0 < v →
      a * x ≡ u [MOD y] → b * x ≡ v [MOD y] →
      Nat.gcd u v = Nat.gcd x y →
      (mpn_invert_loop y fuel u v a b).1 = Nat.gcd x y ∧
      (mpn_invert_loop y fuel u v a b).2 < y ∧
      (mpn_invert_loop y fuel u v a b).2 * x
        ≡ (mpn_invert_loop y fuel u v a b).1 [MOD y] := by
  intro fuel
  induction fuel with
  | zero =>
    intro u v a b hfuel ha hb hv _ _ _
    omega
  | succ fuel ih =>
    intro u v a b hfuel ha hb hv hainv hbinv hg
    rw [mpn_invert_loop]
    by_cases hu : u = 0
    · rw [if_pos hu]
      subst hu
      rw [Nat.gcd_zero_left] at hg
      exact ⟨hg, hb, hg ▸ hbinv⟩
    · rw [if_neg hu]
      have hu0 : 0 < u := Nat.pos_of_ne_zero hu
      have hgodd : Nat.gcd u v % 2 = 1 := by
        rw [hg]
        exact odd_of_dvd_odd (Nat.gcd_dvd_right x y) hy
      have hdu := mp_ctz_dvd u hu0
      have hdv := mp_ctz_dvd v hv
      set uz := mp_ctz u with huz
      set vz := mp_ctz v with hvz
      set u2 := u / 2 ^ uz with hu2
      set v2 := v / 2 ^ vz with hv2
      have hu2pos : 0 < u2 := mp_ctz_div_pos u hu0
      have hv2pos : 0 < v2 := mp_ctz_div_pos v hv
      have hu2le : u2 ≤ u := Nat.div_le_self _ _
      have hv2le : v2 ≤ v := Nat.div_le_self _ _
      obtain ⟨ha2, ha2inv⟩ := mpn_halveK_correct y x hy hy2 uz u a ha hdu hainv
      obtain ⟨hb2, hb2inv⟩ := mpn_halveK_correct y x hy hy2 vz v b hb hdv hbinv
      have hg1 : Nat.gcd u2 v = Nat.gcd u v := gcd_strip_left u v uz hgodd hdu
      have hg2 : Nat.gcd u2 v2 = Nat.gcd u v := by
        rw [← hg1]
        rw [Nat.gcd_comm u2 v, Nat.gcd_comm u2 v2]
        apply gcd_strip_left
        · rw [Nat.gcd_comm, hg1]
          exact hgodd
        · exact hdv
      by_cases hcmp : v2 ≤ u2
      · rw [if_pos hcmp]
        obtain ⟨hs, hsub⟩ := mpn_sub_mod_correct (mpn_halveK y uz a)
          (mpn_halveK y vz b) y ha2 hb2
        apply ih (u2 - v2) v2 _ _ (by omega) hs hb2 hv2pos
        · -- cofactor of the new u
          have h1 : mpn_sub_mod (mpn_halveK y uz a) (mpn_halveK y vz b) y * x + v2
              ≡ u2 [MOD y] := by
            calc mpn_sub_mod (mpn_halveK y uz a) (mpn_halveK y vz b) y * x + v2
                ≡ mpn_sub_mod (mpn_halveK y uz a) (mpn_halveK y vz b) y * x
                  + mpn_halveK y vz b * x [MOD y] :=
                  Nat.ModEq.add_left _ hb2inv.symm
              _ = (mpn_sub_mod (mpn_halveK y uz a) (mpn_halveK y vz b) y
                  + mpn_halveK y vz b) * x := by ring
              _ ≡ mpn_halveK y uz a * x [MOD y] := Nat.ModEq.mul_right x hsub
              _ ≡ u2 [MOD y] := ha2inv
          have h2 : (u2 - v2) + v2 = u2 := by omega
          apply Nat.ModEq.add_right_cancel' v2
          rw [h2]
          exact h1
        · exact hb2inv
        · rw [Nat.gcd_sub_self_left hcmp, hg2, hg]
      · rw [if_neg hcmp]
        push_neg at hcmp
        obtain ⟨hs, hsub⟩ := mpn_sub_mod_correct (mpn_halveK y vz b)
          (mpn_halveK y uz a) y hb2 ha2
        apply ih u2 (v2 - u2) _ _ (by omega) ha2 hs (by omega)
        · exact ha2inv
        · have h1 : mpn_sub_mod (mpn_halveK y vz b) (mpn_halveK y uz a) y * x + u2
              ≡ v2 [MOD y] := by
            calc mpn_sub_mod (mpn_halveK y vz b) (mpn_halveK y uz a) y * x + u2
                ≡ mpn_sub_mod (mpn_halveK y vz b) (mpn_halveK y uz a) y * x
                  + mpn_halveK y uz a * x [MOD y] :=
                  Nat.ModEq.add_left _ ha2inv.symm
              _ = (mpn_sub_mod (mpn_halveK y vz b) (mpn_halveK y uz a) y
                  + mpn_halveK y uz a) * x := by ring
              _ ≡ mpn_halveK y vz b * x [MOD y] := Nat.ModEq.mul_right x hsub
              _ ≡ v2 [MOD y] := hb2inv
          have h2 : (v2 - u2) + u2 = v2 := by omega
          apply Nat.ModEq.add_right_cancel' u2
          rw [h2]
          exact h1
        · rw [Nat.gcd_sub_self_right (le_of_lt hcmp), hg2, hg]

-- mpn_invert: modular inverse modulo an odd y, failing iff gcd != 1
-- or y = 1
theorem mpn_invert_correct (x y : ℕ) (hy : y % 2 = 1) (hx : x < y) :
    (∀ b, mpn_invert x y = some b →
      Nat.gcd x y = 1 ∧ b < y ∧ b * x ≡ 1 [MOD y]) ∧
    (mpn_invert x y = none ↔ (Nat.gcd x y ≠ 1 ∨ y = 1)) := by
  by_cases hy1 : y = 1
  · rw [mpn_invert, if_pos hy1]
    refine ⟨fun b hb => by simp at hb, ?_⟩
    simp [hy1]
  · have hy2 : 2 ≤ y := by omega
    have hloop := mpn_invert_loop_correct y x hy hy2 (x + y) x y 1 0 le_rfl
      (by omega) (by omega) (by omega)
      (by rw [Nat.one_mul])
      (by
        rw [Nat.zero_mul]
        exact (Nat.modEq_zero_iff_dvd.mpr dvd_rfl).symm)
      rfl
    obtain ⟨hg, hblt, hbinv⟩ := hloop
    rw [mpn_invert, if_neg hy1]
    by_cases hr : (mpn_invert_loop y (x + y) x y 1 0).1 = 1
    · rw [if_pos hr]
      constructor
      · intro b hb
        have hb2 : b = (mpn_invert_loop y (x + y) x y 1 0).2 := by
          injection hb with h
          exact h.symm
        rw [hb2]
        refine ⟨by rw [← hg, hr], hblt, ?_⟩
        have h3 := hbinv
        rw [hr] at h3
        exact h3
      · constructor
        · intro h
          simp at h
        · intro h
          rcases h with h | h
          · rw [← hg, hr] at h
            omega
          · exact absurd h hy1
    · rw [if_neg hr]
      refine ⟨fun b hb => by simp at hb, ?_⟩
      constructor
      · intro _
        left
        rw [← hg]
        exact hr
      · intro _
        rfl
-- after the conditional adjustment both cofactors are even
lemma gz_parity (A B up vp w : ℤ) (hop : up % 2 = 1 ∨ vp % 2 = 1)
    (hrel : A * up + B * vp = 2 * w) :
    (if A % 2 ≠ 0 ∨ B % 2 ≠ 0 then (A + vp, B - up) else (A, B)).1 % 2 = 0 ∧
    (if A % 2 ≠ 0 ∨ B % 2 ≠ 0 then (A + vp, B - up) else (A, B)).2 % 2 = 0 := by
  have h1 : (A * up + B * vp) % 2 = 0 := by
    rw [hrel]
    omega
  rw [Int.add_emod, Int.mul_emod, Int.mul_emod B vp] at h1
  rcases Int.emod_two_eq A with hA | hA <;> rcases Int.emod_two_eq B with hB | hB <;>
    rcases Int.emod_two_eq up with hu | hu <;> rcases Int.emod_two_eq vp with hv | hv <;>
    rw [hA, hB, hu, hv] at h1 <;> rw [hu, hv] at hop <;>
    simp only [hA, hB] <;>
    norm_num at h1 hop ⊢ <;>
    omega

-- one halving step preserves the Bezout relation for the halved value
lemma gz_halve_correct (up vp A B w : ℤ) (hop : up % 2 = 1 ∨ vp % 2 = 1)
    (hrel : A * up + B * vp = 2 * w) :
    (gz_halve vp up A B).1 * up + (gz_halve vp up A B).2 * vp = w := by
  obtain ⟨hp1, hp2⟩ := gz_parity A B up vp w hop hrel
  rw [gz_halve]
  set p := if A % 2 ≠ 0 ∨ B % 2 ≠ 0 then (A + vp, B - up) else (A, B) with hp
  have hrel2 : p.1 * up + p.2 * vp = 2 * w := by
    rw [hp]
    split
    · simp only
      calc (A + vp) * up + (B - up) * vp = A * up + B * vp := by ring
        _ = 2 * w := hrel
    · exact hrel
  obtain ⟨c1, hc1⟩ : (2 : ℤ) ∣ p.1 := Int.dvd_of_emod_eq_zero hp1
  obtain ⟨c2, hc2⟩ : (2 : ℤ) ∣ p.2 := Int.dvd_of_emod_eq_zero hp2
  have ht1 : Int.tdiv p.1 2 = c1 := by
    rw [hc1]
    exact Int.mul_tdiv_cancel_left c1 (by norm_num)
  have ht2 : Int.tdiv p.2 2 = c2 := by
    rw [hc2]
    exact Int.mul_tdiv_cancel_left c2 (by norm_num)
  simp only [ht1, ht2]
  rw [hc1, hc2] at hrel2
  have h3 : 2 * (c1 * up + c2 * vp) = 2 * w := by
    calc 2 * (c1 * up + c2 * vp) = 2 * c1 * up + 2 * c2 * vp := by ring
      _ = 2 * w := hrel2
  exact mul_left_cancel₀ (by norm_num : (2 : ℤ) ≠ 0) h3

-- iterated halving
lemma gz_halveK_correct (up vp : ℤ) (hop : up % 2 = 1 ∨ vp % 2 = 1) :
    ∀ (k : ℕ) (A B w : ℤ), A * up + B * vp = 2 ^ k * w →
      (gz_halveK vp up k A B).1 * up + (gz_halveK vp up k A B).2 * vp = w := by
  intro k
  induction k with
  | zero =>
    intro A B w hrel
    rw [gz_halveK]
    simpa using hrel
  | succ k ih =>
    intro A B w hrel
    rw [gz_halveK]
    apply ih
    apply gz_halve_correct up vp A B (2 ^ k * w) hop
    rw [hrel]
    ring

-- the binary egcd loop returns the gcd and a Bezout pair for it
lemma mpz_gcdext_loop_correct (upn vpn g : ℕ)
    (hop : upn % 2 = 1 ∨ vpn % 2 = 1) (hgodd : g % 2 = 1) :
    ∀ (fuel u v : ℕ) (A B C D : ℤ), u + v ≤ fuel → 0 < v →
      A * (upn : ℤ) + B * (vpn : ℤ) = (u : ℤ) →
      C * (upn : ℤ) + D * (vpn : ℤ) = (v : ℤ) →
      Nat.gcd u v = g →
      (mpz_gcdext_loop (upn : ℤ) (vpn : ℤ) fuel u v A B C D).1 = g ∧
      (mpz_gcdext_loop (upn : ℤ) (vpn : ℤ) fuel u v A B C D).2.1 * (upn : ℤ)
        + (mpz_gcdext_loop (upn : ℤ) (vpn : ℤ) fuel u v A B C D).2.2 * (vpn : ℤ)
        = ((mpz_gcdext_loop (upn : ℤ) (vpn : ℤ) fuel u v A B C D).1 : ℤ) := by
  have hopz : (upn : ℤ) % 2 = 1 ∨ (vpn : ℤ) % 2 = 1 := by
    rcases hop with h | h
    · left; omega
    · right; omega
  intro fuel
  induction fuel with
  | zero =>
    intro u v A B C D hfuel hv _ _ _
    omega
  | succ fuel ih =>
    intro u v A B C D hfuel hv hAB hCD hg
    rw [mpz_gcdext_loop]
    by_cases hu : u = 0
    · rw [if_pos hu]
      subst hu
      rw [Nat.gcd_zero_left] at hg
      refine ⟨hg, ?_⟩
      exact hCD
    · rw [if_neg hu]
      have hu0 : 0 < u := Nat.pos_of_ne_zero hu
      have hgodd2 : Nat.gcd u v % 2 = 1 := by rw [hg]; exact hgodd
      have hdu := mp_ctz_dvd u hu0
      have hdv := mp_ctz_dvd v hv
      set uz := mp_ctz u with huz
      set vz := mp_ctz v with hvz
      set u2 := u / 2 ^ uz with hu2
      set v2 := v / 2 ^ vz with hv2
      have hu2pos : 0 < u2 := mp_ctz_div_pos u hu0
      have hv2pos : 0 < v2 := mp_ctz_div_pos v hv
      have hu2le : u2 ≤ u := Nat.div_le_self _ _
      have hv2le : v2 ≤ v := Nat.div_le_self _ _
      have huval : u = 2 ^ uz * u2 := by
        have h1 : 2 ^ uz ∣ u := Nat.dvd_of_mod_eq_zero hdu
        rw [hu2]
        exact (Nat.mul_div_cancel' h1).symm
      have hvval : v = 2 ^ vz * v2 := by
        have h1 : 2 ^ vz ∣ v := Nat.dvd_of_mod_eq_zero hdv
        rw [hv2]
        exact (Nat.mul_div_cancel' h1).symm
      have hAB2 := gz_halveK_correct (upn : ℤ) (vpn : ℤ) hopz uz A B (u2 : ℤ) (by
        rw [hAB]
        rw [show (u : ℤ) = ((2 ^ uz * u2 : ℕ) : ℤ) from by rw [← huval]]
        push_cast
        ring)
      have hCD2 := gz_halveK_correct (upn : ℤ) (vpn : ℤ) hopz vz C D (v2 : ℤ) (by
        rw [hCD]
        rw [show (v : ℤ) = ((2 ^ vz * v2 : ℕ) : ℤ) from by rw [← hvval]]
        push_cast
        ring)
      have hg1 : Nat.gcd u2 v = Nat.gcd u v := gcd_strip_left u v uz hgodd2 hdu
      have hg2 : Nat.gcd u2 v2 = Nat.gcd u v := by
        rw [← hg1]
        rw [Nat.gcd_comm u2 v, Nat.gcd_comm u2 v2]
        apply gcd_strip_left
        · rw [Nat.gcd_comm, hg1]
          exact hgodd2
        · exact hdv
      by_cases hcmp : v2 ≤ u2
      · rw [if_pos hcmp]
        apply ih (u2 - v2) v2 _ _ _ _ (by omega) hv2pos
        · rw [show ((u2 - v2 : ℕ) : ℤ) = (u2 : ℤ) - (v2 : ℤ) from by
            push_cast [hcmp]
            ring]
          rw [← hAB2, ← hCD2]
          ring
        · exact hCD2
        · rw [Nat.gcd_sub_self_left hcmp, hg2, hg]
      · rw [if_neg hcmp]
        push_neg at hcmp
        apply ih u2 (v2 - u2) _ _ _ _ (by omega) (by omega)
        · exact hAB2
        · rw [show ((v2 - u2 : ℕ) : ℤ) = (v2 : ℤ) - (u2 : ℤ) from by
            push_cast [le_of_lt hcmp]
            ring]
          rw [← hAB2, ← hCD2]
          ring
        · rw [Nat.gcd_sub_self_right (le_of_lt hcmp), hg2, hg]

-- mpz_gcdext returns the gcd and a Bezout identity for it
theorem mpz_gcdext_correct (x y : ℤ) (hx : x ≠ 0) (hy : y ≠ 0) :
    (mpz_gcdext x y).1 = (Nat.gcd x.natAbs y.natAbs : ℤ) ∧
    (mpz_gcdext x y).2.1 * x + (mpz_gcdext x y).2.2 * y = (mpz_gcdext x y).1 := by
  simp only [mpz_gcdext, if_neg hx, if_neg hy]
  set u0 := x.natAbs with hu0def
  set v0 := y.natAbs with hv0def
  have hu0 : 0 < u0 := Int.natAbs_pos.mpr hx
  have hv0 : 0 < v0 := Int.natAbs_pos.mpr hy
  set shift := min (mp_ctz u0) (mp_ctz v0) with hshift
  set u1 := u0 / 2 ^ shift with hu1def
  set v1 := v0 / 2 ^ shift with hv1def
  have hdu : 2 ^ shift ∣ u0 := by
    have h1 : 2 ^ shift ∣ 2 ^ mp_ctz u0 :=
      pow_dvd_pow 2 (by rw [hshift]; exact Nat.min_le_left _ _)
    exact dvd_trans h1 (Nat.dvd_of_mod_eq_zero (mp_ctz_dvd u0 hu0))
  have hdv : 2 ^ shift ∣ v0 := by
    have h1 : 2 ^ shift ∣ 2 ^ mp_ctz v0 :=
      pow_dvd_pow 2 (by rw [hshift]; exact Nat.min_le_right _ _)
    exact dvd_trans h1 (Nat.dvd_of_mod_eq_zero (mp_ctz_dvd v0 hv0))
  have hu0val : u0 = 2 ^ shift * u1 := (Nat.mul_div_cancel' hdu).symm
  have hv0val : v0 = 2 ^ shift * v1 := (Nat.mul_div_cancel' hdv).symm
  have hu1pos : 0 < u1 := by
    rcases Nat.eq_zero_or_pos u1 with h | h
    · rw [h, Nat.mul_zero] at hu0val
      omega
    · exact h
  have hv1pos : 0 < v1 := by
    rcases Nat.eq_zero_or_pos v1 with h | h
    · rw [h, Nat.mul_zero] at hv0val
      omega
    · exact h
  have hop : u1 % 2 = 1 ∨ v1 % 2 = 1 := by
    rcases le_total (mp_ctz u0) (mp_ctz v0) with h | h
    · left
      have h2 : shift = mp_ctz u0 := by rw [hshift]; omega
      rw [hu1def, h2]
      exact mp_ctz_odd u0 hu0
    · right
      have h2 : shift = mp_ctz v0 := by rw [hshift]; omega
      rw [hv1def, h2]
      exact mp_ctz_odd v0 hv0
  have hgodd : Nat.gcd u1 v1 % 2 = 1 := by
    rcases hop with h | h
    · exact odd_of_dvd_odd (Nat.gcd_dvd_left u1 v1) h
    · exact odd_of_dvd_odd (Nat.gcd_dvd_right u1 v1) h
  have hloop := mpz_gcdext_loop_correct u1 v1 (Nat.gcd u1 v1) hop hgodd
    (u1 + v1) u1 v1 1 0 0 1 le_rfl hv1pos
    (by push_cast; ring) (by push_cast; ring) rfl
  obtain ⟨hg, hbez⟩ := hloop
  have hggcd : Nat.gcd u0 v0 = 2 ^ shift * Nat.gcd u1 v1 := by
    rw [hu0val, hv0val]
    exact Nat.gcd_mul_left _ _ _
  constructor
  · rw [hg, hggcd]
    push_cast
    ring
  · have hxval : (if x < 0 then -(mpz_gcdext_loop (u1 : ℤ) (v1 : ℤ)
        (u1 + v1) u1 v1 1 0 0 1).2.1 else (mpz_gcdext_loop (u1 : ℤ) (v1 : ℤ)
        (u1 + v1) u1 v1 1 0 0 1).2.1) * x
        = (mpz_gcdext_loop (u1 : ℤ) (v1 : ℤ) (u1 + v1) u1 v1 1 0 0 1).2.1
          * (u0 : ℤ) := by
      split
      · have h2 : x = -(u0 : ℤ) := by
          rw [hu0def, Int.ofNat_natAbs_of_nonpos (by omega)]
          ring
        rw [h2]
        ring
      · have h2 : x = (u0 : ℤ) := by
          rw [hu0def, Int.natAbs_of_nonneg (by omega)]
        rw [h2]
    have hyval : (if y < 0 then -(mpz_gcdext_loop (u1 : ℤ) (v1 : ℤ)
        (u1 + v1) u1 v1 1 0 0 1).2.2 else (mpz_gcdext_loop (u1 : ℤ) (v1 : ℤ)
        (u1 + v1) u1 v1 1 0 0 1).2.2) * y
        = (mpz_gcdext_loop (u1 : ℤ) (v1 : ℤ) (u1 + v1) u1 v1 1 0 0 1).2.2
          * (v0 : ℤ) := by
      split
      · have h2 : y = -(v0 : ℤ) := by
          rw [hv0def, Int.ofNat_natAbs_of_nonpos (by omega)]
          ring
        rw [h2]
        ring
      · have h2 : y = (v0 : ℤ) := by
          rw [hv0def, Int.natAbs_of_nonneg (by omega)]
        rw [h2]
    rw [hxval, hyval]
    rw [show (u0 : ℤ) = ((2 ^ shift * u1 : ℕ) : ℤ) from by rw [← hu0val]]
    rw [show (v0 : ℤ) = ((2 ^ shift * v1 : ℕ) : ℤ) from by rw [← hv0val]]
    push_cast
    calc (mpz_gcdext_loop (u1 : ℤ) (v1 : ℤ) (u1 + v1) u1 v1 1 0 0 1).2.1
          * (2 ^ shift * (u1 : ℤ))
        + (mpz_gcdext_loop (u1 : ℤ) (v1 : ℤ) (u1 + v1) u1 v1 1 0 0 1).2.2
          * (2 ^ shift * (v1 : ℤ))
        = ((mpz_gcdext_loop (u1 : ℤ) (v1 : ℤ) (u1 + v1) u1 v1 1 0 0 1).2.1 * (u1 : ℤ)
          + (mpz_gcdext_loop (u1 : ℤ) (v1 : ℤ) (u1 + v1) u1 v1 1 0 0 1).2.2 * (v1 : ℤ))
          * 2 ^ shift := by ring
      _ = ((mpz_gcdext_loop (u1 : ℤ) (v1 : ℤ) (u1 + v1) u1 v1 1 0 0 1).1 : ℤ)
          * 2 ^ shift := by rw [hbez]
-- reducing one argument modulo the other keeps the gcd
lemma int_gcd_emod (x m : ℤ) : Int.gcd (x % m) m = Int.gcd x m := by
  have hdef : x % m = x - m * (x / m) := Int.emod_def x m
  apply Nat.dvd_antisymm
  · rw [← Int.natCast_dvd_natCast]
    apply Int.dvd_gcd
    · have h1 : (Int.gcd (x % m) m : ℤ) ∣ x % m := Int.gcd_dvd_left
      have h2 : (Int.gcd (x % m) m : ℤ) ∣ m := Int.gcd_dvd_right
      have h3 : (Int.gcd (x % m) m : ℤ) ∣ m * (x / m) := Dvd.dvd.mul_right h2 _
      have h4 : x = x % m + m * (x / m) := by omega
      have h5 := dvd_add h1 h3
      rwa [← h4] at h5
    · exact Int.gcd_dvd_right
  · rw [← Int.natCast_dvd_natCast]
    apply Int.dvd_gcd
    · have h1 : (Int.gcd x m : ℤ) ∣ x := Int.gcd_dvd_left
      have h2 : (Int.gcd x m : ℤ) ∣ m := Int.gcd_dvd_right
      have h3 : (Int.gcd x m : ℤ) ∣ m * (x / m) := Dvd.dvd.mul_right h2 _
      rw [hdef]
      exact dvd_sub h1 h3
    · exact Int.gcd_dvd_right

-- successful mpn_invert lifts to an integer inverse modulo |y|
lemma mpz_invert_odd_core (x y : ℤ) (x2 : ℕ) (hodd : y.natAbs % 2 = 1)
    (hY : y.natAbs ≠ 1) (hY1 : 1 ≤ y.natAbs)
    (hx2lt : x2 < y.natAbs)
    (hx2eq : (x2 : ℤ) % (y.natAbs : ℤ) = x % (y.natAbs : ℤ))
    (hgcd_eq : Nat.gcd x2 y.natAbs = Int.gcd x y) :
    (((mpn_invert x2 y.natAbs).map (fun b : ℕ => (b : ℤ))).isSome
      ↔ (Int.gcd x y = 1 ∧ 1 < y.natAbs)) ∧
    (∀ z, (mpn_invert x2 y.natAbs).map (fun b : ℕ => (b : ℤ)) = some z →
      z * x ≡ 1 [ZMOD y]) := by
  have habs : ∀ a b : ℤ, a ≡ b [ZMOD (y.natAbs : ℤ)] → a ≡ b [ZMOD y] := by
    intro a b hab
    have h2 : ((y.natAbs : ℤ)) ∣ b - a := Int.ModEq.dvd hab
    rw [Int.modEq_iff_dvd]
    rcases Int.natAbs_eq y with h3 | h3
    · rw [← h3] at h2
      exact h2
    · rw [← Int.neg_dvd, ← h3] at h2
      exact h2
  obtain ⟨hsome, hnone⟩ := mpn_invert_correct x2 y.natAbs hodd hx2lt
  constructor
  · rcases hopt : mpn_invert x2 y.natAbs with _ | b
    · simp only [Option.map_none', Option.isSome_none,
        Bool.false_eq_true, false_iff]
      rw [hopt] at hnone
      have h4 := hnone.mp rfl
      rintro ⟨hg, _⟩
      rcases h4 with h5 | h5
      · rw [hgcd_eq] at h5
        exact h5 hg
      · exact hY h5
    · simp only [Option.map_some', Option.isSome_some, true_iff]
      obtain ⟨hg, _, _⟩ := hsome b hopt
      rw [hgcd_eq] at hg
      refine ⟨hg, ?_⟩
      omega
  · intro z hz
    rcases hopt : mpn_invert x2 y.natAbs with _ | b
    · rw [hopt] at hz
      simp at hz
    · rw [hopt] at hz
      simp only [Option.map_some', Option.some_inj] at hz
      obtain ⟨_, _, hbinv⟩ := hsome b hopt
      have hbz : ((b : ℤ) * (x2 : ℤ)) ≡ 1 [ZMOD (y.natAbs : ℤ)] := by
        show ((b : ℤ) * (x2 : ℤ)) % (y.natAbs : ℤ) = (1 : ℤ) % (y.natAbs : ℤ)
        exact_mod_cast hbinv
      have hxx2 : (x2 : ℤ) ≡ x [ZMOD (y.natAbs : ℤ)] := hx2eq
      have hfull : (b : ℤ) * x ≡ 1 [ZMOD (y.natAbs : ℤ)] := by
        calc (b : ℤ) * x ≡ (b : ℤ) * (x2 : ℤ) [ZMOD (y.natAbs : ℤ)] :=
              Int.ModEq.mul_left _ hxx2.symm
          _ ≡ 1 [ZMOD (y.natAbs : ℤ)] := hbz
      rw [← hz]
      exact habs _ _ hfull

-- C5 (amended): mpz_invert succeeds exactly when gcd(x, y) = 1 and
-- |y| > 1, and a successful result is a modular inverse of x
theorem mpz_invert_correct (x y : ℤ) :
    ((mpz_invert x y).isSome ↔ (Int.gcd x y = 1 ∧ 1 < y.natAbs)) ∧
    (∀ z, mpz_invert x y = some z → z * x ≡ 1 [ZMOD y]) := by
  by_cases h0 : x = 0 ∨ y = 0
  · rw [mpz_invert, if_pos h0]
    refine ⟨?_, fun z hz => by simp at hz⟩
    simp only [Option.isSome_none, Bool.false_eq_true, false_iff]
    rintro ⟨hg, hy⟩
    rcases h0 with h | h
    · rw [h] at hg
      rw [Int.gcd] at hg
      simp at hg
      omega
    · rw [h] at hy
      simp at hy
  · push_neg at h0
    obtain ⟨hx0, hy0⟩ := h0
    have hY1 : 1 ≤ y.natAbs := Int.natAbs_pos.mpr hy0
    rw [mpz_invert, if_neg (by push_neg; exact ⟨hx0, hy0⟩)]
    by_cases hY : y.natAbs = 1
    · rw [if_pos hY]
      refine ⟨?_, fun z hz => by simp at hz⟩
      simp only [Option.isSome_none, Bool.false_eq_true, false_iff]
      rintro ⟨_, hy⟩
      omega
    · rw [if_neg hY]
      have hY2 : 2 ≤ y.natAbs := by omega
      have habs : ∀ a b : ℤ, a ≡ b [ZMOD (y.natAbs : ℤ)] → a ≡ b [ZMOD y] := by
        intro a b hab
        have h2 : ((y.natAbs : ℤ)) ∣ b - a := Int.ModEq.dvd hab
        rw [Int.modEq_iff_dvd]
        rcases Int.natAbs_eq y with h3 | h3
        · rw [← h3] at h2
          exact h2
        · rw [← Int.neg_dvd, ← h3] at h2
          exact h2
      by_cases hodd : y.natAbs % 2 = 1
      · rw [if_pos hodd]
        by_cases hred : x < 0 ∨ y.natAbs ≤ x.natAbs
        · rw [if_pos hred]
          have hmod_nonneg : 0 ≤ x % (y.natAbs : ℤ) :=
            Int.emod_nonneg x (by exact_mod_cast (by omega : y.natAbs ≠ 0))
          have hmod_lt : x % (y.natAbs : ℤ) < (y.natAbs : ℤ) :=
            Int.emod_lt_of_pos x (by exact_mod_cast (by omega : 0 < y.natAbs))
          have hx2val : (((x % (y.natAbs : ℤ)).toNat : ℤ)) = x % (y.natAbs : ℤ) :=
            Int.toNat_of_nonneg hmod_nonneg
          have hx2lt : (x % (y.natAbs : ℤ)).toNat < y.natAbs := by omega
          apply mpz_invert_odd_core x y _ hodd hY hY1 hx2lt
          · rw [hx2val]
            exact Int.emod_emod_of_dvd x dvd_rfl
          · have h1 : Int.gcd (x % (y.natAbs : ℤ)) (y.natAbs : ℤ)
                = Int.gcd x (y.natAbs : ℤ) := int_gcd_emod x (y.natAbs : ℤ)
            have h2gen : ∀ (t n : ℕ), Int.gcd (t : ℤ) (n : ℤ) = Nat.gcd t n := by
              intro t n
              show ((t : ℤ)).natAbs.gcd ((n : ℤ)).natAbs = t.gcd n
              rw [Int.natAbs_ofNat, Int.natAbs_ofNat]
            have h2 : Int.gcd (x % (y.natAbs : ℤ)) (y.natAbs : ℤ)
                = Nat.gcd (x % (y.natAbs : ℤ)).toNat y.natAbs := by
              conv_lhs => rw [← hx2val]
              exact h2gen _ _
            have h3 : Int.gcd x (y.natAbs : ℤ) = Int.gcd x y := by
              rw [Int.gcd, Int.gcd, Int.natAbs_ofNat]
            omega
        · rw [if_neg hred]
          push_neg at hred
          obtain ⟨hxpos, hxlt⟩ := hred
          have hxval : ((x.natAbs : ℤ)) = x := Int.natAbs_of_nonneg hxpos
          apply mpz_invert_odd_core x y _ hodd hY hY1 hxlt
          · rw [hxval]
          · rfl
      · rw [if_neg hodd]
        obtain ⟨hg1, hbez⟩ := mpz_gcdext_correct x y hx0 hy0
        by_cases hgone : (mpz_gcdext x y).1 = 1
        · rw [if_pos hgone]
          have hgcd1 : Int.gcd x y = 1 := by
            rw [hgone] at hg1
            exact_mod_cast hg1.symm
          constructor
          · simp only [Option.isSome_some, true_iff]
            exact ⟨hgcd1, by omega⟩
          · intro z hz
            simp only [Option.some_inj] at hz
            have h1 : (mpz_gcdext x y).2.1 * x + (mpz_gcdext x y).2.2 * y = 1 := by
              rw [hbez, hgone]
            have h2 : (mpz_gcdext x y).2.1 * x ≡ 1 [ZMOD y] := by
              rw [Int.modEq_iff_dvd]
              exact ⟨(mpz_gcdext x y).2.2, by linarith⟩
            have h3 : z ≡ (mpz_gcdext x y).2.1 [ZMOD y] := by
              apply habs
              rw [← hz]
              show (mpz_gcdext x y).2.1 % (y.natAbs : ℤ) % (y.natAbs : ℤ)
                  = (mpz_gcdext x y).2.1 % (y.natAbs : ℤ)
              exact Int.emod_emod_of_dvd _ dvd_rfl
            calc z * x ≡ (mpz_gcdext x y).2.1 * x [ZMOD y] :=
                  Int.ModEq.mul_right x h3
              _ ≡ 1 [ZMOD y] := h2
        · rw [if_neg hgone]
          refine ⟨?_, fun z hz => by simp at hz⟩
          simp only [Option.isSome_none, Bool.false_eq_true, false_iff]
          rintro ⟨hg, _⟩
          apply hgone
          rw [hg1]
          show ((Int.gcd x y : ℕ) : ℤ) = 1
          rw [hg]
          norm_num
-- C9: with a negative exponent, powm inverts x modulo m and raises
-- the inverse; a missing inverse aborts
theorem mpz_powm_neg_correct (x y m : ℤ) (hm : m ≠ 0) (hy : y < 0) :
    (mpz_powm x y m = none ↔ ¬(Int.gcd x m = 1 ∧ 1 < m.natAbs)) ∧
    (∀ t, mpz_invert x m = some t →
      mpz_powm x y m = some (mpz_powm_inner t y m) ∧ t * x ≡ 1 [ZMOD m]) := by
  obtain ⟨hiff, hinv⟩ := mpz_invert_correct x m
  rw [mpz_powm, if_neg hm, if_pos hy]
  constructor
  · rw [Option.map_eq_none']
    rw [← Option.not_isSome_iff_eq_none]
    constructor
    · intro h1 h2
      exact h1 (by rw [hiff]; exact h2)
    · intro h1 h2
      rw [hiff] at h2
      exact h1 h2
  · intro t ht
    rw [ht]
    exact ⟨rfl, hinv t ht⟩

/-! ## Claim theorems -/

/-- C1: for a numerator `n` of `nn` limbs and a divisor `d` of `dn`
limbs with non-zero top limb and `1 ≤ dn ≤ nn`, `mpn_divmod` returns a
quotient of `nn - dn + 1` limbs and a remainder with `n = q*d + r` and
`0 ≤ r < d`; the proof covers the exceptional path of Algorithm D
(leading numerator limb equal to the leading divisor limb, trial digit
`B - 1`, add-back correction). -/
theorem C1_mpn_divmod_euclidean (L n nn d dn : ℕ) (hL : 1 ≤ L) (hdn : 1 ≤ dn)
    (hnn : dn ≤ nn) (hn : n < (2 ^ L) ^ nn)
    (hdlo : (2 ^ L) ^ (dn - 1) ≤ d) (hdhi : d < (2 ^ L) ^ dn) :
    mpn_le_val (2 ^ L) (mpn_divmod L n nn d dn).1 * d
      + (mpn_divmod L n nn d dn).2 = n ∧
    (mpn_divmod L n nn d dn).2 < d ∧
    (mpn_divmod L n nn d dn).1.length = nn - dn + 1 ∧
    ∀ x ∈ (mpn_divmod L n nn d dn).1, x < 2 ^ L :=
  mpn_divmod_correct L n nn d dn hL hdn hnn hn hdlo hdhi

/-- Witness for C1 on an input that drives the exceptional path of
Algorithm D: leading numerator limb 0xff equals the leading divisor
limb of d = 0xff81. -/
theorem C1_mpn_divmod_euclidean_witness :
    1 ≤ 8 ∧ 1 ≤ 2 ∧ 2 ≤ 3 ∧ 16744855 < (2 ^ 8) ^ 3 ∧
    (2 ^ 8) ^ (2 - 1) ≤ 65409 ∧ 65409 < (2 ^ 8) ^ 2 ∧
    (mpn_le_val (2 ^ 8) (mpn_divmod 8 16744855 3 65409 2).1 * 65409
        + (mpn_divmod 8 16744855 3 65409 2).2 = 16744855 ∧
      (mpn_divmod 8 16744855 3 65409 2).2 < 65409 ∧
      (mpn_divmod 8 16744855 3 65409 2).1.length = 3 - 2 + 1 ∧
      ∀ x ∈ (mpn_divmod 8 16744855 3 65409 2).1, x < 2 ^ 8) :=
  ⟨by decide, by decide, by decide, by decide, by decide, by decide,
    C1_mpn_divmod_euclidean 8 16744855 3 65409 2 (by decide) (by decide)
      (by decide) (by decide) (by decide) (by decide)⟩

/-- C2: for a normalized single-limb divisor `d` with reciprocal
`v = inv_2by1(d)` and a two-limb numerator `(u1, u0)` with `u1 < d`,
`mp_div_2by1` returns exactly the quotient and remainder of
`u1*B + u0` by `d`, including the unsigned wrap of `r` and the
`r > q0` correction step of Möller–Granlund Algorithm 4. -/
theorem C2_mp_div_2by1_algorithm4 (B d v u1 u0 : ℕ) (hB : 2 ≤ B)
    (hd1 : B ≤ 2 * d) (hd2 : d < B) (hv : v = mp_inv_2by1 B d)
    (hu1 : u1 < d) (hu0 : u0 < B) :
    mp_div_2by1 B d v u1 u0 = ((u1 * B + u0) / d, (u1 * B + u0) % d) :=
  mp_div_2by1_correct B d v u1 u0 hB hd1 hd2 hv hu1 hu0

/-- Witness for C2 at `B = 16`, `d = 9`, `u1 = 5`, `u0 = 7`. -/
theorem C2_mp_div_2by1_algorithm4_witness :
    2 ≤ 16 ∧ 16 ≤ 2 * 9 ∧ 9 < 16 ∧ (12 : ℕ) = mp_inv_2by1 16 9 ∧ 5 < 9 ∧ 7 < 16 ∧
    mp_div_2by1 16 9 12 5 7 = ((5 * 16 + 7) / 9, (5 * 16 + 7) % 9) :=
  ⟨by decide, by decide, by decide, by decide, by decide, by decide,
    C2_mp_div_2by1_algorithm4 16 9 12 5 7 (by decide) (by decide) (by decide)
      (by decide) (by decide) (by decide)⟩

/-- C3: with `m` precomputed by `mpn_barrett` under `shift ≥ 2*n`,
`mpn_reduce` on an input of `shift` limbs returns a value congruent to
`x` modulo `N` and strictly below `N`: the single masked subtraction of
`mpn_reduce_weak` always suffices. -/
theorem C3_mpn_reduce_barrett (L n shift m N x : ℕ) (hL : 1 ≤ L) (hn : 1 ≤ n)
    (hNlo : (2 ^ L) ^ (n - 1) ≤ N) (hNhi : N < (2 ^ L) ^ n)
    (hshift : 2 * n ≤ shift) (hx : x < (2 ^ L) ^ shift)
    (hm : m = mpn_barrett L shift N) :
    mpn_reduce L n shift m N x % N = x % N ∧ mpn_reduce L n shift m N x < N :=
  mpn_reduce_correct L n shift m N x hL hn hNlo hNhi hshift hx hm

/-- Witness for C3 at `L = 4`, `n = 1`, `shift = 2`, `N = 9`,
`x = 200`. -/
theorem C3_mpn_reduce_barrett_witness :
    1 ≤ 4 ∧ 1 ≤ 1 ∧ (2 ^ 4) ^ (1 - 1) ≤ 9 ∧ 9 < (2 ^ 4) ^ 1 ∧
    2 * 1 ≤ 2 ∧ 200 < (2 ^ 4) ^ 2 ∧ (28 : ℕ) = mpn_barrett 4 2 9 ∧
    (mpn_reduce 4 1 2 28 9 200 % 9 = 200 % 9 ∧ mpn_reduce 4 1 2 28 9 200 < 9) :=
  ⟨by decide, by decide, by decide, by decide, by decide, by decide, by decide,
    C3_mpn_reduce_barrett 4 1 2 28 9 200 (by decide) (by decide) (by decide)
      (by decide) (by decide) (by decide) (by decide)⟩

/-- C4, counterexample to the claimed value test for the zero base:
with `x = 0` passed as a one-limb buffer (`xn = 1`), `y = 1` and the
normalized modulus `m = 3`, none of the early returns fires — the
source tests the limb count `xn == 0`, not the value of `x` — and the
dispatch continues into the exponentiation engines instead of
returning 0. -/
theorem C4_mpn_powm_cex :
    mpn_powm 4 0 1 1 3 1 = none ∧ (2 ^ 4) ^ (1 - 1) ≤ 3 ∧ 3 < (2 ^ 4) ^ 1 ∧
    (0 : ℕ) ≤ 3 ∧ (3 : ℕ) ≠ 1 ∧ (1 : ℕ) ≠ 0 := by
  refine ⟨?_, ?_, ?_, ?_, ?_, ?_⟩ <;> decide

/-- C4 (amended): the `mpn_powm` dispatch, for a modulus with non-zero
top limb and `xn ≤ mn`, returns 0 when `m = 1`, otherwise 1 when
`y = 0` (the source strips the exponent before the length test, so
that test is a value test), otherwise 0 when `xn = 0` — the zero-base
test is on the limb count of `x`, not on its value — the checks
applied in the order of the source. -/
theorem C4_mpn_powm_dispatch_amended (L x xn y m mn : ℕ) (hL : 1 ≤ L)
    (hmn : 1 ≤ mn) (htop : (2 ^ L) ^ (mn - 1) ≤ m) (hm : m < (2 ^ L) ^ mn)
    (hx : xn ≤ mn) :
    (m = 1 → mpn_powm L x xn y m mn = some 0) ∧
    (m ≠ 1 → y = 0 → mpn_powm L x xn y m mn = some 1) ∧
    (m ≠ 1 → y ≠ 0 → xn = 0 → mpn_powm L x xn y m mn = some 0) :=
  mpn_powm_dispatch L x xn y m mn hL hmn htop hm hx

/-- Witness for C4 at `L = 4`, `m = 3`, `xn = 0`, `y = 1`, exercising
the zero-limb-count base return. -/
theorem C4_mpn_powm_dispatch_amended_witness :
    1 ≤ 4 ∧ 1 ≤ 1 ∧ (2 ^ 4) ^ (1 - 1) ≤ 3 ∧ 3 < (2 ^ 4) ^ 1 ∧ 0 ≤ 1 ∧
    ((3 = 1 → mpn_powm 4 0 0 1 3 1 = some 0) ∧
      (3 ≠ 1 → 1 = 0 → mpn_powm 4 0 0 1 3 1 = some 1) ∧
      (3 ≠ 1 → 1 ≠ 0 → 0 = 0 → mpn_powm 4 0 0 1 3 1 = some 0)) :=
  ⟨by decide, by decide, by decide, by decide, by decide,
    C4_mpn_powm_dispatch_amended 4 0 0 1 3 1 (by decide) (by decide) (by decide)
      (by decide) (by decide)⟩

/-- C5, counterexample to the claimed failure condition: with `x = 3`
and `m = 1` the gcd is 1, yet `mpz_invert` fails (the code rejects
`|m| = 1` before any gcd computation). -/
theorem C5_mpz_invert_cex : mpz_invert 3 1 = none ∧ Int.gcd 3 1 = 1 := by
  constructor
  · decide
  · decide

/-- C5 (amended): `mpz_invert` succeeds exactly when `gcd(x, m) = 1`
and `|m| > 1`; on success the result is a modular inverse of `x` (on
failure the C function clears the output and returns 0, modelled by
`none`). -/
theorem C5_mpz_invert_amended (x m : ℤ) :
    ((mpz_invert x m).isSome ↔ (Int.gcd x m = 1 ∧ 1 < m.natAbs)) ∧
    (∀ z, mpz_invert x m = some z → z * x ≡ 1 [ZMOD m]) :=
  mpz_invert_correct x m

/-- C6: `mpz_subabs` and `mpz_quorem` preserve the representation
invariant: a non-zero result size names a non-zero top limb, and zero
is represented with size 0 (for `mpz_quorem` the single decrement
`qn -= (qp[qn-1] == 0)` suffices because the quotient of an `nn`-limb
by a `dn`-limb number needs at least `nn - dn` limbs). -/
theorem C6_mpz_strip_invariant (L : ℕ) (x y n d : mpzR) (hL : 1 ≤ L)
    (hx : mpz_valid L x) (hy : mpz_valid L y) (hn : mpz_valid L n)
    (hd : mpz_valid L d) (hyx : mpz_absval L y ≤ mpz_absval L x)
    (hd0 : d.size ≠ 0) :
    mpz_ok (mpz_subabs L x y) ∧
    mpz_ok (mpz_quorem L n d).1 ∧ mpz_ok (mpz_quorem L n d).2 :=
  mpz_strip_invariants L x y n d hL hx hy hn hd hyx hd0

/-- Witness for C6 at `L = 4` with `x = 5`, `y = 3`, `n = 16`,
`d = 3`. -/
theorem C6_mpz_strip_invariant_witness :
    1 ≤ 4 ∧ mpz_valid 4 ⟨1, [5]⟩ ∧ mpz_valid 4 ⟨1, [3]⟩ ∧
    mpz_valid 4 ⟨2, [0, 1]⟩ ∧ mpz_valid 4 ⟨1, [3]⟩ ∧
    mpz_absval 4 ⟨1, [3]⟩ ≤ mpz_absval 4 ⟨1, [5]⟩ ∧
    (⟨1, [3]⟩ : mpzR).size ≠ 0 ∧
    (mpz_ok (mpz_subabs 4 ⟨1, [5]⟩ ⟨1, [3]⟩) ∧
      mpz_ok (mpz_quorem 4 ⟨2, [0, 1]⟩ ⟨1, [3]⟩).1 ∧
      mpz_ok (mpz_quorem 4 ⟨2, [0, 1]⟩ ⟨1, [3]⟩).2) :=
  ⟨by decide, by decide, by decide, by decide, by decide, by decide, by decide,
    C6_mpz_strip_invariant 4 ⟨1, [5]⟩ ⟨1, [3]⟩ ⟨2, [0, 1]⟩ ⟨1, [3]⟩
      (by decide) (by decide) (by decide) (by decide) (by decide)
      (by decide) (by decide)⟩

/-- C7, counterexample to the claimed flip condition: for `x = -2` and
`pos = 1` every bit of `|x|` below `pos` is zero, the stored bit is 1,
and the code returns the stored bit unchanged (1, the correct bit of
`...11110`), not the stored bit XOR 1 that the claim prescribes. -/
theorem C7_mpz_tstbit_neg_cex :
    mpz_tstbit 4 ⟨-1, [2]⟩ 1 = 1 ∧
    mpz_absval 4 ⟨-1, [2]⟩ % 2 ^ 1 = 0 ∧
    mpz_absval 4 ⟨-1, [2]⟩ / 2 ^ 1 % 2 = 1 := by
  refine ⟨?_, ?_, ?_⟩ <;> decide

/-- C7 (amended): on a negative `x` with `pos` below the top stored
limb, `mpz_tstbit` returns the stored bit of `|x|` XOR 1 when some bit
of `|x|` below `pos` is non-zero, and the stored bit unchanged when
all lower bits are zero; this is the bit of the infinite-width
2-complement representation of `x`. -/
theorem C7_mpz_tstbit_neg_amended (L : ℕ) (x : mpzR) (pos : ℕ) (hL : 1 ≤ L)
    (hv : mpz_valid L x) (hneg : x.size < 0) (hpos : pos / L < x.size.natAbs) :
    mpz_tstbit L x pos =
      (if mpz_absval L x % 2 ^ pos = 0 then mpz_absval L x / 2 ^ pos % 2
       else 1 - mpz_absval L x / 2 ^ pos % 2) ∧
    (mpz_tstbit L x pos : ℤ) = mpz_val L x / 2 ^ pos % 2 :=
  mpz_tstbit_neg L x pos hL hv hneg hpos

/-- Witness for C7 at `x = -2`, `pos = 1`, `L = 4`. -/
theorem C7_mpz_tstbit_neg_amended_witness :
    1 ≤ 4 ∧ mpz_valid 4 ⟨-1, [2]⟩ ∧ (⟨-1, [2]⟩ : mpzR).size < 0 ∧
    1 / 4 < (⟨-1, [2]⟩ : mpzR).size.natAbs ∧
    (mpz_tstbit 4 ⟨-1, [2]⟩ 1 =
        (if mpz_absval 4 ⟨-1, [2]⟩ % 2 ^ 1 = 0 then
          mpz_absval 4 ⟨-1, [2]⟩ / 2 ^ 1 % 2
         else 1 - mpz_absval 4 ⟨-1, [2]⟩ / 2 ^ 1 % 2) ∧
      (mpz_tstbit 4 ⟨-1, [2]⟩ 1 : ℤ) = mpz_val 4 ⟨-1, [2]⟩ / 2 ^ 1 % 2) :=
  ⟨by decide, by decide, by decide, by decide,
    C7_mpz_tstbit_neg_amended 4 ⟨-1, [2]⟩ 1 (by decide) (by decide)
      (by decide) (by decide)⟩

/-- C8, counterexample to banker' s rounding: `divround 5 2 = 3` is an
exact tie (`2*|5 - 3*2| = |2|`) rounded to the odd neighbor 3, not to
the even neighbor 2 that round-half-to-even would give for the even
divisor 2. -/
theorem C8_mpz_divround_cex :
    mpz_divround 5 2 = 3 ∧
    2 * ((5 : ℤ) - 3 * 2).natAbs = (2 : ℤ).natAbs ∧
    (3 : ℤ) % 2 ≠ 0 := by
  refine ⟨?_, ?_, ?_⟩ <;> decide

/-- C8 (amended): for `d ≠ 0`, `mpz_divround` computes
`(n ± (d quo 2)) quo d`, the nearest quotient: the remainder
`n - q*d` satisfies `2*|n - q*d| ≤ |d|`, and an exact tie rounds away
from zero (`|n| < |q*d|`), not to the even neighbor. -/
theorem C8_mpz_divround_nearest (n d : ℤ) (hd : d ≠ 0) :
    2 * (n - mpz_divround n d * d).natAbs ≤ d.natAbs ∧
    (2 * (n - mpz_divround n d * d).natAbs = d.natAbs →
      n.natAbs < (mpz_divround n d * d).natAbs) :=
  mpz_divround_correct n d hd

/-- Witness for C8 at `n = 7`, `d = 3`. -/
theorem C8_mpz_divround_nearest_witness :
    (3 : ℤ) ≠ 0 ∧
    (2 * ((7 : ℤ) - mpz_divround 7 3 * 3).natAbs ≤ (3 : ℤ).natAbs ∧
      (2 * ((7 : ℤ) - mpz_divround 7 3 * 3).natAbs = (3 : ℤ).natAbs →
        (7 : ℤ).natAbs < (mpz_divround 7 3 * 3).natAbs)) :=
  ⟨by decide, C8_mpz_divround_nearest 7 3 (by decide)⟩

/-- C9: with `m ≠ 0` and a negative exponent, `mpz_powm` first inverts
`x` modulo `m` and hands the inverse to the inner power
(`(x⁻¹ mod m)^|y| mod m`); when `x` is not invertible the call aborts
(`none`) instead of returning an error. -/
theorem C9_mpz_powm_neg (x y m : ℤ) (hm : m ≠ 0) (hy : y < 0) :
    (mpz_powm x y m = none ↔ ¬(Int.gcd x m = 1 ∧ 1 < m.natAbs)) ∧
    (∀ t, mpz_invert x m = some t →
      mpz_powm x y m = some (mpz_powm_inner t y m) ∧ t * x ≡ 1 [ZMOD m]) :=
  mpz_powm_neg_correct x y m hm hy

/-- Witness for C9 at `x = 3`, `y = -2`, `m = 5`. -/
theorem C9_mpz_powm_neg_witness :
    (5 : ℤ) ≠ 0 ∧ (-2 : ℤ) < 0 ∧
    ((mpz_powm 3 (-2) 5 = none ↔ ¬(Int.gcd 3 5 = 1 ∧ 1 < (5 : ℤ).natAbs)) ∧
      (∀ t, mpz_invert 3 5 = some t →
        mpz_powm 3 (-2) 5 = some (mpz_powm_inner t (-2) 5) ∧
          t * 3 ≡ 1 [ZMOD 5])) :=
  ⟨by decide, by decide, C9_mpz_powm_neg 3 (-2) 5 (by decide) (by decide)⟩

/-- C10: for `pos` at or beyond the top stored limb, `mpz_tstbit`
returns 1 exactly when `x` is negative and 0 otherwise, the bit of the
infinite sign extension of the 2-complement value. -/
theorem C10_mpz_tstbit_high (L : ℕ) (x : mpzR) (pos : ℕ) (hL : 1 ≤ L)
    (hv : mpz_valid L x) (hpos : x.size.natAbs ≤ pos / L) :
    mpz_tstbit L x pos = (if x.size < 0 then 1 else 0) ∧
    (mpz_tstbit L x pos : ℤ) = mpz_val L x / 2 ^ pos % 2 :=
  mpz_tstbit_high L x pos hL hv hpos

/-- Witness for C10 at `x = -3` (one limb), `pos = 8`, `L = 4`. -/
theorem C10_mpz_tstbit_high_witness :
    1 ≤ 4 ∧ mpz_valid 4 ⟨-1, [3]⟩ ∧ (⟨-1, [3]⟩ : mpzR).size.natAbs ≤ 8 / 4 ∧
    (mpz_tstbit 4 ⟨-1, [3]⟩ 8 = (if (⟨-1, [3]⟩ : mpzR).size < 0 then 1 else 0) ∧
      (mpz_tstbit 4 ⟨-1, [3]⟩ 8 : ℤ) = mpz_val 4 ⟨-1, [3]⟩ / 2 ^ 8 % 2) :=
  ⟨by decide, by decide, by decide,
    C10_mpz_tstbit_high 4 ⟨-1, [3]⟩ 8 (by decide) (by decide) (by decide)⟩
